import Mathlib

/-!
The value type `big_integer`.

A shallow embedding of `src/bigint/big_integer.cpp`: a sign-magnitude
arbitrary-precision integer whose magnitude is a little-endian vector of
32-bit limbs.  `std::vector<uint32_t>` is a `List Nat`; machine arithmetic is
arithmetic on `Nat` reduced modulo `2^32` or `2^64` where the C++ type is
`uint32_t` or `uint64_t`; `std::string` is its list of characters.
-/

/-- The limb base, `static const int64_t BASE = UINT32_MAX + 1ULL`. -/
def BASE : Nat := 4294967296

/-- The decimal chunk base, `static const uint32_t DIGIT_BASE = 1000000000`. -/
def DIGIT_BASE : Nat := 1000000000

/-- The ways an operation can fail.  `invalid_argument` and `division_by_zero`
are the two exceptions the source throws; `machine_division_by_zero` is an
integer division whose divisor is zero (undefined behaviour in C++);
`out_of_fuel` is the model's loop budget being exhausted. -/
inductive failure where
  | invalid_argument
  | division_by_zero
  | machine_division_by_zero
  | out_of_fuel
deriving DecidableEq

/-- The struct `big_integer`: `bool sign; std::vector<uint32_t> number;`. -/
structure big_integer where
  sign : Bool
  number : List Nat
deriving DecidableEq

namespace big_integer

/-- Every limb fits the type `uint32_t`. -/
def limbs_ok (l : List Nat) : Prop := ∀ x ∈ l, x < BASE

instance (l : List Nat) : Decidable (limbs_ok l) := by
  unfold limbs_ok; infer_instance

/-- The representation invariant: limbs are 32-bit and the most significant
limb, if there is one, is not zero. -/
def normalized (a : big_integer) : Prop :=
  limbs_ok a.number ∧ a.number.getLast? ≠ some 0

instance (a : big_integer) : Decidable (normalized a) := by
  unfold normalized; infer_instance

/-- The magnitude a limb vector denotes: the sum of `limb[i] * 2^(32*i)`. -/
def mag : List Nat → Nat
  | [] => 0
  | x :: xs => x + BASE * mag xs

/-- The integer a value denotes: `(-1)^sign * mag number`. -/
def val (a : big_integer) : Int :=
  if a.sign then -(mag a.number : Int) else (mag a.number : Int)

/-- The sum of `n` limbs starting at index `i` (a limb past the end is 0),
weighted from `BASE^0`. -/
def magN (l : List Nat) : Nat → Nat → Nat
  | _, 0 => 0
  | i, n + 1 => l.getD i 0 + BASE * magN l (i + 1) n

/-- `std::vector::resize(n)`: truncate, or extend with zero limbs. -/
def resize (v : List Nat) (n : Nat) : List Nat :=
  v.take n ++ List.replicate (n - v.length) 0

/-- `is_zero`: the limb vector is empty. -/
def is_zero (a : big_integer) : Bool := a.number.isEmpty

/-- The loop of `cut_leading_zero`: `i` is the current size; while the last
limb is zero it is popped. -/
def cut_leading_zero_loop : Nat → List Nat → List Nat
  | 0, number => number
  | i + 1, number =>
    if number.getD i 0 = 0 then cut_leading_zero_loop i number.dropLast else number

/-- `cut_leading_zero(num)`: pops the most significant limbs that are zero. -/
def cut_leading_zero (num : big_integer) : big_integer :=
  { num with number := cut_leading_zero_loop num.number.length num.number }

/-- The loop of `fill_vector`: `number[i] = a % BASE; a /= BASE; i++` while
`a > 0`.  The argument is a 64-bit value, so the loop leaves after at most two
rounds; the first argument bounds the rounds by the size of `number`. -/
def fill_vector_loop : Nat → Nat → Nat → List Nat → List Nat
  | 0, _, _, number => number
  | fuel + 1, a, i, number =>
    if a > 0 then fill_vector_loop fuel (a / BASE) (i + 1) (number.set i (a % BASE))
    else number

/-- `fill_vector(a)` on a value whose `number` was pre-sized by the constructor. -/
def fill_vector (self : big_integer) (a : Nat) : big_integer :=
  cut_leading_zero
    { self with number := fill_vector_loop self.number.length (a % 2 ^ 64) 0 self.number }

/-- The constructor `big_integer(int a)`: `sign(a < 0), number(2)`, then
`fill_vector(std::abs((int64_t)a))`. -/
def of_int (a : Int) : big_integer :=
  fill_vector ⟨decide (a < 0), [0, 0]⟩ a.natAbs

/-- The constructor `big_integer(unsigned a)`. -/
def of_unsigned (a : Nat) : big_integer :=
  fill_vector ⟨false, [0, 0]⟩ a

/-- The constructor `big_integer(long long a)`; `INT64_MIN` is filled from
`INT64_MAX + 1ULL`, every other value from `std::abs(a)`. -/
def of_long_long (a : Int) : big_integer :=
  if a = -9223372036854775808 then fill_vector ⟨decide (a < 0), [0, 0, 0]⟩ (9223372036854775807 + 1)
  else fill_vector ⟨decide (a < 0), [0, 0, 0]⟩ a.natAbs

/-- The constructor `big_integer(unsigned long long a)`, also reached from
`unsigned long` and so from every `uint64_t` operand. -/
def of_unsigned_long_long (a : Nat) : big_integer :=
  fill_vector ⟨false, [0, 0, 0]⟩ a

/-- The loop of `comp_abs_less`, from the most significant limb down: the
first differing limb decides; when none differs the result is `sign`. -/
def comp_abs_less_loop (x y : List Nat) (sign : Bool) : Nat → Bool
  | 0 => sign
  | i + 1 =>
    if x.getD i 0 ≠ y.getD i 0 then decide (x.getD i 0 < y.getD i 0)
    else comp_abs_less_loop x y sign i

/-- `this->comp_abs_less(other)`. -/
def comp_abs_less (self other : big_integer) : Bool :=
  if self.number.length ≠ other.number.length then
    decide (self.number.length < other.number.length)
  else comp_abs_less_loop self.number other.number self.sign self.number.length

/-- `operator==`. -/
def op_eq (a b : big_integer) : Bool :=
  (a.sign == b.sign && a.number == b.number) || (a.is_zero && b.is_zero)

/-- `operator!=`. -/
def op_ne (a b : big_integer) : Bool := !(op_eq a b)

/-- `operator<`. -/
def op_lt (a b : big_integer) : Bool :=
  if a.sign ≠ b.sign then a.sign else Bool.xor a.sign (comp_abs_less a b)

/-- `operator>`. -/
def op_gt (a b : big_integer) : Bool := op_lt b a

/-- `operator<=`. -/
def op_le (a b : big_integer) : Bool := !(op_gt a b)

/-- `operator>=`. -/
def op_ge (a b : big_integer) : Bool := !(op_lt a b)

/-- The state of the loop of `add_abs` after `i` rounds: the carry and the
result buffer. -/
def add_abs_loop (a b res0 : List Nat) : Nat → Nat × List Nat
  | 0 => (0, res0)
  | i + 1 =>
    let s := add_abs_loop a b res0 i
    let cur_bit := (a.getD i 0 + b.getD i 0 + s.1) % 2 ^ 64
    let carry := cur_bit / BASE
    (carry, s.2.set i ((cur_bit - carry * BASE) % 2 ^ 32))

/-- `add_abs(res, a, b)`: `res.number` becomes the limb-wise sum of the two
magnitudes.  The buffer is resized (zero-extended) first and every index is
read before it is written, so the reads of `a` and `b` see the operands as
they were even when `res` is one of them. -/
def add_abs (res a b : big_integer) : big_integer :=
  let max_size := max a.number.length b.number.length
  let s := add_abs_loop a.number b.number (resize res.number (max_size + 1)) max_size
  cut_leading_zero { res with number := s.2.set max_size (s.1 % 2 ^ 32) }

/-- The state of the loop of `sub_abs` after `i` rounds: the borrow (0 or -1)
and the result buffer. -/
def sub_abs_loop (a b diff0 : List Nat) : Nat → Int × List Nat
  | 0 => (0, diff0)
  | i + 1 =>
    let s := sub_abs_loop a b diff0 i
    let cur_bit : Int := (a.getD i 0 : Int) - (b.getD i 0 : Int) + s.1
    if cur_bit < 0 then (-1, s.2.set i ((cur_bit + BASE) % 2 ^ 32).toNat)
    else (0, s.2.set i (cur_bit % 2 ^ 32).toNat)

/-- `sub_abs(diff, a, b)`: `diff.number` becomes the limb-wise difference with
borrow of the two magnitudes. -/
def sub_abs (diff a b : big_integer) : big_integer :=
  let max_size := max a.number.length b.number.length
  let s := sub_abs_loop a.number b.number (resize diff.number max_size) max_size
  cut_leading_zero { diff with number := s.2 }

/-- `operator+=`. -/
def op_add_assign (self rhs : big_integer) : big_integer :=
  if self.sign = rhs.sign then add_abs self self rhs
  else if comp_abs_less self rhs then { sub_abs self rhs self with sign := rhs.sign }
  else { sub_abs self self rhs with sign := !rhs.sign }

/-- `operator-=`. -/
def op_sub_assign (self rhs : big_integer) : big_integer :=
  if self.sign ≠ rhs.sign then { add_abs self self rhs with sign := !rhs.sign }
  else if Bool.xor (op_gt self rhs) self.sign then
    cut_leading_zero { sub_abs self self rhs with sign := rhs.sign }
  else cut_leading_zero { sub_abs self rhs self with sign := !rhs.sign }

/-- The operands `operator-=` passes to `sub_abs`, in call order; `none` on
the path that calls `add_abs`. -/
def op_sub_assign_sub_abs_call (self rhs : big_integer) : Option (big_integer × big_integer) :=
  if self.sign ≠ rhs.sign then none
  else if Bool.xor (op_gt self rhs) self.sign then some (self, rhs)
  else some (rhs, self)

/-- The state of the loops of `mul_bigint_bigint`: the running carry, the
result buffer, and whether every machine operation so far was exact (no 64-bit
intermediate wrapped and no stored limb was truncated). -/
structure mul_state where
  carry : Nat
  res : List Nat
  exact : Bool

/-- The inner loop of `mul_bigint_bigint` for limb `ai = a.number[i]`, after
`j` rounds. -/
def mul_inner_loop (ai : Nat) (b : List Nat) (i : Nat) (res0 : List Nat) (exact0 : Bool) :
    Nat → mul_state
  | 0 => ⟨0, res0, exact0⟩
  | j + 1 =>
    let s := mul_inner_loop ai b i res0 exact0 j
    let wide := ai * b.getD j 0 + s.res.getD (i + j) 0 + s.carry
    let cur_bit := wide % 2 ^ 64
    let carry := cur_bit / BASE
    ⟨carry, s.res.set (i + j) ((cur_bit - BASE * carry) % 2 ^ 32),
      s.exact && decide (wide < 2 ^ 64)⟩

/-- The outer loop of `mul_bigint_bigint` after `i` rounds: the result buffer
and the exactness flag. -/
def mul_outer_loop (a b res0 : List Nat) : Nat → List Nat × Bool
  | 0 => (res0, true)
  | i + 1 =>
    let o := mul_outer_loop a b res0 i
    let s := mul_inner_loop (a.getD i 0) b i o.1 o.2 b.length
    if s.carry > 0 then
      let wide := s.res.getD (i + b.length) 0 + s.carry
      (s.res.set (i + b.length) (wide % 2 ^ 32), s.exact && decide (wide < 2 ^ 32))
    else (s.res, s.exact)

/-- `mul_bigint_bigint(a, b)`: schoolbook multiplication into a fresh buffer of
`a.size + b.size + 1` zero limbs. -/
def mul_bigint_bigint (a b : big_integer) : big_integer :=
  let res0 := resize [] (a.number.length + b.number.length + 1)
  cut_leading_zero
    ⟨Bool.xor a.sign b.sign, (mul_outer_loop a.number b.number res0 a.number.length).1⟩

/-- Whether every machine operation of `mul_bigint_bigint(a, b)` was exact. -/
def mul_bigint_bigint_exact (a b : big_integer) : Bool :=
  (mul_outer_loop a.number b.number
    (resize [] (a.number.length + b.number.length + 1)) a.number.length).2

/-- `operator*=`. -/
def op_mul_assign (self rhs : big_integer) : big_integer := mul_bigint_bigint self rhs

/-- The loop of `divide_long_short`, from limb `i - 1` down to limb 0. -/
def divide_long_short_loop (a : List Nat) (b : Nat) : Nat → Nat → List Nat → List Nat
  | 0, _, res => res
  | i + 1, carry, res =>
    let temp := (carry * BASE + a.getD i 0) % 2 ^ 64
    divide_long_short_loop a b i (temp % b) (res.set i ((temp / b) % 2 ^ 32))

/-- `divide_long_short(a, b)` with `b` a `uint32_t`: short division of the
magnitude; the result is a fresh value (sign false).  Dividing by `b = 0` is a
machine division by zero as soon as the loop runs once. -/
def divide_long_short (a : big_integer) (b : Nat) : Except failure big_integer :=
  if b = 0 ∧ a.number ≠ [] then .error .machine_division_by_zero
  else .ok (cut_leading_zero
    ⟨false, divide_long_short_loop a.number b a.number.length 0 (resize [] a.number.length)⟩)

/-- The loop of `remainder_long_short`, from limb `i - 1` down to limb 0. -/
def remainder_long_short_loop (a : List Nat) (b : Nat) : Nat → Nat → Nat
  | 0, carry => carry
  | i + 1, carry =>
    remainder_long_short_loop a b i (((carry * BASE + a.getD i 0) % 2 ^ 64) % b)

/-- `remainder_long_short(a, b)`: the remainder of the magnitude by the limb
`b`, built with the constructor from `uint64_t`, with the sign of `a`. -/
def remainder_long_short (a : big_integer) (b : Nat) : Except failure big_integer :=
  if b = 0 ∧ a.number ≠ [] then .error .machine_division_by_zero
  else .ok { of_unsigned_long_long (remainder_long_short_loop a.number b a.number.length 0)
             with sign := a.sign }

/-- `trial(a, b, k, m)`: the quotient digit estimated from the two top limbs
of the window of `a` and the top limb of `b`. -/
def trial (a b : big_integer) (k m : Nat) : Except failure Nat :=
  let km := k + m
  if op_eq a (of_int 0) then .ok 0
  else
    let r2 := (a.number.getD km 0 * BASE + a.number.getD (km - 1) 0) % 2 ^ 64
    let d1 := b.number.getD (m - 1) 0
    if d1 = 0 then .error .machine_division_by_zero
    else .ok (min (r2 / d1) (BASE - 1))

/-- The loop of `smaller`: `i` walks down from `m` until a limb of the window
of `r` differs from the limb of `dq`, or until 0. -/
def smaller_loop (r dq : List Nat) (k : Nat) : Nat → Bool
  | 0 => decide (r.getD k 0 < dq.getD 0 0)
  | i + 1 =>
    if r.getD (i + 1 + k) 0 ≠ dq.getD (i + 1) 0 then
      decide (r.getD (i + 1 + k) 0 < dq.getD (i + 1) 0)
    else smaller_loop r dq k i

/-- `smaller(r, dq, k, m)`. -/
def smaller (r dq : big_integer) (k m : Nat) : Bool :=
  smaller_loop r.number dq.number k m

/-- The correction loop of `long_divide`:
`while (qt != 0 && smaller(r, dq, k - 1, m)) { qt--; dq -= d; }`. -/
def correct_loop (r d : big_integer) (k m : Nat) : Nat → big_integer → Nat × big_integer
  | 0, dq => (0, dq)
  | qt + 1, dq =>
    if smaller r dq k m then correct_loop r d k m qt (op_sub_assign dq d)
    else (qt + 1, dq)

/-- The window subtraction of `long_divide` after `i` rounds: the borrow and
the limbs of `r`; round `i` rewrites limb `i + k` of `r`. -/
def window_sub_loop (dq : List Nat) (k : Nat) (r0 : List Nat) : Nat → Nat × List Nat
  | 0 => (0, r0)
  | i + 1 =>
    let s := window_sub_loop dq k r0 i
    let diff := ((s.2.getD (i + k) 0 + 2 ^ 64 - dq.getD i 0 + 2 ^ 64 - s.1) + BASE) % 2 ^ 64
    ((1 + 2 ^ 64 - diff / BASE) % 2 ^ 64, s.2.set (i + k) ((diff % BASE) % 2 ^ 32))

/-- The main loop of `long_divide` for `k` running down to 1; the state is the
quotient buffer and the running remainder. -/
def long_divide_loop (d : big_integer) (m : Nat) :
    Nat → List Nat → big_integer → Except failure (List Nat × big_integer)
  | 0, q, r => .ok (q, r)
  | k + 1, q, r =>
    match trial r d k m with
    | .error e => .error e
    | .ok qt =>
      if qt = 0 then long_divide_loop d m k q r
      else
        let dq := op_mul_assign d (of_unsigned_long_long qt)
        let dq := { dq with number := dq.number ++ [0] }
        let c := correct_loop r d k m qt dq
        let q := q.set k (c.1 % 2 ^ 32)
        let w := window_sub_loop c.2.number k r.number (m + 1)
        long_divide_loop d m k q { r with number := w.2 }

/-- `long_divide(a, b)`: the quotient and remainder of the magnitudes by
Knuth's algorithm D.  The scale is `BASE / (b.number.back() + 1)` with the sum
formed in `uint32_t`, so a top limb of `2^32 - 1` makes the divisor of that
machine division zero.  A limb read past the end of a vector is taken as 0. -/
def long_divide (a b : big_integer) : Except failure (big_integer × big_integer) :=
  let top := (b.number.getLastD 0 + 1) % 2 ^ 32
  if top = 0 then .error .machine_division_by_zero
  else
    let f := BASE / top
    let r := op_mul_assign a (of_unsigned_long_long f)
    let d := op_mul_assign b (of_unsigned_long_long f)
    let q := resize [] (a.number.length - b.number.length + 2)
    let r := { r with number := r.number ++ [0] }
    match long_divide_loop d b.number.length (a.number.length - b.number.length + 1) q r with
    | .error e => .error e
    | .ok (q, r) =>
      let q := cut_leading_zero ⟨false, q⟩
      match divide_long_short r (f % 2 ^ 32) with
      | .error e => .error e
      | .ok r => .ok (q, cut_leading_zero r)

/-- The outcome of a compound assignment that can throw: the receiver after
the call and the exception raised, if any. -/
structure outcome where
  self : big_integer
  error : Option failure
deriving DecidableEq

/-- `operator/=`. -/
def op_div_assign (self rhs : big_integer) : outcome :=
  if op_eq rhs (of_int 0) then ⟨self, some .division_by_zero⟩
  else
    let div_sign := Bool.xor self.sign rhs.sign
    if rhs.number.length = 1 then
      match divide_long_short self (rhs.number.getD 0 0) with
      | .error e => ⟨self, some e⟩
      | .ok x => if !x.is_zero then ⟨{ x with sign := div_sign }, none⟩ else ⟨x, none⟩
    else if self.number.length < rhs.number.length then ⟨of_int 0, none⟩
    else
      match long_divide self rhs with
      | .error e => ⟨self, some e⟩
      | .ok p => ⟨{ p.1 with sign := div_sign }, none⟩

/-- `operator%=`. -/
def op_rem_assign (self rhs : big_integer) : outcome :=
  if op_eq rhs (of_int 0) then ⟨self, some .division_by_zero⟩
  else
    let div_sign := self.sign
    if rhs.number.length = 1 then
      match remainder_long_short self (rhs.number.getD 0 0) with
      | .error e => ⟨self, some e⟩
      | .ok x => if !x.is_zero then ⟨{ x with sign := div_sign }, none⟩ else ⟨x, none⟩
    else if comp_abs_less self rhs then ⟨self, none⟩
    else
      match long_divide self rhs with
      | .error e => ⟨self, some e⟩
      | .ok p => ⟨cut_leading_zero { p.2 with sign := div_sign }, none⟩

/-- The result of a binary operator built on a throwing compound assignment
(`return a /= b` on a copy of the left operand). -/
def outcome.result (o : outcome) : Except failure big_integer :=
  match o.error with
  | some e => .error e
  | none => .ok o.self

/-- The free `operator+`. -/
def op_add (a b : big_integer) : big_integer := op_add_assign a b

/-- The free `operator-`. -/
def op_sub (a b : big_integer) : big_integer := op_sub_assign a b

/-- The free `operator*`. -/
def op_mul (a b : big_integer) : big_integer := op_mul_assign a b

/-- The free `operator/`. -/
def op_div (a b : big_integer) : Except failure big_integer := (op_div_assign a b).result

/-- The free `operator%`. -/
def op_rem (a b : big_integer) : Except failure big_integer := (op_rem_assign a b).result

/-- Unary `operator-`: a copy with the sign flag flipped. -/
def op_neg (a : big_integer) : big_integer := { a with sign := !a.sign }

/-- The character test of the string constructor: `'0' <= c && c <= '9'`. -/
def is_digit (c : Char) : Bool := decide ('0' ≤ c) && decide (c ≤ '9')

/-- `std::stoi` on a run of decimal digits (the only arguments it is given):
the decimal value of the run. -/
def stoi (s : List Char) : Nat :=
  s.foldl (fun acc c => acc * 10 + (c.toNat - 48)) 0

/-- `str.substr(pos, len)`. -/
def substr (str : List Char) (pos len : Nat) : List Char := (str.drop pos).take len

/-- The validation loop of the string constructor. -/
def all_digits : List Char → Bool
  | [] => true
  | c :: cs => if is_digit c then all_digits cs else false

/-- The chunk loop of the string constructor:
`for (; i + 9 <= str.size(); i += 9) { *this *= DIGIT_BASE; *this += stoi(str.substr(i, 9)); }`.
The first argument bounds the rounds; `none` when it runs out. -/
def of_string_loop (str : List Char) : Nat → Nat → big_integer → Option (Nat × big_integer)
  | 0, i, x => if i + 9 ≤ str.length then none else some (i, x)
  | fuel + 1, i, x =>
    if i + 9 ≤ str.length then
      of_string_loop str fuel (i + 9)
        (op_add_assign (op_mul_assign x (of_unsigned DIGIT_BASE))
          (of_int (stoi (substr str i 9))))
    else some (i, x)

/-- The loop `while (len_last_digit > 0) { power_10 *= 10; len_last_digit--; }`
on a `uint32_t`. -/
def power_10_loop : Nat → Nat → Nat
  | 0, power_10 => power_10
  | len + 1, power_10 => power_10_loop len ((power_10 * 10) % 2 ^ 32)

/-- The constructor `big_integer(const std::string&)`.  The chunk loop
consumes nine characters a round, so `str.size()` rounds are more than it can
take. -/
def of_string (str : List Char) : Except failure big_integer :=
  if str = [] ∨ str = ['-'] then .error .invalid_argument
  else
    let is_neg : Nat := if str.head? = some '-' then 1 else 0
    if !all_digits (str.drop is_neg) then .error .invalid_argument
    else
      match of_string_loop str str.length is_neg ⟨false, []⟩ with
      | none => .error .out_of_fuel
      | some (i, x) =>
        let len_last_digit := (str.length - is_neg) % 9
        let x :=
          if len_last_digit > 0 then
            op_add_assign (op_mul_assign x (of_unsigned (power_10_loop len_last_digit 1)))
              (of_int (stoi (str.drop i)))
          else x
        let x := if is_neg = 1 then { x with sign := true } else x
        .ok (cut_leading_zero x)

/-- The digit loop of `to_string`: nine times
`ans = (char)((digit_mod % 10) + '0') + ans; digit_mod /= 10;`. -/
def to_string_digits : Nat → Nat → List Char → List Char
  | 0, _, ans => ans
  | n + 1, digit_mod, ans =>
    to_string_digits n (digit_mod / 10) (Char.ofNat (digit_mod % 10 + 48) :: ans)

/-- The loop `while (!temp.is_zero())` of `to_string`.  The first argument
bounds the rounds. -/
def to_string_loop : Nat → big_integer → List Char → Except failure (List Char)
  | 0, temp, ans => if temp.is_zero then .ok ans else .error .out_of_fuel
  | fuel + 1, temp, ans =>
    if temp.is_zero then .ok ans
    else
      match op_rem temp (of_unsigned DIGIT_BASE) with
      | .error e => .error e
      | .ok mod =>
        let digit_mod := if !mod.is_zero then mod.number.getD 0 0 else 0
        let ans := to_string_digits 9 digit_mod ans
        match divide_long_short temp DIGIT_BASE with
        | .error e => .error e
        | .ok temp => to_string_loop fuel temp ans

/-- The loop `while (ans[0] == '0') ans.erase(ans.begin());`. -/
def strip_zeros : List Char → List Char
  | [] => []
  | c :: cs => if c = '0' then strip_zeros cs else c :: cs

/-- `to_string(a)`.  Each round of the loop divides `temp` by `10^9`, and
`2^32 <= 10^18`, so two rounds per limb are enough. -/
def to_string (a : big_integer) : Except failure (List Char) :=
  if a.is_zero then .ok ['0']
  else
    match to_string_loop (2 * a.number.length) a [] with
    | .error e => .error e
    | .ok ans =>
      let ans := strip_zeros ans
      .ok (if a.sign then '-' :: ans else ans)

/-- Prefix `operator++`: `*this += 1`. -/
def op_inc (self : big_integer) : big_integer := op_add_assign self (of_int 1)

/-- Prefix `operator--`: `*this -= 1`. -/
def op_dec (self : big_integer) : big_integer := op_sub_assign self (of_int 1)

/-- `operator~`: `-(*this) - 1`. -/
def op_not (a : big_integer) : big_integer := op_sub (op_neg a) (of_int 1)

/-- The complement `~x` of a `uint32_t`. -/
def bit_not (x : Nat) : Nat := 4294967295 - x % 2 ^ 32

/-- `get_pos(a, pos)`: limb `pos` of the two's-complement reading of `a`; a
limb past the end is 0 when the sign flag is clear and `UINT32_MAX` when it is
set, and a limb of a value whose sign flag is set is read complemented. -/
def get_pos (a : big_integer) (pos : Nat) : Nat :=
  if !a.sign then
    if pos < a.number.length then a.number.getD pos 0 else 0
  else
    if pos < a.number.length then bit_not (a.number.getD pos 0) else 4294967295

/-- The first loop of `bit_operation` after `i` rounds:
`number[i] = oper(get_pos(x, i), get_pos(y, i))`. -/
def bit_operation_loop (x y : big_integer) (oper : Nat → Nat → Nat) (number0 : List Nat) :
    Nat → List Nat
  | 0 => number0
  | i + 1 =>
    (bit_operation_loop x y oper number0 i).set i (oper (get_pos x i) (get_pos y i) % 2 ^ 32)

/-- The second loop of `bit_operation` after `i` rounds: `number[i] = ~number[i]`. -/
def bit_invert_loop (number0 : List Nat) : Nat → List Nat
  | 0 => number0
  | i + 1 =>
    let s := bit_invert_loop number0 i
    s.set i (bit_not (s.getD i 0))

/-- The member function `bit_operation(a, b, oper)` called on `self`.  The
operands are copied into `x` and `y` before `self` is written, so the call
`bit_operation(*this, rhs, oper)` reads the receiver as it was.  The sign
flags enter `oper` as 0 or 1 and the result flag is set when `oper` returns a
non-zero value. -/
def bit_operation (self a b : big_integer) (oper : Nat → Nat → Nat) : big_integer :=
  let max_size := max a.number.length b.number.length
  let x := if a.sign then { op_inc a with sign := true } else a
  let y := if b.sign then { op_inc b with sign := true } else b
  let number := bit_operation_loop x y oper (resize self.number max_size) max_size
  let sign_bits : Nat := oper (if x.sign then 1 else 0) (if y.sign then 1 else 0) % 2 ^ 32
  let sign : Bool := decide (sign_bits ≠ 0)
  let r : big_integer :=
    if sign then op_dec ⟨sign, bit_invert_loop number max_size⟩ else ⟨sign, number⟩
  cut_leading_zero r

/-- `operator&=`. -/
def op_and_assign (self rhs : big_integer) : big_integer :=
  bit_operation self self rhs (fun a b => a &&& b)

/-- `operator|=`. -/
def op_or_assign (self rhs : big_integer) : big_integer :=
  bit_operation self self rhs (fun a b => a ||| b)

/-- `operator^=`. -/
def op_xor_assign (self rhs : big_integer) : big_integer :=
  bit_operation self self rhs (fun a b => a ^^^ b)

/-- The free `operator&`. -/
def op_and (a b : big_integer) : big_integer := op_and_assign a b

/-- The free `operator|`. -/
def op_or (a b : big_integer) : big_integer := op_or_assign a b

/-- The free `operator^`. -/
def op_xor (a b : big_integer) : big_integer := op_xor_assign a b

/-- The loop `for (i < full_bits) number.insert(number.begin(), 0)`. -/
def insert_zero_loop : Nat → List Nat → List Nat
  | 0, number => number
  | n + 1, number => insert_zero_loop n (0 :: number)

/-- `operator<<=` for a shift amount `rhs >= 0`. -/
def op_shl_assign (self : big_integer) (rhs : Nat) : big_integer :=
  let full_bits := rhs / 32
  let shift := rhs % 32
  let x := op_mul_assign self (of_unsigned_long_long ((1 * 2 ^ shift) % 2 ^ 64))
  cut_leading_zero { x with number := insert_zero_loop full_bits x.number }

/-- The loop `for (i < full_bits && !number.empty()) number.erase(number.begin())`. -/
def erase_front_loop : Nat → List Nat → List Nat
  | 0, number => number
  | n + 1, number => if number.isEmpty then number else erase_front_loop n number.tail

/-- `operator>>=` for a shift amount `rhs >= 0`. -/
def op_shr_assign (self : big_integer) (rhs : Nat) : Except failure big_integer :=
  let full_bits := rhs / 32
  let x := { self with number := erase_front_loop full_bits self.number }
  let x := if x.number.isEmpty then of_int 0 else x
  let shift := rhs % 32
  match (op_div_assign x (of_unsigned_long_long ((1 * 2 ^ shift) % 2 ^ 64))).result with
  | .error e => .error e
  | .ok x =>
    let x := if x.sign then op_dec x else x
    .ok (cut_leading_zero x)

/-- The free `operator<<`. -/
def op_shl (a : big_integer) (b : Nat) : big_integer := op_shl_assign a b

/-- The free `operator>>`. -/
def op_shr (a : big_integer) (b : Nat) : Except failure big_integer := op_shr_assign a b

/-- The canonical rendering the specification gives for a string `-?[0-9]+`:
leading zero digits removed, one digit kept when all are zero, and the `-`
removed when every digit is zero. -/
def canonical_decimal (s : List Char) : List Char :=
  let negative := decide (s.head? = some '-')
  let digits := if negative then s.drop 1 else s
  let stripped := digits.dropWhile (fun c => c == '0')
  if stripped = [] then ['0'] else if negative then '-' :: stripped else stripped

/-- The shape `-?[1-9][0-9]*` of the specification's canonical output. -/
def canonical_shape (t : List Char) : Prop :=
  ∃ c cs, (t = c :: cs ∨ t = '-' :: c :: cs) ∧ '1' ≤ c ∧ c ≤ '9' ∧
    ∀ d ∈ cs, '0' ≤ d ∧ d ≤ '9'

/-- The strings the specification says the string constructor rejects: the
empty string, a lone `-`, and any string with a character that is not a
decimal digit after an optional single leading `-`. -/
def invalid_format (s : List Char) : Prop :=
  s = [] ∨ s = ['-'] ∨
    ∃ c ∈ (if s.head? = some '-' then s.drop 1 else s), ¬ ('0' ≤ c ∧ c ≤ '9')

/-- The scale of `long_divide`, `uint64_t f = BASE / (b.number.back() + 1)`,
with the sum formed in `uint32_t`: the first statement of `long_divide` on its
own. -/
def long_divide_scale (b : big_integer) : Except failure Nat :=
  let top := (b.number.getLastD 0 + 1) % 2 ^ 32
  if top = 0 then .error .machine_division_by_zero else .ok (BASE / top)

/-- Whether the limb reads of `trial(a, b, k, m)` are inside the vectors:
`a.number[km]`, `a.number[km - 1]` and `b.number[m - 1]`. -/
def trial_in_bounds (a b : big_integer) (k m : Nat) : Bool :=
  if op_eq a (of_int 0) then true
  else
    decide (k + m < a.number.length) && decide (k + m - 1 < a.number.length) &&
      decide (m - 1 < b.number.length)

/-- Whether the limb reads of the loop of `smaller` are inside the vectors:
`r.number[i + k]` and `dq.number[i]` at every index the loop visits. -/
def smaller_loop_in_bounds (r dq : List Nat) (k : Nat) : Nat → Bool
  | 0 => decide (k < r.length) && decide (0 < dq.length)
  | i + 1 =>
    decide (i + 1 + k < r.length) && decide (i + 1 < dq.length) &&
      (if r.getD (i + 1 + k) 0 ≠ dq.getD (i + 1) 0 then true
       else smaller_loop_in_bounds r dq k i)

/-- Whether the limb reads of every call of `smaller` made by the correction
loop are inside the vectors; `dq` is the value `dq -= d` leaves. -/
def correct_loop_in_bounds (r d : big_integer) (k m : Nat) : Nat → big_integer → Bool
  | 0, _ => true
  | qt + 1, dq =>
    smaller_loop_in_bounds r.number dq.number k m &&
      (if smaller r dq k m then correct_loop_in_bounds r d k m qt (op_sub_assign dq d)
       else true)

/-- Whether the limb reads of the first `i` rounds of the window subtraction
are inside the vectors: `r.number[i + k]` and `dq.number[i]`. -/
def window_sub_loop_in_bounds (dq : List Nat) (k : Nat) (r0 : List Nat) : Nat → Bool
  | 0 => true
  | i + 1 =>
    window_sub_loop_in_bounds dq k r0 i &&
      decide (i + k < (window_sub_loop dq k r0 i).2.length) && decide (i < dq.length)

/-- Whether every limb read of the main loop of `long_divide` is inside the
vector it reads; the state evolves as in `long_divide_loop`. -/
def long_divide_loop_in_bounds (d : big_integer) (m : Nat) :
    Nat → List Nat → big_integer → Bool
  | 0, _, _ => true
  | k + 1, q, r =>
    trial_in_bounds r d k m &&
      (match trial r d k m with
       | .error _ => true
       | .ok qt =>
         if qt = 0 then long_divide_loop_in_bounds d m k q r
         else
           let dq := op_mul_assign d (of_unsigned_long_long qt)
           let dq := { dq with number := dq.number ++ [0] }
           let c := correct_loop r d k m qt dq
           let q := q.set k (c.1 % 2 ^ 32)
           let w := window_sub_loop c.2.number k r.number (m + 1)
           correct_loop_in_bounds r d k m qt dq &&
             window_sub_loop_in_bounds c.2.number k r.number (m + 1) &&
             long_divide_loop_in_bounds d m k q { r with number := w.2 })

/-- Whether every limb read of `r`, `d` and `dq` made by `trial`, `smaller`
and the window subtraction during `long_divide(a, b)` uses an index below the
size of the vector read. -/
def long_divide_in_bounds (a b : big_integer) : Bool :=
  let top := (b.number.getLastD 0 + 1) % 2 ^ 32
  if top = 0 then true
  else
    let f := BASE / top
    let r := op_mul_assign a (of_unsigned_long_long f)
    let d := op_mul_assign b (of_unsigned_long_long f)
    let q := resize [] (a.number.length - b.number.length + 2)
    let r := { r with number := r.number ++ [0] }
    long_divide_loop_in_bounds d b.number.length (a.number.length - b.number.length + 1) q r

end big_integer

/-! ## Magnitudes, limb windows and normalization -/

namespace big_integer

theorem BASE_pos : 0 < BASE := by norm_num [BASE]

theorem BASE_eq : BASE = 2 ^ 32 := by norm_num [BASE]

theorem getD_set_eq (l : List Nat) (k v : Nat) (h : k < l.length) :
    (l.set k v).getD k 0 = v := by
  simp [List.getD_eq_getElem?_getD, List.getElem?_set, h]

theorem getD_set_ne (l : List Nat) (k j v : Nat) (h : j ≠ k) :
    (l.set k v).getD j 0 = l.getD j 0 := by
  simp [List.getD_eq_getElem?_getD, List.getElem?_set, h.symm]

theorem getD_of_length_le (l : List Nat) (i : Nat) (h : l.length ≤ i) : l.getD i 0 = 0 := by
  simp [List.getD_eq_getElem?_getD, List.getElem?_eq_none h]

theorem getD_lt_of_limbs_ok {l : List Nat} (h : limbs_ok l) (i : Nat) : l.getD i 0 < BASE := by
  by_cases hi : i < l.length
  · rw [List.getD_eq_getElem _ _ hi]
    exact h _ (List.getElem_mem hi)
  · rw [getD_of_length_le l i (by omega)]
    exact BASE_pos

theorem magN_succ_right (l : List Nat) :
    ∀ n i, magN l i (n + 1) = magN l i n + BASE ^ n * l.getD (i + n) 0 := by
  intro n
  induction n with
  | zero => intro i; simp [magN]
  | succ n ih =>
    intro i
    rw [magN, ih (i + 1), magN]
    have : i + 1 + n = i + (n + 1) := by omega
    rw [this]
    ring

theorem magN_add (l : List Nat) :
    ∀ m n i, magN l i (n + m) = magN l i n + BASE ^ n * magN l (i + n) m := by
  intro m
  induction m with
  | zero => intro n i; simp [magN]
  | succ m ih =>
    intro n i
    rw [← Nat.add_assoc, magN_succ_right, ih, magN_succ_right]
    have : i + (n + m) = i + n + m := by omega
    rw [this]
    ring

theorem magN_cons (x : Nat) (xs : List Nat) :
    ∀ n i, magN (x :: xs) (i + 1) n = magN xs i n := by
  intro n
  induction n with
  | zero => intro i; rfl
  | succ n ih => intro i; simp [magN, ih]

theorem magN_congr (l l' : List Nat) :
    ∀ n i, (∀ k, i ≤ k → k < i + n → l.getD k 0 = l'.getD k 0) →
      magN l i n = magN l' i n := by
  intro n
  induction n with
  | zero => intro i _; rfl
  | succ n ih =>
    intro i h
    rw [magN, magN, h i (le_refl _) (by omega), ih (i + 1) (fun k hk hk' => h k (by omega) (by omega))]

theorem magN_eq_zero_of_length_le (l : List Nat) :
    ∀ n i, l.length ≤ i → magN l i n = 0 := by
  intro n
  induction n with
  | zero => intro i _; rfl
  | succ n ih =>
    intro i h
    rw [magN, getD_of_length_le l i h, ih (i + 1) (by omega)]
    simp

theorem mag_eq_magN (l : List Nat) : mag l = magN l 0 l.length := by
  induction l with
  | nil => rfl
  | cons x xs ih => simp [mag, magN, magN_cons, ih]

theorem magN_of_length_le (l : List Nat) (n : Nat) (h : l.length ≤ n) : magN l 0 n = mag l := by
  obtain ⟨m, rfl⟩ := Nat.exists_eq_add_of_le h
  rw [magN_add, magN_eq_zero_of_length_le l m _ (by omega), mag_eq_magN]
  simp

theorem magN_lt {l : List Nat} (h : limbs_ok l) : ∀ n i, magN l i n < BASE ^ n := by
  intro n
  induction n with
  | zero => intro i; simp [magN]
  | succ n ih =>
    intro i
    rw [magN_succ_right, pow_succ]
    have h1 := ih i
    have h2 := getD_lt_of_limbs_ok h (i + n)
    nlinarith [Nat.zero_le (BASE ^ n * (l.getD (i + n) 0))]

theorem mag_lt {l : List Nat} (h : limbs_ok l) : mag l < BASE ^ l.length := by
  rw [mag_eq_magN]; exact magN_lt h _ _

theorem mag_append (l l' : List Nat) : mag (l ++ l') = mag l + BASE ^ l.length * mag l' := by
  induction l with
  | nil => simp [mag]
  | cons x xs ih => simp [mag, ih, pow_succ]; ring

theorem mag_eq_sum (l : List Nat) :
    mag l = ∑ i ∈ Finset.range l.length, l.getD i 0 * 2 ^ (32 * i) := by
  induction l with
  | nil => rfl
  | cons x xs ih =>
    rw [mag, ih, List.length_cons, Finset.sum_range_succ', Finset.mul_sum]
    simp only [List.getD_cons_succ, List.getD_cons_zero, Nat.mul_zero, pow_zero, Nat.mul_one]
    have h : ∀ i ∈ Finset.range xs.length,
        BASE * (xs.getD i 0 * 2 ^ (32 * i)) = xs.getD i 0 * 2 ^ (32 * (i + 1)) := by
      intro i _
      rw [Nat.mul_add, pow_add, Nat.mul_one, ← BASE_eq]
      generalize BASE = B
      generalize (2 : Nat) ^ (32 * i) = p
      ring
    rw [Finset.sum_congr rfl h, Nat.add_comm]

theorem mag_replicate_zero (k : Nat) : mag (List.replicate k 0) = 0 := by
  induction k with
  | zero => rfl
  | succ k ih => simp [List.replicate_succ, mag, ih]

theorem limbs_ok_replicate_zero (k : Nat) : limbs_ok (List.replicate k 0) := by
  intro x hx
  rw [List.eq_of_mem_replicate hx]
  exact BASE_pos

theorem limbs_ok_append {l l' : List Nat} : limbs_ok (l ++ l') ↔ limbs_ok l ∧ limbs_ok l' := by
  unfold limbs_ok
  constructor
  · intro h
    exact ⟨fun x hx => h x (List.mem_append.2 (Or.inl hx)),
      fun x hx => h x (List.mem_append.2 (Or.inr hx))⟩
  · rintro ⟨h1, h2⟩ x hx
    rcases List.mem_append.1 hx with h | h
    · exact h1 x h
    · exact h2 x h

theorem limbs_ok_set {l : List Nat} (h : limbs_ok l) (k v : Nat) (hv : v < BASE) :
    limbs_ok (l.set k v) := by
  intro x hx
  rcases List.mem_or_eq_of_mem_set hx with h1 | h1
  · exact h x h1
  · rw [h1]; exact hv

theorem eq_nil_or_snoc (l : List Nat) : l = [] ∨ ∃ init x, l = init ++ [x] := by
  rcases List.eq_nil_or_concat l with h | ⟨init, x, h⟩
  · exact Or.inl h
  · exact Or.inr ⟨init, x, by rw [h, List.concat_eq_append]⟩

theorem cut_leading_zero_loop_spec :
    ∀ (i : Nat) (l : List Nat), l.length = i →
      ∃ k, l = cut_leading_zero_loop i l ++ List.replicate k 0 ∧
        (cut_leading_zero_loop i l).getLast? ≠ some 0 := by
  intro i
  induction i with
  | zero =>
    intro l hl
    refine ⟨0, by simp [cut_leading_zero_loop], ?_⟩
    rw [List.length_eq_zero.1 hl]
    simp [cut_leading_zero_loop]
  | succ i ih =>
    intro l hl
    rcases eq_nil_or_snoc l with h | ⟨init, x, rfl⟩
    · rw [h] at hl; simp at hl
    · have hlen : init.length = i := by simpa using hl
      have hget : (init ++ [x]).getD i 0 = x := by
        rw [← hlen]
        simp [List.getD_eq_getElem?_getD]
      unfold cut_leading_zero_loop
      rw [hget]
      by_cases hx : x = 0
      · rw [if_pos hx, List.dropLast_concat]
        obtain ⟨k, hk, hlast⟩ := ih init hlen
        refine ⟨k + 1, ?_, hlast⟩
        rw [List.replicate_succ', ← List.append_assoc, ← hk, hx]
      · rw [if_neg hx]
        refine ⟨0, by simp, ?_⟩
        simp [List.getLast?_append, hx]

theorem cut_number_spec (l : List Nat) :
    ∃ k, l = cut_leading_zero_loop l.length l ++ List.replicate k 0 ∧
      (cut_leading_zero_loop l.length l).getLast? ≠ some 0 :=
  cut_leading_zero_loop_spec l.length l rfl

theorem mag_cut (l : List Nat) : mag (cut_leading_zero_loop l.length l) = mag l := by
  obtain ⟨k, hk, _⟩ := cut_number_spec l
  conv_rhs => rw [hk]
  rw [mag_append, mag_replicate_zero]
  simp

theorem limbs_ok_cut {l : List Nat} (h : limbs_ok l) :
    limbs_ok (cut_leading_zero_loop l.length l) := by
  obtain ⟨k, hk, _⟩ := cut_number_spec l
  rw [hk] at h
  exact (limbs_ok_append.1 h).1

theorem length_cut_le (l : List Nat) : (cut_leading_zero_loop l.length l).length ≤ l.length := by
  obtain ⟨k, hk, _⟩ := cut_number_spec l
  conv_rhs => rw [hk]
  simp

theorem normalized_cut_leading_zero (a : big_integer) (h : limbs_ok a.number) :
    normalized (cut_leading_zero a) :=
  ⟨limbs_ok_cut h, (cut_number_spec a.number).choose_spec.2⟩

theorem val_cut_leading_zero (a : big_integer) : val (cut_leading_zero a) = val a := by
  simp [val, cut_leading_zero, mag_cut]

@[simp] theorem sign_cut_leading_zero (a : big_integer) : (cut_leading_zero a).sign = a.sign := rfl

theorem number_cut_leading_zero (a : big_integer) :
    (cut_leading_zero a).number = cut_leading_zero_loop a.number.length a.number := rfl

theorem cut_of_normalized {l : List Nat} (h : l.getLast? ≠ some 0) :
    cut_leading_zero_loop l.length l = l := by
  rcases eq_nil_or_snoc l with h1 | ⟨init, x, rfl⟩
  · rw [h1]; rfl
  · have hx : x ≠ 0 := by
      intro hx; apply h; simp [hx]
    have hget : (init ++ [x]).getD init.length 0 = x := by
      simp [List.getD_eq_getElem?_getD]
    rw [List.length_append, List.length_singleton, cut_leading_zero_loop, hget, if_neg hx]

/-! ## Magnitude addition, subtraction and comparison -/

theorem length_resize (v : List Nat) (n : Nat) : (resize v n).length = n := by
  simp [resize]; omega

theorem limbs_ok_resize {v : List Nat} (h : limbs_ok v) (n : Nat) : limbs_ok (resize v n) := by
  unfold resize
  rw [limbs_ok_append]
  exact ⟨fun x hx => h x (List.mem_of_mem_take hx), limbs_ok_replicate_zero _⟩

theorem magN_set_of_le (l : List Nat) (k v n : Nat) (h : n ≤ k) :
    magN (l.set k v) 0 n = magN l 0 n := by
  apply magN_congr
  intro j _ hj
  exact getD_set_ne l k j v (by omega)

theorem add_abs_loop_spec (a b res0 : List Nat) (ha : limbs_ok a) (hb : limbs_ok b)
    (hr : limbs_ok res0) :
    ∀ n, n ≤ res0.length →
      (add_abs_loop a b res0 n).2.length = res0.length ∧
      limbs_ok (add_abs_loop a b res0 n).2 ∧
      (add_abs_loop a b res0 n).1 ≤ 1 ∧
      magN (add_abs_loop a b res0 n).2 0 n + BASE ^ n * (add_abs_loop a b res0 n).1
        = magN a 0 n + magN b 0 n := by
  intro n
  induction n with
  | zero => intro _; simp [add_abs_loop, magN, hr]
  | succ n ih =>
    intro hn
    obtain ⟨hlen, hok, hc, hv⟩ := ih (by omega)
    have h1 := getD_lt_of_limbs_ok ha n
    have h2 := getD_lt_of_limbs_ok hb n
    simp only [add_abs_loop]
    generalize add_abs_loop a b res0 n = s at hlen hok hc hv
    have hB : BASE = 4294967296 := rfl
    have hcur : (a.getD n 0 + b.getD n 0 + s.1) % 2 ^ 64 = a.getD n 0 + b.getD n 0 + s.1 := by
      apply Nat.mod_eq_of_lt; omega
    rw [hcur]
    generalize hcu : a.getD n 0 + b.getD n 0 + s.1 = cur at *
    have hst : (cur - cur / BASE * BASE) % 2 ^ 32 = cur % BASE := by
      rw [hB]; omega
    rw [hst]
    refine ⟨by simp [hlen], limbs_ok_set hok _ _ (Nat.mod_lt _ BASE_pos), ?_, ?_⟩
    · show cur / BASE ≤ 1
      rw [hB]; omega
    · show magN (s.2.set n (cur % BASE)) 0 (n + 1) + BASE ^ (n + 1) * (cur / BASE) = _
      rw [magN_succ_right, magN_succ_right a, magN_succ_right b, magN_set_of_le _ _ _ _ (le_refl _),
        Nat.zero_add, getD_set_eq _ _ _ (by omega)]
      have hdm := Nat.div_add_mod cur BASE
      have : BASE ^ n * (cur % BASE) + BASE ^ (n + 1) * (cur / BASE) = BASE ^ n * cur := by
        rw [pow_succ]
        conv_rhs => rw [← hdm]
        ring
      have h3 : BASE ^ n * cur
          = BASE ^ n * a.getD n 0 + BASE ^ n * b.getD n 0 + BASE ^ n * s.1 := by
        rw [← hcu]; ring
      linarith

theorem mag_add_abs (res a b : big_integer) (ha : limbs_ok a.number) (hb : limbs_ok b.number)
    (hr : limbs_ok res.number) :
    mag (add_abs res a b).number = mag a.number + mag b.number ∧
      limbs_ok (add_abs res a b).number ∧
      (add_abs res a b).number.getLast? ≠ some 0 ∧
      (add_abs res a b).sign = res.sign := by
  have hlen := length_resize res.number (max a.number.length b.number.length + 1)
  obtain ⟨h1, h2, h3, h4⟩ := add_abs_loop_spec a.number b.number
    (resize res.number (max a.number.length b.number.length + 1)) ha hb
    (limbs_ok_resize hr _) (max a.number.length b.number.length) (by omega)
  have hB : BASE = 4294967296 := rfl
  simp only [add_abs]
  generalize add_abs_loop a.number b.number
    (resize res.number (max a.number.length b.number.length + 1))
    (max a.number.length b.number.length) = s at h1 h2 h3 h4
  have hc : s.1 % 2 ^ 32 = s.1 := by omega
  rw [hc]
  have hok : limbs_ok (s.2.set (max a.number.length b.number.length) s.1) :=
    limbs_ok_set h2 _ _ (by omega)
  refine ⟨?_, limbs_ok_cut hok, (cut_number_spec _).choose_spec.2, rfl⟩
  rw [number_cut_leading_zero, mag_cut]
  show mag (s.2.set (max a.number.length b.number.length) s.1) = _
  rw [mag_eq_magN, List.length_set, h1, hlen, magN_succ_right, magN_set_of_le _ _ _ _ (le_refl _),
    Nat.zero_add, getD_set_eq _ _ _ (by omega), h4,
    magN_of_length_le _ _ (le_max_left _ _), magN_of_length_le _ _ (le_max_right _ _)]

theorem sub_abs_loop_spec (a b diff0 : List Nat) (ha : limbs_ok a) (hb : limbs_ok b)
    (hr : limbs_ok diff0) :
    ∀ n, n ≤ diff0.length →
      (sub_abs_loop a b diff0 n).2.length = diff0.length ∧
      limbs_ok (sub_abs_loop a b diff0 n).2 ∧
      ((sub_abs_loop a b diff0 n).1 = 0 ∨ (sub_abs_loop a b diff0 n).1 = -1) ∧
      (magN (sub_abs_loop a b diff0 n).2 0 n : Int) + (sub_abs_loop a b diff0 n).1 * (BASE : Int) ^ n
        = (magN a 0 n : Int) - (magN b 0 n : Int) := by
  intro n
  induction n with
  | zero => intro _; simp [sub_abs_loop, magN, hr]
  | succ n ih =>
    intro hn
    obtain ⟨hlen, hok, hc, hv⟩ := ih (by omega)
    have h1 := getD_lt_of_limbs_ok ha n
    have h2 := getD_lt_of_limbs_ok hb n
    simp only [sub_abs_loop]
    generalize sub_abs_loop a b diff0 n = s at hlen hok hc hv
    have hB : BASE = 4294967296 := rfl
    have hBi : (BASE : Int) = 4294967296 := by rw [hB]; rfl
    generalize hcu : (a.getD n 0 : Int) - (b.getD n 0 : Int) + s.1 = cur at *
    have hrange : -4294967296 ≤ cur ∧ cur < 4294967296 := by
      rw [hB] at h1 h2
      rcases hc with hc | hc <;> omega
    have key : ∀ (v : Nat) (c : Int), (v : Int) + c * BASE = cur → v < BASE →
        ((magN (s.2.set n v) 0 (n + 1) : Nat) : Int) + c * (BASE : Int) ^ (n + 1)
          = (magN a 0 (n + 1) : Int) - (magN b 0 (n + 1) : Int) := by
      intro v c hvc _
      rw [magN_succ_right, magN_succ_right a, magN_succ_right b, magN_set_of_le _ _ _ _ (le_refl _),
        Nat.zero_add, getD_set_eq _ _ _ (by omega)]
      push_cast
      have h3 : (BASE : Int) ^ n * cur
          = (BASE : Int) ^ n * a.getD n 0 - (BASE : Int) ^ n * b.getD n 0 + (BASE : Int) ^ n * s.1 := by
        rw [← hcu]; ring
      have h4 : (BASE : Int) ^ n * ((v : Int) + c * BASE) = (BASE : Int) ^ n * cur := by rw [hvc]
      rw [pow_succ]
      linarith
    by_cases hneg : cur < 0
    · rw [if_pos hneg]
      have hst : ((cur + (BASE : Int)) % 2 ^ 32).toNat = (cur + 4294967296).toNat := by
        rw [hBi]; omega
      rw [hst]
      refine ⟨by simp [hlen], limbs_ok_set hok _ _ (by rw [hB]; omega), Or.inr rfl, ?_⟩
      exact key _ (-1) (by rw [hBi]; omega) (by rw [hB]; omega)
    · rw [if_neg hneg]
      have hst : (cur % 2 ^ 32).toNat = cur.toNat := by omega
      rw [hst]
      refine ⟨by simp [hlen], limbs_ok_set hok _ _ (by rw [hB]; omega), Or.inl rfl, ?_⟩
      exact key _ 0 (by omega) (by rw [hB]; omega)

theorem mag_sub_abs (diff a b : big_integer) (ha : limbs_ok a.number) (hb : limbs_ok b.number)
    (hr : limbs_ok diff.number) (hle : mag b.number ≤ mag a.number) :
    mag (sub_abs diff a b).number = mag a.number - mag b.number ∧
      limbs_ok (sub_abs diff a b).number ∧
      (sub_abs diff a b).number.getLast? ≠ some 0 ∧
      (sub_abs diff a b).sign = diff.sign := by
  have hlen := length_resize diff.number (max a.number.length b.number.length)
  obtain ⟨h1, h2, h3, h4⟩ := sub_abs_loop_spec a.number b.number
    (resize diff.number (max a.number.length b.number.length)) ha hb
    (limbs_ok_resize hr _) (max a.number.length b.number.length) (by omega)
  simp only [sub_abs]
  generalize sub_abs_loop a.number b.number
    (resize diff.number (max a.number.length b.number.length))
    (max a.number.length b.number.length) = s at h1 h2 h3 h4
  refine ⟨?_, limbs_ok_cut h2, (cut_number_spec _).choose_spec.2, rfl⟩
  rw [number_cut_leading_zero, mag_cut]
  show mag s.2 = _
  rw [magN_of_length_le _ _ (le_max_left _ _), magN_of_length_le _ _ (le_max_right _ _)] at h4
  have hlt := magN_lt h2 (max a.number.length b.number.length) 0
  rw [← h1.trans hlen, ← mag_eq_magN] at h4 hlt
  have hpos : (0 : Int) < (BASE : Int) ^ s.2.length := by
    have := BASE_pos
    positivity
  rcases h3 with h3 | h3
  · rw [h3] at h4
    omega
  · rw [h3] at h4
    have : (mag s.2 : Int) < (BASE : Int) ^ s.2.length := by exact_mod_cast hlt
    have h5 : (mag b.number : Int) ≤ mag a.number := by exact_mod_cast hle
    linarith

theorem comp_abs_less_loop_spec (x y : List Nat) (s : Bool) (hx : limbs_ok x) (hy : limbs_ok y) :
    ∀ i, comp_abs_less_loop x y s i =
      if magN x 0 i = magN y 0 i then s else decide (magN x 0 i < magN y 0 i) := by
  intro i
  induction i with
  | zero => simp [comp_abs_less_loop, magN]
  | succ i ih =>
    have h1 := magN_lt hx i 0
    have h2 := magN_lt hy i 0
    simp only [comp_abs_less_loop, magN_succ_right, Nat.zero_add]
    by_cases h : x.getD i 0 = y.getD i 0
    · rw [if_neg (by simpa using h), ih, h]
      simp
    · rw [if_pos h]
      rcases Nat.lt_or_gt_of_ne h with hlt | hgt
      · have : magN x 0 i + BASE ^ i * x.getD i 0 < magN y 0 i + BASE ^ i * y.getD i 0 := by
          have : BASE ^ i * (x.getD i 0 + 1) ≤ BASE ^ i * y.getD i 0 :=
            Nat.mul_le_mul_left _ hlt
          nlinarith
        rw [if_neg (by omega)]
        rw [decide_eq_true hlt, decide_eq_true this]
      · have : magN y 0 i + BASE ^ i * y.getD i 0 < magN x 0 i + BASE ^ i * x.getD i 0 := by
          have : BASE ^ i * (y.getD i 0 + 1) ≤ BASE ^ i * x.getD i 0 :=
            Nat.mul_le_mul_left _ hgt
          nlinarith
        rw [if_neg (by omega)]
        have h3 : ¬ x.getD i 0 < y.getD i 0 := by omega
        have h4 : ¬ magN x 0 i + BASE ^ i * x.getD i 0 < magN y 0 i + BASE ^ i * y.getD i 0 := by
          omega
        rw [decide_eq_false h3, decide_eq_false h4]

theorem pow_le_mag_of_normalized {l : List Nat} (h : l.getLast? ≠ some 0) (hne : l ≠ []) :
    BASE ^ (l.length - 1) ≤ mag l := by
  rcases eq_nil_or_snoc l with h1 | ⟨init, x, rfl⟩
  · exact absurd h1 hne
  · have hx : x ≠ 0 := by
      intro hx; apply h; simp [hx]
    rw [mag_append]
    simp only [List.length_append, List.length_singleton, Nat.add_sub_cancel, mag]
    have : BASE ^ init.length * 1 ≤ BASE ^ init.length * (x + BASE * 0) :=
      Nat.mul_le_mul_left _ (by omega)
    omega

theorem mag_lt_of_length_lt {x y : List Nat} (hx : limbs_ok x) (hy : y.getLast? ≠ some 0)
    (h : x.length < y.length) : mag x < mag y := by
  have h1 := mag_lt hx
  have h2 := pow_le_mag_of_normalized hy (by intro h0; rw [h0] at h; simp at h)
  have h3 : BASE ^ x.length ≤ BASE ^ (y.length - 1) :=
    Nat.pow_le_pow_right BASE_pos (by omega)
  omega

theorem comp_abs_less_spec (a b : big_integer) (ha : normalized a) (hb : normalized b) :
    comp_abs_less a b =
      if mag a.number = mag b.number then a.sign else decide (mag a.number < mag b.number) := by
  unfold comp_abs_less
  by_cases hlen : a.number.length = b.number.length
  · rw [if_neg (by simpa using hlen), comp_abs_less_loop_spec _ _ _ ha.1 hb.1,
      mag_eq_magN a.number, mag_eq_magN b.number, hlen]
  · rw [if_pos hlen]
    rcases Nat.lt_or_gt_of_ne hlen with h | h
    · have := mag_lt_of_length_lt ha.1 hb.2 h
      rw [if_neg (by omega)]
      simp [h, this]
    · have := mag_lt_of_length_lt hb.1 ha.2 h
      rw [if_neg (by omega)]
      have h3 : ¬ a.number.length < b.number.length := by omega
      have h4 : ¬ mag a.number < mag b.number := by omega
      simp [h3, h4]

/-! ## Signed addition, subtraction and equality -/

theorem val_mk (s : Bool) (l : List Nat) :
    val ⟨s, l⟩ = if s then -(mag l : Int) else (mag l : Int) := rfl

theorem op_add_assign_spec (a b : big_integer) (ha : normalized a) (hb : normalized b) :
    val (op_add_assign a b) = val a + val b ∧ normalized (op_add_assign a b) := by
  have hc := comp_abs_less_spec a b ha hb
  unfold op_add_assign
  by_cases hs : a.sign = b.sign
  · rw [if_pos hs]
    obtain ⟨h1, h2, h3, h4⟩ := mag_add_abs a a b ha.1 hb.1 ha.1
    refine ⟨?_, h2, h3⟩
    unfold val
    rw [h4, h1, ← hs]
    split <;> push_cast <;> ring
  · rw [if_neg hs]
    by_cases hlt : comp_abs_less a b = true
    · rw [if_pos hlt]
      have hle : mag a.number ≤ mag b.number := by
        rw [hlt] at hc
        by_cases he : mag a.number = mag b.number
        · omega
        · rw [if_neg he] at hc
          have := of_decide_eq_true hc.symm
          omega
      obtain ⟨h1, h2, h3, _⟩ := mag_sub_abs a b a hb.1 ha.1 ha.1 hle
      refine ⟨?_, h2, h3⟩
      unfold val
      simp only [h1]
      rcases a with ⟨sa, na⟩
      rcases b with ⟨sb, nb⟩
      simp only at hs hle ⊢
      cases sa <;> cases sb <;> simp at hs ⊢ <;> omega
    · rw [if_neg hlt]
      have hle : mag b.number ≤ mag a.number := by
        by_cases he : mag a.number = mag b.number
        · omega
        · rw [if_neg he] at hc
          rw [hc] at hlt
          have : ¬ mag a.number < mag b.number := by simpa using hlt
          omega
      obtain ⟨h1, h2, h3, _⟩ := mag_sub_abs a a b ha.1 hb.1 ha.1 hle
      refine ⟨?_, h2, h3⟩
      unfold val
      simp only [h1]
      rcases a with ⟨sa, na⟩
      rcases b with ⟨sb, nb⟩
      simp only at hs hle ⊢
      cases sa <;> cases sb <;> simp at hs ⊢ <;> omega

theorem op_sub_assign_branch (a b : big_integer) (ha : normalized a) (hb : normalized b)
    (hs : a.sign = b.sign) :
    (Bool.xor (op_gt a b) a.sign = true → mag b.number ≤ mag a.number) ∧
      (¬ Bool.xor (op_gt a b) a.sign = true → mag a.number ≤ mag b.number) := by
  have hc := comp_abs_less_spec b a hb ha
  have hx : Bool.xor (op_gt a b) a.sign = comp_abs_less b a := by
    unfold op_gt op_lt
    rw [if_neg (by simp [hs]), hs]
    cases b.sign <;> cases comp_abs_less b a <;> rfl
  rw [hx, hc]
  by_cases he : mag b.number = mag a.number
  · simp [he]
  · rw [if_neg he]
    simp only [decide_eq_true_eq]
    omega

theorem op_sub_assign_spec (a b : big_integer) (ha : normalized a) (hb : normalized b) :
    val (op_sub_assign a b) = val a - val b ∧ normalized (op_sub_assign a b) := by
  unfold op_sub_assign
  by_cases hs : a.sign = b.sign
  · rw [if_neg (by simpa using hs)]
    obtain ⟨hb1, hb2⟩ := op_sub_assign_branch a b ha hb hs
    by_cases hx : Bool.xor (op_gt a b) a.sign = true
    · rw [if_pos hx]
      obtain ⟨h1, h2, h3, _⟩ := mag_sub_abs a a b ha.1 hb.1 ha.1 (hb1 hx)
      refine ⟨?_, normalized_cut_leading_zero _ h2⟩
      rw [val_cut_leading_zero]
      unfold val
      simp only [h1]
      have hle := hb1 hx
      rcases a with ⟨sa, na⟩
      rcases b with ⟨sb, nb⟩
      simp only at hs hle ⊢
      cases sa <;> cases sb <;> simp at hs ⊢ <;> omega
    · rw [if_neg hx]
      obtain ⟨h1, h2, h3, _⟩ := mag_sub_abs a b a hb.1 ha.1 ha.1 (hb2 hx)
      refine ⟨?_, normalized_cut_leading_zero _ h2⟩
      rw [val_cut_leading_zero]
      unfold val
      simp only [h1]
      have hle := hb2 hx
      rcases a with ⟨sa, na⟩
      rcases b with ⟨sb, nb⟩
      simp only at hs hle ⊢
      cases sa <;> cases sb <;> simp at hs ⊢ <;> omega
  · rw [if_pos hs]
    obtain ⟨h1, h2, h3, h4⟩ := mag_add_abs a a b ha.1 hb.1 ha.1
    refine ⟨?_, h2, h3⟩
    unfold val
    simp only [h1]
    rcases a with ⟨sa, na⟩
    rcases b with ⟨sb, nb⟩
    simp only at hs ⊢
    cases sa <;> cases sb <;> (simp at hs ⊢; try omega)

theorem op_sub_assign_call_spec (a b : big_integer) (ha : normalized a) (hb : normalized b) :
    ∀ x y, op_sub_assign_sub_abs_call a b = some (x, y) → mag y.number ≤ mag x.number := by
  intro x y h
  unfold op_sub_assign_sub_abs_call at h
  by_cases hs : a.sign = b.sign
  · rw [if_neg (by simpa using hs)] at h
    obtain ⟨hb1, hb2⟩ := op_sub_assign_branch a b ha hb hs
    by_cases hx : Bool.xor (op_gt a b) a.sign = true
    · rw [if_pos hx] at h
      simp only [Option.some.injEq, Prod.mk.injEq] at h
      rw [← h.1, ← h.2]
      exact hb1 hx
    · rw [if_neg hx] at h
      simp only [Option.some.injEq, Prod.mk.injEq] at h
      rw [← h.1, ← h.2]
      exact hb2 hx
  · rw [if_pos hs] at h
    exact absurd h (by simp)

theorem mag_eq_ofDigits (l : List Nat) : mag l = Nat.ofDigits BASE l := by
  induction l with
  | nil => rfl
  | cons x xs ih => rw [mag, Nat.ofDigits_cons, ih]

theorem mag_injective {x y : List Nat} (hx : limbs_ok x) (hy : limbs_ok y)
    (hx0 : x.getLast? ≠ some 0) (hy0 : y.getLast? ≠ some 0) (h : mag x = mag y) : x = y := by
  have hB : 1 < BASE := by norm_num [BASE]
  have key : ∀ l : List Nat, limbs_ok l → l.getLast? ≠ some 0 →
      Nat.digits BASE (mag l) = l := by
    intro l hl hl0
    rw [mag_eq_ofDigits]
    apply Nat.digits_ofDigits BASE hB l hl
    intro hne hlast
    apply hl0
    rw [List.getLast?_eq_getLast _ hne, hlast]
  rw [← key x hx hx0, ← key y hy hy0, h]

theorem mag_eq_zero_iff {l : List Nat} (h0 : l.getLast? ≠ some 0) : mag l = 0 ↔ l = [] := by
  constructor
  · intro h
    by_contra hne
    have := pow_le_mag_of_normalized h0 hne
    have hp : 0 < BASE ^ (l.length - 1) := Nat.pos_pow_of_pos _ BASE_pos
    omega
  · intro h; rw [h]; rfl

theorem op_eq_iff (a b : big_integer) :
    op_eq a b = true ↔
      (a.sign = b.sign ∧ a.number = b.number) ∨ (a.number = [] ∧ b.number = []) := by
  simp [op_eq, is_zero]

theorem op_eq_iff_val (a b : big_integer) (ha : normalized a) (hb : normalized b) :
    op_eq a b = true ↔ val a = val b := by
  rw [op_eq_iff]
  have ha0 := mag_eq_zero_iff ha.2
  have hb0 := mag_eq_zero_iff hb.2
  constructor
  · rintro (⟨h1, h2⟩ | ⟨h1, h2⟩)
    · unfold val; rw [h1, h2]
    · unfold val; rw [h1, h2]; simp [mag]
  · intro h
    by_cases hz : mag a.number = 0
    · right
      refine ⟨ha0.1 hz, hb0.1 ?_⟩
      unfold val at h
      rw [hz] at h
      split at h <;> split at h <;> simp at h <;> omega
    · left
      have hm : a.sign = b.sign ∧ mag a.number = mag b.number := by
        unfold val at h
        rcases a with ⟨sa, na⟩
        rcases b with ⟨sb, nb⟩
        simp only at h hz ⊢
        cases sa <;> cases sb <;> simp at h ⊢ <;> omega
      exact ⟨hm.1, mag_injective ha.1 hb.1 ha.2 hb.2 hm.2⟩

/-! ## Schoolbook multiplication -/

theorem magN_set_outside (l : List Nat) (k v i n : Nat) (h : k < i ∨ i + n ≤ k) :
    magN (l.set k v) i n = magN l i n := by
  apply magN_congr
  intro j h1 h2
  exact getD_set_ne l k j v (by omega)

theorem magN_window (l l' : List Nat) (i w L : Nat) (hL : i + w ≤ L)
    (h : ∀ k, k < i ∨ i + w ≤ k → l'.getD k 0 = l.getD k 0) :
    magN l' 0 L + BASE ^ i * magN l i w = magN l 0 L + BASE ^ i * magN l' i w := by
  obtain ⟨r, rfl⟩ := Nat.exists_eq_add_of_le hL
  rw [magN_add l' r (i + w) 0, magN_add l' w i 0, magN_add l r (i + w) 0, magN_add l w i 0,
    magN_congr l' l i 0 (fun k _ hk => h k (Or.inl (by omega))),
    magN_congr l' l r (0 + (i + w)) (fun k hk _ => h k (Or.inr (by omega)))]
  simp only [Nat.zero_add]
  ring

theorem mul_inner_loop_spec (ai : Nat) (b : List Nat) (i : Nat) (res0 : List Nat) (e0 : Bool)
    (hai : ai < BASE) (hb : limbs_ok b) (hr : limbs_ok res0) :
    ∀ j, i + j ≤ res0.length →
      (mul_inner_loop ai b i res0 e0 j).res.length = res0.length ∧
      limbs_ok (mul_inner_loop ai b i res0 e0 j).res ∧
      (mul_inner_loop ai b i res0 e0 j).carry < BASE ∧
      (mul_inner_loop ai b i res0 e0 j).exact = e0 ∧
      (∀ k, k < i ∨ i + j ≤ k →
        (mul_inner_loop ai b i res0 e0 j).res.getD k 0 = res0.getD k 0) ∧
      magN (mul_inner_loop ai b i res0 e0 j).res i j
          + BASE ^ j * (mul_inner_loop ai b i res0 e0 j).carry
        = ai * magN b 0 j + magN res0 i j := by
  intro j
  induction j with
  | zero =>
    intro _
    exact ⟨rfl, hr, BASE_pos, rfl, fun _ _ => rfl, by simp [mul_inner_loop, magN]⟩
  | succ j ih =>
    intro hj
    obtain ⟨hlen, hok, hc, he, hfr, hv⟩ := ih (by omega)
    have h1 := getD_lt_of_limbs_ok hb j
    have h2 := getD_lt_of_limbs_ok hok (i + j)
    have h3 : (mul_inner_loop ai b i res0 e0 j).res.getD (i + j) 0 = res0.getD (i + j) 0 :=
      hfr _ (Or.inr (le_refl _))
    simp only [mul_inner_loop]
    generalize mul_inner_loop ai b i res0 e0 j = s at hlen hok hc he hfr hv h2 h3
    have hB : BASE = 4294967296 := rfl
    have hprod : ai * b.getD j 0 ≤ 4294967295 * 4294967295 :=
      Nat.mul_le_mul (by omega) (by omega)
    generalize hw : ai * b.getD j 0 + s.res.getD (i + j) 0 + s.carry = wide at *
    have hwide : wide < 2 ^ 64 := by omega
    have hcur : wide % 2 ^ 64 = wide := Nat.mod_eq_of_lt hwide
    rw [hcur]
    have hst : (wide - BASE * (wide / BASE)) % 2 ^ 32 = wide % BASE := by
      rw [hB]; omega
    rw [hst]
    refine ⟨by simp [hlen], limbs_ok_set hok _ _ (Nat.mod_lt _ BASE_pos), ?_, ?_, ?_, ?_⟩
    · show wide / BASE < BASE
      rw [hB]; omega
    · show (s.exact && decide (wide < 2 ^ 64)) = e0
      rw [he, decide_eq_true hwide, Bool.and_true]
    · intro k hk
      show (s.res.set (i + j) (wide % BASE)).getD k 0 = _
      rw [getD_set_ne _ _ _ _ (by omega)]
      exact hfr k (by omega)
    · show magN (s.res.set (i + j) (wide % BASE)) i (j + 1) + BASE ^ (j + 1) * (wide / BASE) = _
      rw [magN_succ_right, magN_succ_right b, magN_succ_right res0,
        magN_set_outside _ _ _ _ _ (Or.inr (le_refl _)), getD_set_eq _ _ _ (by omega),
        Nat.zero_add, ← h3]
      have hdm := Nat.div_add_mod wide BASE
      have h5 : BASE ^ j * (wide % BASE) + BASE ^ (j + 1) * (wide / BASE) = BASE ^ j * wide := by
        rw [pow_succ]
        conv_rhs => rw [← hdm]
        ring
      have h6 : BASE ^ j * wide = BASE ^ j * (ai * b.getD j 0) + BASE ^ j * s.res.getD (i + j) 0
          + BASE ^ j * s.carry := by
        rw [← hw]; ring
      have h7 : ai * (magN b 0 j + BASE ^ j * b.getD j 0)
          = ai * magN b 0 j + BASE ^ j * (ai * b.getD j 0) := by ring
      linarith

theorem resize_nil (n : Nat) : resize [] n = List.replicate n 0 := by
  simp [resize]

theorem getD_replicate_zero (n k : Nat) : (List.replicate n 0).getD k 0 = 0 := by
  by_cases h : k < n
  · rw [List.getD_eq_getElem _ _ (by simpa using h)]
    simp
  · exact getD_of_length_le _ _ (by simp; omega)

theorem magN_replicate_zero (L : Nat) : ∀ n i, magN (List.replicate L 0) i n = 0 := by
  intro n
  induction n with
  | zero => intro i; rfl
  | succ n ih => intro i; rw [magN, ih, getD_replicate_zero]; simp

theorem mul_outer_loop_spec (a b : List Nat) (ha : limbs_ok a) (hb : limbs_ok b) (L : Nat)
    (hL : L = a.length + b.length + 1) :
    ∀ i, i ≤ a.length →
      (mul_outer_loop a b (resize [] L) i).1.length = L ∧
      limbs_ok (mul_outer_loop a b (resize [] L) i).1 ∧
      (mul_outer_loop a b (resize [] L) i).2 = true ∧
      (∀ k, i + b.length ≤ k → (mul_outer_loop a b (resize [] L) i).1.getD k 0 = 0) ∧
      magN (mul_outer_loop a b (resize [] L) i).1 0 L = magN a 0 i * mag b := by
  intro i
  induction i with
  | zero =>
    intro _
    simp only [mul_outer_loop, resize_nil]
    refine ⟨by simp, limbs_ok_replicate_zero _, trivial, fun k _ => getD_replicate_zero _ _, ?_⟩
    rw [magN_replicate_zero]; simp [magN]
  | succ i ih =>
    intro hi
    obtain ⟨hlen, hok, hex, hz, hv⟩ := ih (by omega)
    simp only [mul_outer_loop]
    generalize mul_outer_loop a b (resize [] L) i = o at hlen hok hex hz hv
    obtain ⟨h1, h2, h3, h4, h5, h6⟩ := mul_inner_loop_spec (a.getD i 0) b i o.1 o.2
      (getD_lt_of_limbs_ok ha i) hb hok b.length (by omega)
    generalize mul_inner_loop (a.getD i 0) b i o.1 o.2 b.length = s at h1 h2 h3 h4 h5 h6
    have hB : BASE = 4294967296 := rfl
    have hP0 : o.1.getD (i + b.length) 0 = 0 := hz _ (le_refl _)
    have hs0 : s.res.getD (i + b.length) 0 = 0 := by
      rw [h5 _ (Or.inr (le_refl _)), hP0]
    rw [← mag_eq_magN] at h6
    -- the buffer after the round, whichever branch is taken
    have key : ∀ res' : List Nat, res'.length = L → limbs_ok res' →
        (∀ k, k ≠ i + b.length → res'.getD k 0 = s.res.getD k 0) →
        res'.getD (i + b.length) 0 = s.carry →
        res'.length = L ∧ limbs_ok res' ∧
        (∀ k, i + 1 + b.length ≤ k → res'.getD k 0 = 0) ∧
        magN res' 0 L = magN a 0 (i + 1) * mag b := by
      intro res' hl' hok' hfr' hc'
      refine ⟨hl', hok', ?_, ?_⟩
      · intro k hk
        rw [hfr' k (by omega), h5 k (Or.inr (by omega))]
        exact hz k (by omega)
      · have hw := magN_window o.1 res' i (b.length + 1) L (by omega) (by
          intro k hk
          rw [hfr' k (by omega)]
          exact h5 k (by omega))
        rw [magN_succ_right, magN_succ_right, hP0, hc',
          magN_congr res' s.res b.length i (fun k _ hk => hfr' k (by omega))] at hw
        rw [magN_succ_right, Nat.zero_add]
        have e2 : (magN a 0 i + BASE ^ i * a.getD i 0) * mag b
            = magN a 0 i * mag b + BASE ^ i * (a.getD i 0 * mag b) := by ring
        rw [e2, ← hv]
        simp only [Nat.mul_zero, Nat.add_zero] at hw
        rw [h6, Nat.mul_add] at hw
        omega
    by_cases hc : s.carry > 0
    · rw [if_pos hc]
      have hwide : s.res.getD (i + b.length) 0 + s.carry < 2 ^ 32 := by omega
      simp only [hs0, Nat.zero_add]
      have hcm : s.carry % 2 ^ 32 = s.carry := by omega
      rw [hcm]
      obtain ⟨k1, k2, k3, k4⟩ := key (s.res.set (i + b.length) s.carry) (by simp [h1, hlen])
        (limbs_ok_set h2 _ _ h3) (fun k hk => getD_set_ne _ _ _ _ hk)
        (getD_set_eq _ _ _ (by omega))
      refine ⟨k1, k2, ?_, k3, k4⟩
      show (s.exact && decide (s.carry < 2 ^ 32)) = true
      rw [h4, hex, decide_eq_true (by omega)]
      rfl
    · rw [if_neg hc]
      obtain ⟨k1, k2, k3, k4⟩ := key s.res (by rw [h1, hlen]) h2 (fun k _ => rfl)
        (by rw [hs0]; omega)
      exact ⟨k1, k2, by show s.exact = true; rw [h4, hex], k3, k4⟩

theorem mul_bigint_bigint_spec (a b : big_integer) (ha : limbs_ok a.number)
    (hb : limbs_ok b.number) :
    val (mul_bigint_bigint a b) = val a * val b ∧ normalized (mul_bigint_bigint a b) ∧
      mul_bigint_bigint_exact a b = true ∧
      mag (mul_bigint_bigint a b).number = mag a.number * mag b.number ∧
      (mul_bigint_bigint a b).sign = Bool.xor a.sign b.sign := by
  obtain ⟨h1, h2, h3, _, h5⟩ := mul_outer_loop_spec a.number b.number ha hb
    (a.number.length + b.number.length + 1) rfl a.number.length (le_refl _)
  have hm : mag (mul_bigint_bigint a b).number = mag a.number * mag b.number := by
    unfold mul_bigint_bigint
    rw [number_cut_leading_zero, mag_cut]
    simp only
    rw [mag_eq_magN, h1, h5, ← mag_eq_magN]
  refine ⟨?_, normalized_cut_leading_zero _ h2, h3, hm, rfl⟩
  have hsg : (mul_bigint_bigint a b).sign = Bool.xor a.sign b.sign := rfl
  unfold val
  rw [hm, hsg]
  rcases a with ⟨sa, na⟩
  rcases b with ⟨sb, nb⟩
  cases sa <;> cases sb <;> simp

/-! ## Native constructors and short division -/

theorem magN_eq_zero_of_zeros (l : List Nat) :
    ∀ n i, (∀ k, i ≤ k → l.getD k 0 = 0) → magN l i n = 0 := by
  intro n
  induction n with
  | zero => intro i _; rfl
  | succ n ih =>
    intro i h
    rw [magN, h i (le_refl _), ih (i + 1) (fun k hk => h k (by omega))]
    simp

theorem fill_vector_loop_spec :
    ∀ (fuel a i : Nat) (number : List Nat), a < BASE ^ fuel → i + fuel ≤ number.length →
      (∀ k, i ≤ k → number.getD k 0 = 0) → limbs_ok number →
      (fill_vector_loop fuel a i number).length = number.length ∧
      limbs_ok (fill_vector_loop fuel a i number) ∧
      (∀ k, k < i → (fill_vector_loop fuel a i number).getD k 0 = number.getD k 0) ∧
      magN (fill_vector_loop fuel a i number) i fuel = a := by
  intro fuel
  induction fuel with
  | zero =>
    intro a i number ha _ _ hok
    simp only [pow_zero] at ha
    exact ⟨rfl, hok, fun _ _ => rfl, by simp [magN]; omega⟩
  | succ fuel ih =>
    intro a i number ha hi hz hok
    unfold fill_vector_loop
    by_cases hpos : a > 0
    · rw [if_pos hpos]
      have hdiv : a / BASE < BASE ^ fuel := by
        rw [Nat.div_lt_iff_lt_mul BASE_pos, ← pow_succ]
        exact ha
      obtain ⟨h1, h2, h3, h4⟩ := ih (a / BASE) (i + 1) (number.set i (a % BASE)) hdiv
        (by simp; omega)
        (fun k hk => by rw [getD_set_ne _ _ _ _ (by omega)]; exact hz k (by omega))
        (limbs_ok_set hok _ _ (Nat.mod_lt _ BASE_pos))
      refine ⟨by rw [h1]; simp, h2, ?_, ?_⟩
      · intro k hk
        rw [h3 k (by omega), getD_set_ne _ _ _ _ (by omega)]
      · rw [magN, h4, h3 i (by omega), getD_set_eq _ _ _ (by omega)]
        exact Nat.mod_add_div a BASE
    · rw [if_neg hpos]
      refine ⟨rfl, hok, fun _ _ => rfl, ?_⟩
      rw [magN_eq_zero_of_zeros _ _ _ hz]
      omega

theorem fill_vector_spec (s : Bool) (n a : Nat) (ha : a < 2 ^ 64) (hn : 2 ≤ n) :
    (fill_vector ⟨s, List.replicate n 0⟩ a).sign = s ∧
      normalized (fill_vector ⟨s, List.replicate n 0⟩ a) ∧
      mag (fill_vector ⟨s, List.replicate n 0⟩ a).number = a := by
  have hpow : a < BASE ^ n := by
    have h1 : BASE ^ 2 ≤ BASE ^ n := Nat.pow_le_pow_right BASE_pos hn
    have h2 : BASE ^ 2 = 2 ^ 64 := by norm_num [BASE]
    omega
  obtain ⟨h1, h2, _, h4⟩ := fill_vector_loop_spec n a 0 (List.replicate n 0) hpow (by simp)
    (fun k _ => getD_replicate_zero _ _) (limbs_ok_replicate_zero _)
  unfold fill_vector
  simp only [List.length_replicate, Nat.mod_eq_of_lt ha]
  refine ⟨rfl, normalized_cut_leading_zero _ h2, ?_⟩
  rw [number_cut_leading_zero, mag_cut]
  simp only
  rw [mag_eq_magN, h1, List.length_replicate, h4]

theorem of_unsigned_spec (a : Nat) (ha : a < 2 ^ 64) :
    (of_unsigned a).sign = false ∧ normalized (of_unsigned a) ∧ mag (of_unsigned a).number = a :=
  fill_vector_spec false 2 a ha (le_refl _)

theorem of_unsigned_long_long_spec (a : Nat) (ha : a < 2 ^ 64) :
    (of_unsigned_long_long a).sign = false ∧ normalized (of_unsigned_long_long a) ∧
      mag (of_unsigned_long_long a).number = a :=
  fill_vector_spec false 3 a ha (by omega)

theorem of_int_nat_spec (a : Nat) (ha : a < 2 ^ 64) :
    (of_int (a : Int)).sign = false ∧ normalized (of_int (a : Int)) ∧
      mag (of_int (a : Int)).number = a := by
  have h := fill_vector_spec (decide ((a : Int) < 0)) 2 a ha (le_refl _)
  have hs : decide ((a : Int) < 0) = false := by simp
  rw [hs] at h
  unfold of_int
  rw [hs, Int.natAbs_ofNat]
  exact h

theorem divide_long_short_loop_spec (a : List Nat) (b : Nat) (ha : limbs_ok a) (hb0 : 0 < b)
    (hb : b < BASE) :
    ∀ (i carry : Nat) (res : List Nat), carry < b → i ≤ res.length → limbs_ok res →
      (divide_long_short_loop a b i carry res).length = res.length ∧
      limbs_ok (divide_long_short_loop a b i carry res) ∧
      (∀ k, i ≤ k → (divide_long_short_loop a b i carry res).getD k 0 = res.getD k 0) ∧
      magN (divide_long_short_loop a b i carry res) 0 i = (carry * BASE ^ i + magN a 0 i) / b := by
  intro i
  induction i with
  | zero =>
    intro carry res hc _ hok
    refine ⟨rfl, hok, fun _ _ => rfl, ?_⟩
    simp only [magN, pow_zero, Nat.mul_one, Nat.add_zero]
    exact (Nat.div_eq_of_lt hc).symm
  | succ i ih =>
    intro carry res hc hi hok
    have hai := getD_lt_of_limbs_ok ha i
    have hB : BASE = 4294967296 := rfl
    unfold divide_long_short_loop
    simp only
    have hcb : carry * BASE + a.getD i 0 < b * BASE := by
      have : (carry + 1) * BASE ≤ b * BASE := Nat.mul_le_mul_right _ hc
      rw [Nat.add_mul] at this
      omega
    have hbb : b * BASE < 2 ^ 64 := by
      have : b * BASE ≤ 4294967295 * BASE := Nat.mul_le_mul_right _ (by omega)
      rw [hB] at this ⊢
      omega
    rw [Nat.mod_eq_of_lt (by omega : carry * BASE + a.getD i 0 < 2 ^ 64)]
    generalize htemp : carry * BASE + a.getD i 0 = temp at *
    have hq : temp / b < BASE := by
      rw [Nat.div_lt_iff_lt_mul hb0, Nat.mul_comm]
      exact hcb
    rw [Nat.mod_eq_of_lt (by rw [hB] at hq; omega : temp / b < 2 ^ 32)]
    obtain ⟨h1, h2, h3, h4⟩ := ih (temp % b) (res.set i (temp / b)) (Nat.mod_lt _ hb0)
      (by simp; omega) (limbs_ok_set hok _ _ hq)
    refine ⟨by rw [h1]; simp, h2, ?_, ?_⟩
    · intro k hk
      rw [h3 k (by omega), getD_set_ne _ _ _ _ (by omega)]
    · rw [magN_succ_right, h4, Nat.zero_add, h3 i (le_refl _), getD_set_eq _ _ _ (by omega),
        magN_succ_right, Nat.zero_add]
      have e : carry * BASE ^ (i + 1) + (magN a 0 i + BASE ^ i * a.getD i 0)
          = b * (BASE ^ i * (temp / b)) + (temp % b * BASE ^ i + magN a 0 i) := by
        have hdm := Nat.div_add_mod temp b
        have e1 : BASE ^ i * temp = carry * BASE ^ (i + 1) + BASE ^ i * a.getD i 0 := by
          rw [← htemp, pow_succ]; ring
        have e2 : BASE ^ i * temp = b * (BASE ^ i * (temp / b)) + temp % b * BASE ^ i := by
          conv_lhs => rw [← hdm]
          ring
        omega
      rw [e, Nat.mul_add_div hb0]
      omega

/-! ## Short division and remainder -/

theorem divide_long_short_spec (a : big_integer) (b : Nat) (ha : limbs_ok a.number)
    (hb0 : 0 < b) (hb : b < BASE) :
    ∃ r, divide_long_short a b = .ok r ∧ r.sign = false ∧ normalized r ∧
      mag r.number = mag a.number / b := by
  obtain ⟨h1, h2, _, h4⟩ := divide_long_short_loop_spec a.number b ha hb0 hb a.number.length 0
    (resize [] a.number.length) hb0 (by rw [length_resize]) (limbs_ok_resize (by intro x hx; simp at hx) _)
  unfold divide_long_short
  rw [if_neg (by omega)]
  refine ⟨_, rfl, rfl, normalized_cut_leading_zero _ h2, ?_⟩
  rw [number_cut_leading_zero, mag_cut]
  simp only
  rw [mag_eq_magN, h1, length_resize, h4, mag_eq_magN]
  simp

theorem remainder_long_short_loop_spec (a : List Nat) (b : Nat) (ha : limbs_ok a) (hb0 : 0 < b)
    (hb : b < BASE) :
    ∀ (i carry : Nat), carry < b →
      remainder_long_short_loop a b i carry = (carry * BASE ^ i + magN a 0 i) % b := by
  intro i
  induction i with
  | zero =>
    intro carry hc
    simp only [remainder_long_short_loop, magN, pow_zero, Nat.mul_one, Nat.add_zero]
    exact (Nat.mod_eq_of_lt hc).symm
  | succ i ih =>
    intro carry hc
    have hai := getD_lt_of_limbs_ok ha i
    have hB : BASE = 4294967296 := rfl
    unfold remainder_long_short_loop
    have hcb : carry * BASE + a.getD i 0 < b * BASE := by
      have : (carry + 1) * BASE ≤ b * BASE := Nat.mul_le_mul_right _ hc
      rw [Nat.add_mul] at this
      omega
    have hbb : b * BASE < 2 ^ 64 := by
      have : b * BASE ≤ 4294967295 * BASE := Nat.mul_le_mul_right _ (by omega)
      rw [hB] at this ⊢
      omega
    rw [Nat.mod_eq_of_lt (by omega : carry * BASE + a.getD i 0 < 2 ^ 64)]
    generalize htemp : carry * BASE + a.getD i 0 = temp at *
    rw [ih (temp % b) (Nat.mod_lt _ hb0), magN_succ_right, Nat.zero_add]
    have e : carry * BASE ^ (i + 1) + (magN a 0 i + BASE ^ i * a.getD i 0)
        = b * (BASE ^ i * (temp / b)) + (temp % b * BASE ^ i + magN a 0 i) := by
      have hdm := Nat.div_add_mod temp b
      have e1 : BASE ^ i * temp = carry * BASE ^ (i + 1) + BASE ^ i * a.getD i 0 := by
        rw [← htemp, pow_succ]; ring
      have e2 : BASE ^ i * temp = b * (BASE ^ i * (temp / b)) + temp % b * BASE ^ i := by
        conv_lhs => rw [← hdm]
        ring
      omega
    rw [e, Nat.mul_add_mod]

theorem remainder_long_short_spec (a : big_integer) (b : Nat) (ha : limbs_ok a.number)
    (hb0 : 0 < b) (hb : b < BASE) :
    ∃ r, remainder_long_short a b = .ok r ∧ r.sign = a.sign ∧ normalized r ∧
      mag r.number = mag a.number % b := by
  have h := remainder_long_short_loop_spec a.number b ha hb0 hb a.number.length 0 hb0
  simp only [Nat.zero_mul, Nat.zero_add, ← mag_eq_magN] at h
  have hlt : mag a.number % b < 2 ^ 64 := by
    have := Nat.mod_lt (mag a.number) hb0
    have hB : BASE = 4294967296 := rfl
    omega
  obtain ⟨_, h2, h3⟩ := of_unsigned_long_long_spec _ hlt
  unfold remainder_long_short
  rw [if_neg (by omega), h]
  exact ⟨_, rfl, rfl, h2, h3⟩

theorem getD_zero_eq_mag {l : List Nat} (h : mag l < BASE) : l.getD 0 0 = mag l := by
  cases l with
  | nil => rfl
  | cons x xs =>
    rw [mag] at h ⊢
    have : mag xs = 0 := by
      by_contra h0
      have : BASE * 1 ≤ BASE * mag xs := Nat.mul_le_mul_left _ (by omega)
      omega
    rw [this]
    simp

theorem op_rem_digit_base (temp : big_integer) (ht : limbs_ok temp.number) :
    ∃ r, op_rem temp (of_unsigned DIGIT_BASE) = .ok r ∧
      (if !r.is_zero then r.number.getD 0 0 else 0) = mag temp.number % DIGIT_BASE := by
  have hd : of_unsigned DIGIT_BASE = ⟨false, [1000000000]⟩ := by decide
  have hB : BASE = 4294967296 := rfl
  obtain ⟨r, h1, _, h3, h4⟩ := remainder_long_short_spec temp 1000000000 ht (by omega)
    (by rw [hB]; omega)
  have hz : op_eq (⟨false, [1000000000]⟩ : big_integer) (of_int 0) = false := by decide
  have hr : r.number.getD 0 0 = mag temp.number % DIGIT_BASE := by
    rw [getD_zero_eq_mag (by rw [h4, hB]; omega), h4]; rfl
  have hr0 : r.is_zero = true → mag temp.number % DIGIT_BASE = 0 := by
    intro h0
    have : r.number = [] := by simpa [is_zero] using h0
    rw [this] at h4
    show mag temp.number % 1000000000 = 0
    rw [← h4]; rfl
  rw [hd]
  unfold op_rem op_rem_assign
  rw [hz]
  simp only [Bool.false_eq_true, if_false, List.length_singleton, if_true, List.getD_cons_zero, h1]
  by_cases h0 : r.is_zero = true
  · refine ⟨r, by simp [h0, outcome.result], ?_⟩
    simp [h0, hr0 h0]
  · refine ⟨{ r with sign := temp.sign }, by simp [h0, outcome.result], ?_⟩
    have h0' : r.is_zero = false := by simpa using h0
    have : ({ r with sign := temp.sign } : big_integer).is_zero = false := h0'
    rw [this]
    simpa using hr

/-! ## Decimal digits and formatting -/

theorem is_digit_iff (c : Char) : is_digit c = true ↔ 48 ≤ c.toNat ∧ c.toNat ≤ 57 := by
  unfold is_digit
  simp only [Bool.and_eq_true, decide_eq_true_eq]
  rw [Char.le_def, Char.le_def]
  rfl

theorem digit_char_spec (k : Nat) (hk : k < 10) :
    is_digit (Char.ofNat (k + 48)) = true ∧ (Char.ofNat (k + 48)).toNat = k + 48 := by
  interval_cases k <;> decide

theorem all_digits_iff (s : List Char) : all_digits s = true ↔ ∀ c ∈ s, is_digit c = true := by
  induction s with
  | nil => simp [all_digits]
  | cons c cs ih =>
    unfold all_digits
    by_cases h : is_digit c = true
    · rw [if_pos h, ih]; simp [h]
    · rw [if_neg h]; simp [h]

theorem all_digits_append (s t : List Char) :
    all_digits (s ++ t) = true ↔ all_digits s = true ∧ all_digits t = true := by
  simp only [all_digits_iff, List.mem_append]
  constructor
  · intro h; exact ⟨fun c hc => h c (Or.inl hc), fun c hc => h c (Or.inr hc)⟩
  · rintro ⟨h1, h2⟩ c (hc | hc)
    · exact h1 c hc
    · exact h2 c hc

theorem stoi_foldl (s : List Char) : ∀ acc : Nat,
    List.foldl (fun acc c => acc * 10 + (c.toNat - 48)) acc s = acc * 10 ^ s.length + stoi s := by
  induction s with
  | nil => intro acc; simp [stoi]
  | cons c cs ih =>
    intro acc
    unfold stoi
    rw [List.foldl_cons, List.foldl_cons, ih, ih (0 * 10 + (c.toNat - 48))]
    simp only [List.length_cons, pow_succ]
    ring

theorem stoi_nil : stoi [] = 0 := rfl

theorem stoi_append (s t : List Char) : stoi (s ++ t) = stoi s * 10 ^ t.length + stoi t := by
  unfold stoi
  rw [List.foldl_append, stoi_foldl]
  rfl

theorem stoi_singleton (c : Char) : stoi [c] = c.toNat - 48 := by
  simp [stoi]

theorem stoi_lt (s : List Char) (h : all_digits s = true) : stoi s < 10 ^ s.length := by
  induction s using List.reverseRecOn with
  | nil => simp [stoi]
  | append_singleton cs c ih =>
    rw [all_digits_append] at h
    have h1 := ih h.1
    have h2 : is_digit c = true := (all_digits_iff [c]).1 h.2 c (by simp)
    rw [is_digit_iff] at h2
    rw [stoi_append, stoi_singleton]
    simp only [List.length_singleton, pow_one, List.length_append, pow_succ]
    omega

theorem to_string_digits_spec : ∀ (n d : Nat) (ans : List Char),
    ∃ G, to_string_digits n d ans = G ++ ans ∧ G.length = n ∧ all_digits G = true ∧
      stoi G = d % 10 ^ n := by
  intro n
  induction n with
  | zero =>
    intro d ans
    exact ⟨[], rfl, rfl, rfl, by simp [stoi, Nat.mod_one]⟩
  | succ n ih =>
    intro d ans
    obtain ⟨G, h1, h2, h3, h4⟩ := ih (d / 10) (Char.ofNat (d % 10 + 48) :: ans)
    obtain ⟨c1, c2⟩ := digit_char_spec (d % 10) (Nat.mod_lt _ (by omega))
    refine ⟨G ++ [Char.ofNat (d % 10 + 48)], ?_, by simp [h2], ?_, ?_⟩
    · rw [to_string_digits, h1]; simp
    · rw [all_digits_append]
      exact ⟨h3, by simp [all_digits, c1]⟩
    · rw [stoi_append, stoi_singleton, h4, c2]
      simp only [List.length_singleton, pow_one, Nat.add_sub_cancel]
      rw [pow_succ, Nat.mul_comm (10 ^ n) 10, Nat.mod_mul]
      ring

theorem strip_zeros_spec (G : List Char) (h : all_digits G = true) :
    all_digits (strip_zeros G) = true ∧ stoi (strip_zeros G) = stoi G ∧
      (stoi G ≠ 0 → strip_zeros G ≠ []) := by
  induction G with
  | nil => exact ⟨rfl, rfl, fun h0 => absurd rfl h0⟩
  | cons c cs ih =>
    have hcs : all_digits cs = true := by
      have := (all_digits_append [c] cs).1 h
      exact this.2
    unfold strip_zeros
    by_cases hc : c = '0'
    · rw [if_pos hc]
      obtain ⟨i1, i2, i3⟩ := ih hcs
      have e : stoi (c :: cs) = stoi cs := by
        have := stoi_append [c] cs
        rw [stoi_singleton, hc] at this
        simp only [List.singleton_append] at this
        rw [hc, this]
        simp
      rw [e]
      exact ⟨i1, i2, i3⟩
    · rw [if_neg hc]
      exact ⟨h, rfl, fun _ => by simp⟩

theorem is_zero_iff_mag {a : big_integer} (ha : normalized a) :
    a.is_zero = true ↔ mag a.number = 0 := by
  rw [mag_eq_zero_iff ha.2]
  simp [is_zero]

theorem to_string_loop_spec : ∀ (fuel : Nat) (temp : big_integer) (ans : List Char),
    normalized temp → mag temp.number < DIGIT_BASE ^ fuel →
    ∃ G, to_string_loop fuel temp ans = .ok (G ++ ans) ∧ all_digits G = true ∧
      stoi G = mag temp.number := by
  intro fuel
  induction fuel with
  | zero =>
    intro temp ans ht hm
    have h0 : mag temp.number = 0 := by simpa using hm
    refine ⟨[], ?_, rfl, by rw [h0]; rfl⟩
    rw [to_string_loop, if_pos ((is_zero_iff_mag ht).2 h0)]
    rfl
  | succ fuel ih =>
    intro temp ans ht hm
    unfold to_string_loop
    by_cases hz : temp.is_zero = true
    · rw [if_pos hz]
      exact ⟨[], rfl, rfl, by rw [(is_zero_iff_mag ht).1 hz]; rfl⟩
    · rw [if_neg hz]
      obtain ⟨r, hr1, hr2⟩ := op_rem_digit_base temp ht.1
      have hB : BASE = 4294967296 := rfl
      have hD : DIGIT_BASE = 1000000000 := rfl
      obtain ⟨t, ht1, _, ht3, ht4⟩ := divide_long_short_spec temp DIGIT_BASE ht.1
        (by rw [hD]; omega) (by rw [hB, hD]; omega)
      simp only [hr1, hr2, ht1]
      obtain ⟨G9, g1, g2, g3, g4⟩ :=
        to_string_digits_spec 9 (mag temp.number % DIGIT_BASE) ans
      have hlt : mag t.number < DIGIT_BASE ^ fuel := by
        rw [ht4, Nat.div_lt_iff_lt_mul (by rw [hD]; omega), ← pow_succ]
        exact hm
      obtain ⟨G, i1, i2, i3⟩ := ih t (to_string_digits 9 (mag temp.number % DIGIT_BASE) ans)
        ht3 hlt
      refine ⟨G ++ G9, ?_, ?_, ?_⟩
      · rw [i1, g1, List.append_assoc]
      · rw [all_digits_append]; exact ⟨i2, g3⟩
      · rw [stoi_append, i3, g4, g2, ht4]
        have : mag temp.number % DIGIT_BASE % 10 ^ 9 = mag temp.number % DIGIT_BASE := by
          apply Nat.mod_eq_of_lt
          have := Nat.mod_lt (mag temp.number) (by rw [hD]; omega : 0 < DIGIT_BASE)
          rw [hD] at this ⊢
          omega
        rw [this]
        have h10 : (10 : Nat) ^ 9 = DIGIT_BASE := by norm_num [DIGIT_BASE]
        rw [h10]
        exact Nat.div_add_mod' _ _

theorem op_add_assign_nonneg (a b : big_integer) (ha : normalized a) (hb : normalized b)
    (hsa : a.sign = false) (hsb : b.sign = false) :
    (op_add_assign a b).sign = false ∧ normalized (op_add_assign a b) ∧
      mag (op_add_assign a b).number = mag a.number + mag b.number := by
  obtain ⟨h1, h2, h3, h4⟩ := mag_add_abs a a b ha.1 hb.1 ha.1
  unfold op_add_assign
  rw [if_pos (by rw [hsa, hsb])]
  exact ⟨by rw [h4, hsa], ⟨h2, h3⟩, h1⟩

theorem chunk_step (x : big_integer) (p c : Nat) (hx : normalized x) (hs : x.sign = false)
    (hp : p < 2 ^ 64) (hc : c < 2 ^ 64) :
    (op_add_assign (op_mul_assign x (of_unsigned p)) (of_int (c : Int))).sign = false ∧
      normalized (op_add_assign (op_mul_assign x (of_unsigned p)) (of_int (c : Int))) ∧
      mag (op_add_assign (op_mul_assign x (of_unsigned p)) (of_int (c : Int))).number
        = mag x.number * p + c := by
  obtain ⟨p1, p2, p3⟩ := of_unsigned_spec p hp
  obtain ⟨c1, c2, c3⟩ := of_int_nat_spec c hc
  obtain ⟨_, m2, _, m4, m5⟩ := mul_bigint_bigint_spec x (of_unsigned p) hx.1 p2.1
  have ms : (op_mul_assign x (of_unsigned p)).sign = false := by
    show (mul_bigint_bigint x (of_unsigned p)).sign = false
    rw [m5, hs, p1]; rfl
  obtain ⟨a1, a2, a3⟩ := op_add_assign_nonneg (op_mul_assign x (of_unsigned p))
    (of_int (c : Int)) m2 c2 ms c1
  refine ⟨a1, a2, ?_⟩
  rw [a3, c3]
  show mag (mul_bigint_bigint x (of_unsigned p)).number + c = _
  rw [m4, p3]

theorem power_10_loop_spec : ∀ (n p : Nat), p * 10 ^ n < 2 ^ 32 →
    power_10_loop n p = p * 10 ^ n := by
  intro n
  induction n with
  | zero => intro p _; simp [power_10_loop]
  | succ n ih =>
    intro p hp
    have e : p * 10 ^ (n + 1) = p * 10 * 10 ^ n := by rw [pow_succ]; ring
    rw [e] at hp
    have h1 : p * 10 < 2 ^ 32 := by
      have : p * 10 * 1 ≤ p * 10 * 10 ^ n := Nat.mul_le_mul_left _ (Nat.one_le_pow _ _ (by omega))
      omega
    rw [power_10_loop, Nat.mod_eq_of_lt h1, ih _ hp, e]

/-! ## Decimal parsing and the round trip -/

theorem all_digits_drop {s : List Char} (h : all_digits s = true) (n : Nat) :
    all_digits (s.drop n) = true := by
  rw [all_digits_iff] at h ⊢
  exact fun c hc => h c (List.mem_of_mem_drop hc)

theorem all_digits_take {s : List Char} (h : all_digits s = true) (n : Nat) :
    all_digits (s.take n) = true := by
  rw [all_digits_iff] at h ⊢
  exact fun c hc => h c (List.mem_of_mem_take hc)

theorem of_string_loop_spec (str : List Char) :
    ∀ (fuel i : Nat) (x : big_integer), normalized x → x.sign = false → i ≤ str.length →
      all_digits (str.drop i) = true → (str.length - i) / 9 ≤ fuel →
      ∃ i' x', of_string_loop str fuel i x = some (i', x') ∧ normalized x' ∧ x'.sign = false ∧
        i' ≤ str.length ∧ str.length - i' = (str.length - i) % 9 ∧
        mag x'.number * 10 ^ (str.length - i') + stoi (str.drop i')
          = mag x.number * 10 ^ (str.length - i) + stoi (str.drop i) := by
  intro fuel
  induction fuel with
  | zero =>
    intro i x hx hs hi _ hf
    refine ⟨i, x, ?_, hx, hs, hi, by omega, rfl⟩
    rw [of_string_loop, if_neg (by omega)]
  | succ fuel ih =>
    intro i x hx hs hi hd hf
    unfold of_string_loop
    by_cases h9 : i + 9 ≤ str.length
    · rw [if_pos h9]
      have hT : ((str.drop i).take 9).length = 9 := by
        rw [List.length_take, List.length_drop]; omega
      have hTd : all_digits ((str.drop i).take 9) = true := all_digits_take hd 9
      have hTlt := stoi_lt _ hTd
      rw [hT] at hTlt
      obtain ⟨s1, s2, s3⟩ := chunk_step x DIGIT_BASE (stoi (substr str i 9)) hx hs
        (by norm_num [DIGIT_BASE]) (by unfold substr; omega)
      have hdd : all_digits (str.drop (i + 9)) = true := by
        have := all_digits_drop hd 9
        rwa [List.drop_drop] at this
      obtain ⟨i', x', j1, j2, j3, j4, j5, j6⟩ := ih (i + 9) _ s2 s1 h9 hdd (by omega)
      refine ⟨i', x', j1, j2, j3, j4, by omega, ?_⟩
      rw [j6, s3]
      have hsplit : str.drop i = (str.drop i).take 9 ++ str.drop (i + 9) := by
        rw [← List.drop_drop, List.take_append_drop]
      have e1 : stoi (str.drop i)
          = stoi ((str.drop i).take 9) * 10 ^ (str.length - (i + 9)) + stoi (str.drop (i + 9)) := by
        conv_lhs => rw [hsplit]
        rw [stoi_append, List.length_drop]
      have e2 : (10 : Nat) ^ (str.length - i) = DIGIT_BASE * 10 ^ (str.length - (i + 9)) := by
        have : str.length - i = 9 + (str.length - (i + 9)) := by omega
        rw [this, pow_add]
        norm_num [DIGIT_BASE]
      rw [e1, e2]
      unfold substr
      ring
    · rw [if_neg h9]
      exact ⟨i, x, rfl, hx, hs, hi, by omega, rfl⟩

theorem normalized_zero_init : normalized ⟨false, []⟩ := by decide

theorem of_string_core (str : List Char) (n : Nat) (hn : n ≤ str.length)
    (hd : all_digits (str.drop n) = true) :
    ∃ i x, of_string_loop str str.length n ⟨false, []⟩ = some (i, x) ∧
      (let len_last_digit := (str.length - n) % 9
       let y := if len_last_digit > 0 then
            op_add_assign (op_mul_assign x (of_unsigned (power_10_loop len_last_digit 1)))
              (of_int (stoi (str.drop i)))
          else x
       normalized y ∧ y.sign = false ∧ mag y.number = stoi (str.drop n)) := by
  obtain ⟨i, x, h1, h2, h3, h4, h5, h6⟩ := of_string_loop_spec str str.length n ⟨false, []⟩
    normalized_zero_init rfl hn hd (by
      have : (str.length - n) / 9 ≤ str.length - n := Nat.div_le_self _ _
      omega)
  refine ⟨i, x, h1, ?_⟩
  simp only [mag, Nat.zero_mul, Nat.zero_add] at h6
  have hdi : all_digits (str.drop i) = true := by
    have := all_digits_drop hd (i - n)
    rw [List.drop_drop] at this
    have hle : n ≤ i := by omega
    have e : n + (i - n) = i := by omega
    rwa [e] at this
  have hlt := stoi_lt _ hdi
  rw [List.length_drop] at hlt
  by_cases hl : (str.length - n) % 9 > 0
  · simp only [hl, if_true]
    have hl9 : (str.length - n) % 9 < 9 := Nat.mod_lt _ (by omega)
    have hp : (10 : Nat) ^ ((str.length - n) % 9) ≤ 10 ^ 8 :=
      Nat.pow_le_pow_right (by omega) (by omega)
    have hpw : power_10_loop ((str.length - n) % 9) 1 = 10 ^ ((str.length - n) % 9) := by
      rw [power_10_loop_spec _ _ (by rw [Nat.one_mul]; omega), Nat.one_mul]
    rw [hpw]
    rw [h5] at hlt h6
    obtain ⟨s1, s2, s3⟩ := chunk_step x (10 ^ ((str.length - n) % 9)) (stoi (str.drop i)) h2 h3
      (by omega) (by omega)
    exact ⟨s2, s1, by rw [s3, h6]⟩
  · simp only [hl, if_false]
    have h0 : str.length - i = 0 := by omega
    rw [h0] at h6
    have hnil : str.drop i = [] := List.drop_eq_nil_of_le (by omega)
    rw [hnil, stoi_nil] at h6
    exact ⟨h2, h3, by omega⟩

theorem of_string_neg (D : List Char) (hne : D ≠ []) (hd : all_digits D = true) :
    ∃ x, of_string ('-' :: D) = .ok x ∧ x.sign = true ∧ normalized x ∧
      mag x.number = stoi D := by
  obtain ⟨i, x, h1, h2, h3, h4⟩ := of_string_core ('-' :: D) 1 (by simp) (by simpa using hd)
  simp only [List.drop_succ_cons, List.drop_zero] at h4
  unfold of_string
  rw [if_neg (by simp [hne])]
  simp only [List.head?_cons, if_true, List.drop_succ_cons, List.drop_zero, hd, Bool.not_true,
    Bool.false_eq_true, if_false, h1]
  refine ⟨_, rfl, rfl, normalized_cut_leading_zero _ h2.1, ?_⟩
  rw [number_cut_leading_zero, mag_cut]
  exact h4

theorem of_string_pos (D : List Char) (hne : D ≠ []) (hd : all_digits D = true) :
    ∃ x, of_string D = .ok x ∧ x.sign = false ∧ normalized x ∧ mag x.number = stoi D := by
  obtain ⟨i, x, h1, h2, h3, h4⟩ := of_string_core D 0 (by simp) (by simpa using hd)
  simp only [List.drop_zero, Nat.sub_zero] at h4 h2 h3
  have hhead : D.head? ≠ some '-' := by
    cases D with
    | nil => exact absurd rfl hne
    | cons c cs =>
      have hc : is_digit c = true := (all_digits_iff _).1 hd c (by simp)
      rw [is_digit_iff] at hc
      simp only [List.head?_cons, ne_eq, Option.some.injEq]
      intro h
      rw [h] at hc
      revert hc
      decide
  have hnm : D ≠ ['-'] := by
    intro h; apply hhead; rw [h]; rfl
  unfold of_string
  rw [if_neg (by simp [hne, hnm])]
  simp only [hhead, if_false, List.drop_zero, hd, Bool.not_true, Bool.false_eq_true, h1,
    Nat.sub_zero]
  refine ⟨_, rfl, ?_, normalized_cut_leading_zero _ ?_, ?_⟩
  · simp only [Nat.zero_ne_one, if_false, sign_cut_leading_zero]
    exact h3
  · simp only [Nat.zero_ne_one, if_false]
    exact h2.1
  · rw [number_cut_leading_zero, mag_cut]
    simp only [Nat.zero_ne_one, if_false]
    exact h4

theorem pow_bound (n : Nat) : BASE ^ n ≤ DIGIT_BASE ^ (2 * n) := by
  rw [pow_mul]
  exact Nat.pow_le_pow_left (by norm_num [BASE, DIGIT_BASE]) n

theorem round_trip (a : big_integer) (ha : normalized a) :
    ∃ s x, to_string a = .ok s ∧ of_string s = .ok x ∧ op_eq x a = true := by
  by_cases hz : a.is_zero = true
  · refine ⟨['0'], ⟨false, []⟩, ?_, by rfl, ?_⟩
    · rw [to_string, if_pos hz]
    · rw [op_eq_iff]
      right
      exact ⟨rfl, by simpa [is_zero] using hz⟩
  · have hm : mag a.number ≠ 0 := fun h => hz ((is_zero_iff_mag ha).2 h)
    obtain ⟨G, g1, g2, g3⟩ := to_string_loop_spec (2 * a.number.length) a [] ha
      (lt_of_lt_of_le (mag_lt ha.1) (pow_bound _))
    obtain ⟨z1, z2, z3⟩ := strip_zeros_spec G g2
    rw [g3] at z2 z3
    rw [List.append_nil] at g1
    by_cases hs : a.sign = true
    · obtain ⟨x, x1, x2, x3, x4⟩ := of_string_neg (strip_zeros G) (z3 hm) z1
      refine ⟨'-' :: strip_zeros G, x, ?_, x1, ?_⟩
      · rw [to_string, if_neg hz, g1]
        simp [hs]
      · rw [op_eq_iff]
        left
        exact ⟨by rw [x2, hs], mag_injective x3.1 ha.1 x3.2 ha.2 (by rw [x4, z2])⟩
    · obtain ⟨x, x1, x2, x3, x4⟩ := of_string_pos (strip_zeros G) (z3 hm) z1
      refine ⟨strip_zeros G, x, ?_, x1, ?_⟩
      · rw [to_string, if_neg hz, g1]
        simp [hs]
      · rw [op_eq_iff]
        left
        have hs' : a.sign = false := by simpa using hs
        exact ⟨by rw [x2, hs'], mag_injective x3.1 ha.1 x3.2 ha.2 (by rw [x4, z2])⟩

/-! ## The claims -/

/-- C1, the division identity `(a / b) * b + (a % b) == a`, evaluated on the
normalized operands `a = -2^32` and `b = 2^32`: the quotient is `-1`, the
remainder comes back as `a` itself, the left-hand side is `-2^33`, and
`operator==` finds it different from `a`. -/
theorem division_identity_counterexample :
    normalized ⟨true, [0, 1]⟩ ∧ normalized ⟨false, [0, 1]⟩ ∧
    op_div ⟨true, [0, 1]⟩ ⟨false, [0, 1]⟩ = .ok ⟨true, [1]⟩ ∧
    op_rem ⟨true, [0, 1]⟩ ⟨false, [0, 1]⟩ = .ok ⟨true, [0, 1]⟩ ∧
    op_add (op_mul ⟨true, [1]⟩ ⟨false, [0, 1]⟩) ⟨true, [0, 1]⟩ = ⟨true, [0, 2]⟩ ∧
    op_eq ⟨true, [0, 2]⟩ ⟨true, [0, 1]⟩ = false := by
  refine ⟨by decide, by decide, by rfl, by rfl, by decide, by decide⟩

/-- C2, the remainder bound `|a % b| < |b|`, evaluated on `a = -2^32` and
`b = 2^32`: `comp_abs_less` answers with the sign flag of `a` when the two
magnitudes are equal, `operator%=` takes that for "smaller" and returns `a`,
whose magnitude is not below that of `b`. -/
theorem remainder_bound_counterexample :
    comp_abs_less ⟨true, [0, 1]⟩ ⟨false, [0, 1]⟩ = true ∧
    (op_rem_assign ⟨true, [0, 1]⟩ ⟨false, [0, 1]⟩).self = ⟨true, [0, 1]⟩ ∧
    (op_rem_assign ⟨true, [0, 1]⟩ ⟨false, [0, 1]⟩).error = none ∧
    ¬ mag (op_rem_assign ⟨true, [0, 1]⟩ ⟨false, [0, 1]⟩).self.number < mag [0, 1] := by
  decide

/-- C3, totality of division on non-zero divisors, evaluated on the normalized
two-limb divisor `b = 2^64 - 2^32` (top limb `2^32 - 1`) and `a = b`: the sum
`b.number.back() + 1` wraps to 0 in 32 bits and both `a / b` and `a % b` end in
a machine division by zero. -/
theorem division_total_counterexample :
    normalized ⟨false, [0, 4294967295]⟩ ∧
    (4294967295 + 1) % 2 ^ 32 = 0 ∧
    long_divide ⟨false, [0, 4294967295]⟩ ⟨false, [0, 4294967295]⟩
      = .error .machine_division_by_zero ∧
    op_div ⟨false, [0, 4294967295]⟩ ⟨false, [0, 4294967295]⟩
      = .error .machine_division_by_zero ∧
    op_rem ⟨false, [0, 4294967295]⟩ ⟨false, [0, 4294967295]⟩
      = .error .machine_division_by_zero := by
  refine ⟨by decide, by decide, by rfl, by rfl, by rfl⟩

/-- C4: for every `a` and every divisor with an empty limb vector, whatever
its sign flag, `a /= b` and `a %= b` both raise the division-by-zero error and
leave the sign and limbs of `a` as they were. -/
theorem division_by_zero_raises (a : big_integer) (s : Bool) :
    op_div_assign a ⟨s, []⟩ = ⟨a, some .division_by_zero⟩ ∧
    op_rem_assign a ⟨s, []⟩ = ⟨a, some .division_by_zero⟩ := by
  cases s <;> exact ⟨rfl, rfl⟩

/-- C5: for all normalized `a` and `b`, of any signs and zero or not, the
integer denoted by `a + b` is the sum of the integers denoted by `a` and `b`. -/
theorem add_exact (a b : big_integer) (ha : normalized a) (hb : normalized b) :
    val (op_add a b) = val a + val b :=
  (op_add_assign_spec a b ha hb).1

/-- Witness of C5 on `-(2^32 + 5) + 7` with a negative-zero-free pair. -/
theorem add_exact_witness :
    normalized ⟨true, [5, 1]⟩ ∧ normalized ⟨false, [7]⟩ ∧
    val (op_add ⟨true, [5, 1]⟩ ⟨false, [7]⟩) = val ⟨true, [5, 1]⟩ + val ⟨false, [7]⟩ :=
  ⟨by decide, by decide, add_exact _ _ (by decide) (by decide)⟩

/-- C6: for all normalized `a` and `b`, of any signs and zero or not, the
integer denoted by `a - b` is the difference of the integers denoted by `a`
and `b`, and whenever `operator-=` calls `sub_abs` the magnitude of its first
operand is at least that of the second. -/
theorem sub_exact (a b : big_integer) (ha : normalized a) (hb : normalized b) :
    val (op_sub a b) = val a - val b ∧
    ∀ x y, op_sub_assign_sub_abs_call a b = some (x, y) → mag y.number ≤ mag x.number :=
  ⟨(op_sub_assign_spec a b ha hb).1, op_sub_assign_call_spec a b ha hb⟩

/-- Witness of C6 on `3 - (2^32 + 5)`, where `sub_abs` is called with the
operands swapped. -/
theorem sub_exact_witness :
    normalized ⟨false, [3]⟩ ∧ normalized ⟨false, [5, 1]⟩ ∧
    (val (op_sub ⟨false, [3]⟩ ⟨false, [5, 1]⟩) = val ⟨false, [3]⟩ - val ⟨false, [5, 1]⟩ ∧
      ∀ x y, op_sub_assign_sub_abs_call ⟨false, [3]⟩ ⟨false, [5, 1]⟩ = some (x, y) →
        mag y.number ≤ mag x.number) :=
  ⟨by decide, by decide, sub_exact _ _ (by decide) (by decide)⟩

/-- C7: for all normalized `a` and `b`, the integer denoted by `a * b` is the
product of the integers denoted by `a` and `b`, and every machine operation of
`mul_bigint_bigint` is exact: no 64-bit intermediate wraps and no carry is
truncated when it is stored. -/
theorem mul_exact (a b : big_integer) (ha : normalized a) (hb : normalized b) :
    val (op_mul a b) = val a * val b ∧ mul_bigint_bigint_exact a b = true :=
  ⟨(mul_bigint_bigint_spec a b ha.1 hb.1).1, (mul_bigint_bigint_spec a b ha.1 hb.1).2.2.1⟩

/-- Witness of C7 on `-(2^64 - 1) * (2^64 - 1)`, all limbs at their maximum. -/
theorem mul_exact_witness :
    normalized ⟨true, [4294967295, 4294967295]⟩ ∧
    normalized ⟨false, [4294967295, 4294967295]⟩ ∧
    (val (op_mul ⟨true, [4294967295, 4294967295]⟩ ⟨false, [4294967295, 4294967295]⟩)
        = val ⟨true, [4294967295, 4294967295]⟩ * val ⟨false, [4294967295, 4294967295]⟩ ∧
      mul_bigint_bigint_exact ⟨true, [4294967295, 4294967295]⟩
        ⟨false, [4294967295, 4294967295]⟩ = true) :=
  ⟨by decide, by decide, mul_exact _ _ (by decide) (by decide)⟩

/-- C8, trichotomy of `<`, `==`, `>`, evaluated on values the interface
produces: unary minus of zero, `5 - 5` and the string `"-0"` all give a zero
whose sign flag is set, and for that value `a` and `b = 0` both `a < b` and
`a == b` are true. -/
theorem trichotomy_counterexample :
    op_neg (of_int 0) = ⟨true, []⟩ ∧
    op_sub (of_int 5) (of_int 5) = ⟨true, []⟩ ∧
    of_string ['-', '0'] = .ok ⟨true, []⟩ ∧
    op_lt ⟨true, []⟩ (of_int 0) = true ∧
    op_eq ⟨true, []⟩ (of_int 0) = true ∧
    op_gt ⟨true, []⟩ (of_int 0) = false := by
  refine ⟨by decide, by decide, by rfl, by decide, by decide, by decide⟩

/-- C9: for all normalized `a` and `b`, `a == b` is true exactly when the two
have the same sign flag and the same limbs, or both have no limbs; that is
exactly when they denote the same integer; and `!=` is the negation. -/
theorem eq_spec (a b : big_integer) (ha : normalized a) (hb : normalized b) :
    (op_eq a b = true ↔
      (a.sign = b.sign ∧ a.number = b.number) ∨ (a.number = [] ∧ b.number = [])) ∧
    (op_eq a b = true ↔ val a = val b) ∧
    op_ne a b = !op_eq a b :=
  ⟨op_eq_iff a b, op_eq_iff_val a b ha hb, rfl⟩

/-- Witness of C9 on the two zeros, which differ in their sign flag. -/
theorem eq_spec_witness :
    normalized ⟨true, []⟩ ∧ normalized ⟨false, []⟩ ∧
    ((op_eq ⟨true, []⟩ ⟨false, []⟩ = true ↔
        ((⟨true, []⟩ : big_integer).sign = (⟨false, []⟩ : big_integer).sign ∧
          (⟨true, []⟩ : big_integer).number = (⟨false, []⟩ : big_integer).number) ∨
        ((⟨true, []⟩ : big_integer).number = [] ∧ (⟨false, []⟩ : big_integer).number = [])) ∧
      (op_eq ⟨true, []⟩ ⟨false, []⟩ = true ↔ val ⟨true, []⟩ = val ⟨false, []⟩) ∧
      op_ne ⟨true, []⟩ ⟨false, []⟩ = !op_eq ⟨true, []⟩ ⟨false, []⟩) :=
  ⟨by decide, by decide, eq_spec _ _ (by decide) (by decide)⟩

/-- C10: for every normalized `a` (every constructor and operator returns a
normalized value), `to_string(a)` returns a string, the string constructor
accepts it, and the value it builds compares equal to `a`. -/
theorem decimal_round_trip (a : big_integer) (ha : normalized a) :
    ∃ s x, to_string a = .ok s ∧ of_string s = .ok x ∧ op_eq x a = true :=
  round_trip a ha

/-- Witness of C10 on `-(7 * 2^32 + 5)`. -/
theorem decimal_round_trip_witness :
    normalized ⟨true, [5, 7]⟩ ∧
    ∃ s x, to_string ⟨true, [5, 7]⟩ = .ok s ∧ of_string s = .ok x ∧
      op_eq x ⟨true, [5, 7]⟩ = true :=
  ⟨by decide, decimal_round_trip _ (by decide)⟩

end big_integer

namespace big_integer

/-! ## Negation, cancellation and left shift -/

theorem val_op_neg (a : big_integer) : val (op_neg a) = -val a := by
  rcases a with ⟨s, l⟩
  cases s <;> simp [op_neg, val]

theorem normalized_op_neg {a : big_integer} (h : normalized a) : normalized (op_neg a) := h

theorem of_int_one : of_int 1 = ⟨false, [1]⟩ := by decide

theorem of_int_zero : of_int 0 = ⟨false, []⟩ := by decide

theorem normalized_one : normalized ⟨false, [1]⟩ := by decide

theorem val_one : val ⟨false, [1]⟩ = 1 := by decide

theorem op_not_spec (a : big_integer) (ha : normalized a) :
    val (op_not a) = -val a - 1 ∧ normalized (op_not a) := by
  obtain ⟨h1, h2⟩ := op_sub_assign_spec (op_neg a) (of_int 1) (normalized_op_neg ha)
    (by rw [of_int_one]; exact normalized_one)
  refine ⟨?_, h2⟩
  show val (op_sub_assign (op_neg a) (of_int 1)) = _
  rw [h1, val_op_neg, of_int_one, val_one]

theorem op_inc_spec (a : big_integer) (ha : normalized a) :
    val (op_inc a) = val a + 1 ∧ normalized (op_inc a) := by
  obtain ⟨h1, h2⟩ := op_add_assign_spec a (of_int 1) ha (by rw [of_int_one]; exact normalized_one)
  refine ⟨?_, h2⟩
  show val (op_add_assign a (of_int 1)) = _
  rw [h1, of_int_one, val_one]

theorem number_eq_nil_of_mag {l : List Nat} (h0 : l.getLast? ≠ some 0) (h : mag l = 0) :
    l = [] := (mag_eq_zero_iff h0).1 h

theorem sub_abs_self_like (d a b : big_integer) (ha : limbs_ok a.number)
    (hb : limbs_ok b.number) (hd : limbs_ok d.number) (h : mag a.number = mag b.number) :
    (sub_abs d a b).number = [] := by
  obtain ⟨h1, _, h3, _⟩ := mag_sub_abs d a b ha hb hd (by omega)
  exact number_eq_nil_of_mag h3 (by rw [h1]; omega)

theorem cut_nil : cut_leading_zero_loop ([] : List Nat).length [] = [] := rfl

theorem add_neg_cancel (a : big_integer) (ha : limbs_ok a.number) :
    (op_add a (op_neg a)).number = [] := by
  have hn : limbs_ok (op_neg a).number := ha
  show (op_add_assign a (op_neg a)).number = []
  unfold op_add_assign
  have hs : ¬ a.sign = (op_neg a).sign := by
    show ¬ a.sign = !a.sign
    cases a.sign <;> simp
  rw [if_neg hs]
  by_cases hc : comp_abs_less a (op_neg a) = true
  · rw [if_pos hc]
    exact sub_abs_self_like a (op_neg a) a hn ha ha rfl
  · rw [if_neg hc]
    exact sub_abs_self_like a a (op_neg a) ha hn ha rfl

theorem sub_self_cancel (a : big_integer) (ha : limbs_ok a.number) :
    (op_sub a a).number = [] := by
  show (op_sub_assign a a).number = []
  unfold op_sub_assign
  rw [if_neg (by simp)]
  have h := sub_abs_self_like a a a ha ha ha rfl
  by_cases hc : Bool.xor (op_gt a a) a.sign = true
  · rw [if_pos hc, number_cut_leading_zero]
    simp only [h]
    rfl
  · rw [if_neg hc, number_cut_leading_zero]
    simp only [h]
    rfl

theorem op_eq_zero_of_nil {x : big_integer} (h : x.number = []) : op_eq x (of_int 0) = true := by
  rw [op_eq_iff, of_int_zero]
  exact Or.inr ⟨h, rfl⟩

theorem insert_zero_loop_eq : ∀ (n : Nat) (l : List Nat),
    insert_zero_loop n l = List.replicate n 0 ++ l := by
  intro n
  induction n with
  | zero => intro l; rfl
  | succ n ih =>
    intro l
    rw [insert_zero_loop, ih, List.replicate_succ']
    simp

theorem two_pow_split (n : Nat) : 2 ^ (n % 32) * BASE ^ (n / 32) = 2 ^ n := by
  rw [BASE_eq, ← pow_mul, ← pow_add]
  congr 1
  omega

theorem op_shl_assign_spec (a : big_integer) (n : Nat) (ha : limbs_ok a.number) :
    val (op_shl_assign a n) = val a * 2 ^ n ∧ normalized (op_shl_assign a n) := by
  have hlt : n % 32 < 32 := Nat.mod_lt _ (by omega)
  have hp : (2 : Nat) ^ (n % 32) < 2 ^ 32 := Nat.pow_lt_pow_right (by omega) hlt
  have hp64 : (1 * 2 ^ (n % 32)) % 2 ^ 64 = 2 ^ (n % 32) := by
    rw [Nat.one_mul]
    exact Nat.mod_eq_of_lt (lt_trans hp (by norm_num))
  obtain ⟨p1, p2, p3⟩ := of_unsigned_long_long_spec (2 ^ (n % 32)) (lt_trans hp (by norm_num))
  obtain ⟨_, m2, _, m4, m5⟩ := mul_bigint_bigint_spec a (of_unsigned_long_long (2 ^ (n % 32)))
    ha p2.1
  unfold op_shl_assign
  simp only [hp64, insert_zero_loop_eq]
  have hok : limbs_ok (List.replicate (n / 32) 0 ++
      (op_mul_assign a (of_unsigned_long_long (2 ^ (n % 32)))).number) :=
    limbs_ok_append.2 ⟨limbs_ok_replicate_zero _, m2.1⟩
  refine ⟨?_, normalized_cut_leading_zero _ hok⟩
  rw [val_cut_leading_zero]
  unfold val
  simp only
  rw [mag_append, mag_replicate_zero, List.length_replicate, Nat.zero_add]
  have hm : mag (op_mul_assign a (of_unsigned_long_long (2 ^ (n % 32)))).number
      = mag a.number * 2 ^ (n % 32) := by
    show mag (mul_bigint_bigint a (of_unsigned_long_long (2 ^ (n % 32)))).number = _
    rw [m4, p3]
  have hs : (op_mul_assign a (of_unsigned_long_long (2 ^ (n % 32)))).sign = a.sign := by
    show (mul_bigint_bigint a (of_unsigned_long_long (2 ^ (n % 32)))).sign = a.sign
    rw [m5, p1]; simp
  rw [hm, hs]
  have e : BASE ^ (n / 32) * (mag a.number * 2 ^ (n % 32)) = mag a.number * 2 ^ n := by
    rw [← two_pow_split n]; ring
  rw [e]
  split <;> push_cast <;> ring

/-! ## Native constructors and uniqueness of decimal strings -/

theorem fill_vector_int (n : Int) (k : Nat) (hk : 2 ≤ k) (h : n.natAbs < 2 ^ 64) :
    val (fill_vector ⟨decide (n < 0), List.replicate k 0⟩ n.natAbs) = n ∧
      normalized (fill_vector ⟨decide (n < 0), List.replicate k 0⟩ n.natAbs) ∧
      ((fill_vector ⟨decide (n < 0), List.replicate k 0⟩ n.natAbs).sign = true ↔ n < 0) := by
  obtain ⟨h1, h2, h3⟩ := fill_vector_spec (decide (n < 0)) k n.natAbs h hk
  refine ⟨?_, h2, by rw [h1]; simp⟩
  unfold val
  rw [h1, h3]
  by_cases hn : n < 0
  · simp only [hn, decide_True, if_true]; omega
  · simp only [hn, decide_False, Bool.false_eq_true, if_false]; omega

theorem of_int_spec (n : Int) (h1 : -2 ^ 31 ≤ n) (h2 : n < 2 ^ 31) :
    val (of_int n) = n ∧ normalized (of_int n) ∧ ((of_int n).sign = true ↔ n < 0) :=
  fill_vector_int n 2 (le_refl _) (by omega)

theorem of_long_long_spec (n : Int) (h1 : -2 ^ 63 ≤ n) (h2 : n < 2 ^ 63) :
    val (of_long_long n) = n ∧ normalized (of_long_long n) ∧
      ((of_long_long n).sign = true ↔ n < 0) := by
  have h := fill_vector_int n 3 (by omega) (by omega)
  unfold of_long_long
  by_cases hn : n = -9223372036854775808
  · rw [if_pos hn]
    have e : (9223372036854775807 + 1 : Nat) = n.natAbs := by rw [hn]; rfl
    rw [e]
    exact h
  · rw [if_neg hn]
    exact h

theorem val_of_sign_false {x : big_integer} (h : x.sign = false) : val x = (mag x.number : Int) := by
  unfold val; rw [h]; rfl

theorem is_digit_iff_le (c : Char) : is_digit c = true ↔ '0' ≤ c ∧ c ≤ '9' := by
  simp [is_digit]

theorem char_eq_of_toNat {c d : Char} (h : c.toNat = d.toNat) : c = d := by
  apply Char.ext
  apply UInt32.ext
  exact h

theorem strip_zeros_eq_dropWhile (l : List Char) :
    strip_zeros l = l.dropWhile (fun c => c == '0') := by
  induction l with
  | nil => rfl
  | cons c cs ih =>
    unfold strip_zeros
    by_cases h : c = '0'
    · rw [if_pos h, ih, List.dropWhile_cons_of_pos (by simp [h])]
    · rw [if_neg h, List.dropWhile_cons_of_neg (by simp [h])]

theorem strip_zeros_head (l : List Char) : (strip_zeros l).head? ≠ some '0' := by
  induction l with
  | nil => simp [strip_zeros]
  | cons c cs ih =>
    unfold strip_zeros
    by_cases h : c = '0'
    · rw [if_pos h]; exact ih
    · rw [if_neg h]; simpa using h

theorem stoi_cons (c : Char) (cs : List Char) :
    stoi (c :: cs) = (c.toNat - 48) * 10 ^ cs.length + stoi cs := by
  have := stoi_append [c] cs
  rw [stoi_singleton] at this
  simpa using this

theorem all_digits_cons {c : Char} {cs : List Char} (h : all_digits (c :: cs) = true) :
    is_digit c = true ∧ all_digits cs = true := by
  rw [all_digits_iff] at h
  exact ⟨h c (by simp), (all_digits_iff cs).2 (fun d hd => h d (by simp [hd]))⟩

theorem pow_le_stoi {c : Char} {cs : List Char} (h : all_digits (c :: cs) = true)
    (hc : c ≠ '0') : 10 ^ cs.length ≤ stoi (c :: cs) := by
  obtain ⟨h1, _⟩ := all_digits_cons h
  rw [is_digit_iff] at h1
  have h48 : c.toNat ≠ 48 := by
    intro h0
    exact hc (char_eq_of_toNat h0)
  rw [stoi_cons]
  have : 1 * 10 ^ cs.length ≤ (c.toNat - 48) * 10 ^ cs.length :=
    Nat.mul_le_mul_right _ (by omega)
  omega

theorem digits_unique_same_length : ∀ (X Y : List Char), all_digits X = true →
    all_digits Y = true → X.length = Y.length → stoi X = stoi Y → X = Y := by
  intro X
  induction X with
  | nil =>
    intro Y _ _ hl _
    exact (List.length_eq_zero.1 hl.symm).symm
  | cons c cs ih =>
    intro Y hX hY hl hs
    cases Y with
    | nil => simp at hl
    | cons d ds =>
      obtain ⟨hc, hcs⟩ := all_digits_cons hX
      obtain ⟨hd, hds⟩ := all_digits_cons hY
      have hlen : cs.length = ds.length := by simpa using hl
      rw [stoi_cons, stoi_cons, hlen] at hs
      have b1 := stoi_lt cs hcs
      have b2 := stoi_lt ds hds
      rw [hlen] at b1
      rw [is_digit_iff] at hc hd
      generalize (10 : Nat) ^ ds.length = p at hs b1 b2
      have hdig : c.toNat - 48 = d.toNat - 48 := by
        rcases Nat.lt_trichotomy (c.toNat - 48) (d.toNat - 48) with h | h | h
        · have : (c.toNat - 48 + 1) * p ≤ (d.toNat - 48) * p := Nat.mul_le_mul_right _ h
          rw [Nat.add_mul] at this
          omega
        · exact h
        · have : (d.toNat - 48 + 1) * p ≤ (c.toNat - 48) * p := Nat.mul_le_mul_right _ h
          rw [Nat.add_mul] at this
          omega
      have hcd : c = d := char_eq_of_toNat (by omega)
      rw [hdig] at hs
      rw [hcd, ih ds hcs hds hlen (by omega)]

theorem stoi_pos_of_head {X : List Char} (hX : all_digits X = true) (hne : X ≠ [])
    (h0 : X.head? ≠ some '0') : 10 ^ (X.length - 1) ≤ stoi X := by
  cases X with
  | nil => exact absurd rfl hne
  | cons c cs =>
    have hc : c ≠ '0' := by simpa using h0
    simpa using pow_le_stoi hX hc

theorem digits_unique (X Y : List Char) (hX : all_digits X = true) (hY : all_digits Y = true)
    (hx0 : X.head? ≠ some '0') (hy0 : Y.head? ≠ some '0') (hs : stoi X = stoi Y) : X = Y := by
  have key : ∀ (U V : List Char), all_digits U = true → all_digits V = true → V ≠ [] →
      V.head? ≠ some '0' → stoi U = stoi V → V.length ≤ U.length := by
    intro U V hU hV hne hv0 h
    by_contra hlt
    have h1 := stoi_lt U hU
    have h2 := stoi_pos_of_head hV hne hv0
    have h3 : 10 ^ U.length ≤ 10 ^ (V.length - 1) :=
      Nat.pow_le_pow_right (by omega) (by omega)
    omega
  apply digits_unique_same_length X Y hX hY _ hs
  by_cases hXn : X = []
  · by_cases hYn : Y = []
    · rw [hXn, hYn]
    · have := key X Y hX hY hYn hy0 hs
      rw [hXn] at this
      simp at this
      exact absurd this hYn
  · by_cases hYn : Y = []
    · have := key Y X hY hX hXn hx0 hs.symm
      rw [hYn] at this
      simp at this
      exact absurd this hXn
    · exact le_antisymm (key Y X hY hX hXn hx0 hs.symm) (key X Y hX hY hYn hy0 hs)

/-! ## Parser acceptance and canonical formatting -/

theorem all_digits_false_iff (l : List Char) :
    all_digits l = false ↔ ∃ c ∈ l, ¬ ('0' ≤ c ∧ c ≤ '9') := by
  constructor
  · intro h
    by_contra hne
    have : all_digits l = true := by
      rw [all_digits_iff]
      intro c hc
      rw [is_digit_iff_le]
      by_contra hcd
      exact hne ⟨c, hc, hcd⟩
    rw [this] at h
    exact absurd h (by simp)
  · rintro ⟨c, hc, hcd⟩
    by_contra hne
    have ht : all_digits l = true := by simpa using hne
    rw [all_digits_iff] at ht
    exact hcd ((is_digit_iff_le c).1 (ht c hc))

theorem invalid_format_iff (s : List Char) :
    invalid_format s ↔
      s = [] ∨ s = ['-'] ∨
        all_digits (if s.head? = some '-' then s.drop 1 else s) = false := by
  unfold invalid_format
  rw [all_digits_false_iff]

theorem drop_ite (s : List Char) (c : Prop) [Decidable c] :
    s.drop (if c then 1 else 0) = if c then s.drop 1 else s := by
  split <;> simp

theorem of_string_invalid (s : List Char)
    (h : s = [] ∨ s = ['-'] ∨
      all_digits (if s.head? = some '-' then s.drop 1 else s) = false) :
    of_string s = .error .invalid_argument := by
  unfold of_string
  by_cases h1 : s = [] ∨ s = ['-']
  · rw [if_pos h1]
  · rw [if_neg h1]
    have h3 : all_digits (if s.head? = some '-' then s.drop 1 else s) = false := by
      rcases h with h | h | h
      · exact absurd (Or.inl h) h1
      · exact absurd (Or.inr h) h1
      · exact h
    simp only [drop_ite, h3, Bool.not_false, if_true]

theorem of_string_valid (s : List Char) (h1 : s ≠ []) (h2 : s ≠ ['-'])
    (h3 : all_digits (if s.head? = some '-' then s.drop 1 else s) = true) :
    ∃ x, of_string s = .ok x ∧ x.sign = decide (s.head? = some '-') ∧ normalized x ∧
      mag x.number = stoi (if s.head? = some '-' then s.drop 1 else s) := by
  by_cases hh : s.head? = some '-'
  · rw [if_pos hh] at h3 ⊢
    cases s with
    | nil => exact absurd rfl h1
    | cons c D =>
      have hc : c = '-' := by simpa using hh
      subst hc
      have hD : D ≠ [] := by
        intro h0; apply h2; rw [h0]
      simp only [List.drop_succ_cons, List.drop_zero] at h3 ⊢
      obtain ⟨x, x1, x2, x3, x4⟩ := of_string_neg D hD h3
      exact ⟨x, x1, by rw [x2]; simp, x3, x4⟩
  · rw [if_neg hh] at h3 ⊢
    obtain ⟨x, x1, x2, x3, x4⟩ := of_string_pos s h1 h3
    exact ⟨x, x1, by rw [x2]; simp [hh], x3, x4⟩

theorem of_string_acceptance (s : List Char) :
    (of_string s = .error .invalid_argument ↔ invalid_format s) ∧
      (¬ invalid_format s → ∃ x, of_string s = .ok x) := by
  rw [invalid_format_iff]
  by_cases h : s = [] ∨ s = ['-'] ∨
      all_digits (if s.head? = some '-' then s.drop 1 else s) = false
  · exact ⟨⟨fun _ => h, fun _ => of_string_invalid s h⟩, fun hn => absurd h hn⟩
  · have h1 : s ≠ [] := fun h0 => h (Or.inl h0)
    have h2 : s ≠ ['-'] := fun h0 => h (Or.inr (Or.inl h0))
    have h3 : all_digits (if s.head? = some '-' then s.drop 1 else s) = true := by
      by_contra h0
      exact h (Or.inr (Or.inr (by simpa using h0)))
    obtain ⟨x, x1, _⟩ := of_string_valid s h1 h2 h3
    refine ⟨⟨fun he => ?_, fun hi => absurd hi h⟩, fun _ => ⟨x, x1⟩⟩
    rw [x1] at he
    exact absurd he (by simp)

theorem to_string_canonical (x : big_integer) (D : List Char) (hx : normalized x)
    (hD : all_digits D = true) (hm : mag x.number = stoi D) :
    to_string x = .ok (if strip_zeros D = [] then ['0']
      else if x.sign then '-' :: strip_zeros D else strip_zeros D) := by
  obtain ⟨d1, d2, d3⟩ := strip_zeros_spec D hD
  by_cases hz : x.is_zero = true
  · have h0 : stoi D = 0 := by rw [← hm]; exact (is_zero_iff_mag hx).1 hz
    have hnil : strip_zeros D = [] := by
      by_contra hne
      have := stoi_pos_of_head d1 hne (strip_zeros_head D)
      have hp : 0 < 10 ^ ((strip_zeros D).length - 1) := Nat.pos_pow_of_pos _ (by omega)
      omega
    rw [to_string, if_pos hz, if_pos hnil]
  · have hm0 : mag x.number ≠ 0 := fun h => hz ((is_zero_iff_mag hx).2 h)
    obtain ⟨G, g1, g2, g3⟩ := to_string_loop_spec (2 * x.number.length) x [] hx
      (lt_of_lt_of_le (mag_lt hx.1) (pow_bound _))
    obtain ⟨z1, z2, _⟩ := strip_zeros_spec G g2
    rw [List.append_nil] at g1
    have hne : strip_zeros D ≠ [] := d3 (by rw [← hm]; exact hm0)
    have he : strip_zeros G = strip_zeros D :=
      digits_unique _ _ z1 d1 (strip_zeros_head G) (strip_zeros_head D)
        (by rw [z2, d2, g3, hm])
    rw [to_string, if_neg hz, g1, if_neg hne]
    simp only [he]

theorem canonical_shape_of_stripped (D : List Char) (hD : all_digits D = true)
    (hne : strip_zeros D ≠ []) (neg : Bool) :
    canonical_shape (if neg then '-' :: strip_zeros D else strip_zeros D) := by
  obtain ⟨d1, _, _⟩ := strip_zeros_spec D hD
  have hh := strip_zeros_head D
  cases hS : strip_zeros D with
  | nil => exact absurd hS hne
  | cons c cs =>
    rw [hS] at d1 hh
    obtain ⟨hc, hcs⟩ := all_digits_cons d1
    have hc0 : c ≠ '0' := by simpa using hh
    rw [is_digit_iff] at hc
    have h48 : c.toNat ≠ 48 := fun h0 => hc0 (char_eq_of_toNat h0)
    refine ⟨c, cs, ?_, ?_, ?_, ?_⟩
    · cases neg
      · exact Or.inl (by simp)
      · exact Or.inr (by simp)
    · rw [Char.le_def]
      show (49 : Nat) ≤ c.toNat
      omega
    · rw [Char.le_def]
      show c.toNat ≤ 57
      omega
    · intro d hd
      exact (is_digit_iff_le d).1 ((all_digits_iff cs).1 hcs d hd)

theorem canonical_decimal_eq (D : List Char) (hne : D ≠ []) (hD : all_digits D = true)
    (neg : Bool) :
    canonical_decimal (if neg then '-' :: D else D) =
      if strip_zeros D = [] then ['0']
      else if neg then '-' :: strip_zeros D else strip_zeros D := by
  have hhead : D.head? ≠ some '-' := by
    cases D with
    | nil => exact absurd rfl hne
    | cons c cs =>
      obtain ⟨hc, _⟩ := all_digits_cons hD
      rw [is_digit_iff] at hc
      simp only [List.head?_cons, ne_eq, Option.some.injEq]
      intro h
      rw [h] at hc
      revert hc
      decide
  unfold canonical_decimal
  cases neg
  · simp only [Bool.false_eq_true, if_false, hhead, decide_False, ← strip_zeros_eq_dropWhile]
  · simp only [if_true, List.head?_cons, decide_True, List.drop_succ_cons, List.drop_zero,
      ← strip_zeros_eq_dropWhile]

theorem parse_format_canonical (D : List Char) (neg : Bool) (hne : D ≠ [])
    (hD : all_digits D = true) :
    ∃ x, of_string (if neg then '-' :: D else D) = .ok x ∧
      to_string x = .ok (canonical_decimal (if neg then '-' :: D else D)) ∧
      (canonical_decimal (if neg then '-' :: D else D) = ['0'] ∨
        canonical_shape (canonical_decimal (if neg then '-' :: D else D))) := by
  rw [canonical_decimal_eq D hne hD neg]
  have hx : ∃ x, of_string (if neg then '-' :: D else D) = .ok x ∧ x.sign = neg ∧
      normalized x ∧ mag x.number = stoi D := by
    cases neg
    · obtain ⟨x, x1, x2, x3, x4⟩ := of_string_pos D hne hD
      exact ⟨x, by simpa using x1, x2, x3, x4⟩
    · obtain ⟨x, x1, x2, x3, x4⟩ := of_string_neg D hne hD
      exact ⟨x, by simpa using x1, x2, x3, x4⟩
  obtain ⟨x, x1, x2, x3, x4⟩ := hx
  refine ⟨x, x1, ?_, ?_⟩
  · rw [to_string_canonical x D x3 hD x4, x2]
  · by_cases hS : strip_zeros D = []
    · rw [if_pos hS]; exact Or.inl rfl
    · rw [if_neg hS]; exact Or.inr (canonical_shape_of_stripped D hD hS neg)

/-! ## Bit identities on limbs and their lifting to magnitudes -/

theorem bit_not_lt (z : Nat) : bit_not z < 2 ^ 32 := by
  unfold bit_not; omega

theorem testBit_bit_not (z i : Nat) (h : z < 2 ^ 32) :
    (bit_not z).testBit i = (decide (i < 32) && !z.testBit i) := by
  unfold bit_not
  rw [Nat.mod_eq_of_lt h]
  have e : 4294967295 - z = 2 ^ 32 - (z + 1) := by omega
  rw [e]
  exact Nat.testBit_two_pow_sub_succ h i

theorem testBit_high (z i : Nat) (h : z < 2 ^ 32) (hi : 32 ≤ i) : z.testBit i = false :=
  Nat.testBit_lt_two_pow (lt_of_lt_of_le h (Nat.pow_le_pow_right (by omega) hi))

theorem limb_and_not (x y : Nat) (hx : x < 2 ^ 32) (hy : y < 2 ^ 32) :
    x &&& bit_not y = Nat.ldiff x y := by
  apply Nat.eq_of_testBit_eq
  intro i
  rw [Nat.testBit_and, Nat.testBit_ldiff, testBit_bit_not y i hy]
  by_cases hi : i < 32
  · simp [hi]
  · simp [hi, testBit_high x i hx (by omega)]

theorem limb_not_and (x y : Nat) (hx : x < 2 ^ 32) (hy : y < 2 ^ 32) :
    bit_not x &&& y = Nat.ldiff y x := by
  rw [Nat.and_comm]; exact limb_and_not y x hy hx

theorem limb_not_and_not (x y : Nat) (hx : x < 2 ^ 32) (hy : y < 2 ^ 32) :
    bit_not (bit_not x &&& bit_not y) = x ||| y := by
  apply Nat.eq_of_testBit_eq
  intro i
  rw [testBit_bit_not _ i (Nat.and_lt_two_pow _ (bit_not_lt y)), Nat.testBit_and,
    Nat.testBit_or, testBit_bit_not x i hx, testBit_bit_not y i hy]
  by_cases hi : i < 32
  · simp [hi]
  · simp [hi, testBit_high x i hx (by omega), testBit_high y i hy (by omega)]

theorem limb_not_or_not (x y : Nat) (hx : x < 2 ^ 32) (hy : y < 2 ^ 32) :
    bit_not (x ||| bit_not y) = Nat.ldiff y x := by
  apply Nat.eq_of_testBit_eq
  intro i
  rw [testBit_bit_not _ i (Nat.or_lt_two_pow hx (bit_not_lt y)), Nat.testBit_or,
    Nat.testBit_ldiff, testBit_bit_not y i hy]
  by_cases hi : i < 32
  · simp [hi, Bool.and_comm]
  · simp [hi, testBit_high y i hy (by omega)]

theorem limb_not_not_or (x y : Nat) (hx : x < 2 ^ 32) (hy : y < 2 ^ 32) :
    bit_not (bit_not x ||| y) = Nat.ldiff x y := by
  rw [Nat.or_comm]; exact limb_not_or_not y x hy hx

theorem limb_not_or_both (x y : Nat) (hx : x < 2 ^ 32) (hy : y < 2 ^ 32) :
    bit_not (bit_not x ||| bit_not y) = x &&& y := by
  apply Nat.eq_of_testBit_eq
  intro i
  rw [testBit_bit_not _ i (Nat.or_lt_two_pow (bit_not_lt x) (bit_not_lt y)), Nat.testBit_or,
    Nat.testBit_and, testBit_bit_not x i hx, testBit_bit_not y i hy]
  by_cases hi : i < 32
  · simp [hi]
  · simp [hi, testBit_high x i hx (by omega)]

theorem limb_not_xor_not (x y : Nat) (hx : x < 2 ^ 32) (hy : y < 2 ^ 32) :
    bit_not (x ^^^ bit_not y) = x ^^^ y := by
  apply Nat.eq_of_testBit_eq
  intro i
  rw [testBit_bit_not _ i (Nat.xor_lt_two_pow hx (bit_not_lt y)), Nat.testBit_xor,
    Nat.testBit_xor, testBit_bit_not y i hy]
  by_cases hi : i < 32
  · simp [hi]
  · simp [hi, testBit_high x i hx (by omega), testBit_high y i hy (by omega)]

theorem limb_not_not_xor (x y : Nat) (hx : x < 2 ^ 32) (hy : y < 2 ^ 32) :
    bit_not (bit_not x ^^^ y) = x ^^^ y := by
  rw [Nat.xor_comm, limb_not_xor_not y x hy hx, Nat.xor_comm]

theorem limb_xor_both (x y : Nat) (hx : x < 2 ^ 32) (hy : y < 2 ^ 32) :
    bit_not x ^^^ bit_not y = x ^^^ y := by
  apply Nat.eq_of_testBit_eq
  intro i
  rw [Nat.testBit_xor, Nat.testBit_xor, testBit_bit_not x i hx, testBit_bit_not y i hy]
  by_cases hi : i < 32
  · simp [hi]
  · simp [hi, testBit_high x i hx (by omega), testBit_high y i hy (by omega)]

theorem bitop_split (op : Nat → Nat → Nat) (g : Bool → Bool → Bool) (hg : g false false = false)
    (hop : ∀ x y i, (op x y).testBit i = g (x.testBit i) (y.testBit i))
    (x y X Y : Nat) (hx : x < 2 ^ 32) (hy : y < 2 ^ 32) :
    op (x + BASE * X) (y + BASE * Y) = op x y + BASE * op X Y := by
  have hlt : op x y < 2 ^ 32 := by
    apply Nat.lt_pow_two_of_testBit
    intro i hi
    rw [hop, testBit_high x i hx hi, testBit_high y i hy hi, hg]
  rw [BASE_eq]
  apply Nat.eq_of_testBit_eq
  intro i
  rw [hop, Nat.add_comm x, Nat.add_comm y, Nat.add_comm (op x y),
    Nat.testBit_mul_pow_two_add X hx, Nat.testBit_mul_pow_two_add Y hy,
    Nat.testBit_mul_pow_two_add (op X Y) hlt]
  by_cases hi : i < 32
  · simp only [hi, if_true, hop]
  · simp only [hi, if_false, hop]

theorem magN_bitop (op : Nat → Nat → Nat) (g : Bool → Bool → Bool) (hg : g false false = false)
    (hop : ∀ x y i, (op x y).testBit i = g (x.testBit i) (y.testBit i))
    (X Y R : List Nat) (hX : limbs_ok X) (hY : limbs_ok Y) :
    ∀ n i, (∀ k, i ≤ k → k < i + n → R.getD k 0 = op (X.getD k 0) (Y.getD k 0)) →
      magN R i n = op (magN X i n) (magN Y i n) := by
  intro n
  induction n with
  | zero =>
    intro i _
    simp only [magN]
    apply Nat.eq_of_testBit_eq
    intro j
    rw [hop, Nat.zero_testBit, hg]
  | succ n ih =>
    intro i h
    rw [magN, magN, magN, h i (le_refl _) (by omega),
      ih (i + 1) (fun k hk hk' => h k (by omega) (by omega))]
    have h1 := getD_lt_of_limbs_ok hX i
    have h2 := getD_lt_of_limbs_ok hY i
    rw [BASE_eq] at h1 h2
    exact (bitop_split op g hg hop _ _ _ _ h1 h2).symm

theorem magN_and (X Y R : List Nat) (hX : limbs_ok X) (hY : limbs_ok Y) (n : Nat)
    (h : ∀ k, k < n → R.getD k 0 = X.getD k 0 &&& Y.getD k 0) :
    magN R 0 n = magN X 0 n &&& magN Y 0 n :=
  magN_bitop (fun x y => x &&& y) (fun a b => a && b) rfl (fun x y i => Nat.testBit_and x y i)
    X Y R hX hY n 0 (fun k _ hk => h k (by omega))

theorem magN_or (X Y R : List Nat) (hX : limbs_ok X) (hY : limbs_ok Y) (n : Nat)
    (h : ∀ k, k < n → R.getD k 0 = X.getD k 0 ||| Y.getD k 0) :
    magN R 0 n = magN X 0 n ||| magN Y 0 n :=
  magN_bitop (fun x y => x ||| y) (fun a b => a || b) rfl (fun x y i => Nat.testBit_or x y i)
    X Y R hX hY n 0 (fun k _ hk => h k (by omega))

theorem magN_xor (X Y R : List Nat) (hX : limbs_ok X) (hY : limbs_ok Y) (n : Nat)
    (h : ∀ k, k < n → R.getD k 0 = X.getD k 0 ^^^ Y.getD k 0) :
    magN R 0 n = magN X 0 n ^^^ magN Y 0 n :=
  magN_bitop (fun x y => x ^^^ y) (fun a b => Bool.xor a b) rfl
    (fun x y i => Nat.testBit_xor x y i)
    X Y R hX hY n 0 (fun k _ hk => h k (by omega))

theorem magN_ldiff (X Y R : List Nat) (hX : limbs_ok X) (hY : limbs_ok Y) (n : Nat)
    (h : ∀ k, k < n → R.getD k 0 = Nat.ldiff (X.getD k 0) (Y.getD k 0)) :
    magN R 0 n = Nat.ldiff (magN X 0 n) (magN Y 0 n) :=
  magN_bitop (fun x y => Nat.ldiff x y) (fun a b => a && !b) rfl
    (fun x y i => Nat.testBit_ldiff x y i)
    X Y R hX hY n 0 (fun k _ hk => h k (by omega))

/-! ## The loops of bit_operation -/

theorem get_pos_eq (x : big_integer) (i : Nat) :
    get_pos x i = if x.sign then bit_not (x.number.getD i 0) else x.number.getD i 0 := by
  unfold get_pos
  by_cases hi : i < x.number.length
  · rw [if_pos hi, if_pos hi]
    cases x.sign <;> rfl
  · have h0 : x.number.getD i 0 = 0 := getD_of_length_le _ _ (by omega)
    rw [if_neg hi, if_neg hi, h0]
    cases x.sign <;> rfl

theorem bit_operation_loop_spec (x y : big_integer) (oper : Nat → Nat → Nat) (r0 : List Nat) :
    ∀ n, n ≤ r0.length →
      (bit_operation_loop x y oper r0 n).length = r0.length ∧
      (∀ k, k < n → (bit_operation_loop x y oper r0 n).getD k 0
        = oper (get_pos x k) (get_pos y k) % 2 ^ 32) ∧
      (∀ k, n ≤ k → (bit_operation_loop x y oper r0 n).getD k 0 = r0.getD k 0) := by
  intro n
  induction n with
  | zero => intro _; exact ⟨rfl, fun k hk => absurd hk (by omega), fun _ _ => rfl⟩
  | succ n ih =>
    intro hn
    obtain ⟨h1, h2, h3⟩ := ih (by omega)
    simp only [bit_operation_loop]
    refine ⟨by simp [h1], ?_, ?_⟩
    · intro k hk
      by_cases hkn : k = n
      · rw [hkn, getD_set_eq _ _ _ (by omega)]
      · rw [getD_set_ne _ _ _ _ hkn]
        exact h2 k (by omega)
    · intro k hk
      rw [getD_set_ne _ _ _ _ (by omega)]
      exact h3 k (by omega)

theorem bit_invert_loop_spec (r0 : List Nat) :
    ∀ n, n ≤ r0.length →
      (bit_invert_loop r0 n).length = r0.length ∧
      (∀ k, k < n → (bit_invert_loop r0 n).getD k 0 = bit_not (r0.getD k 0)) ∧
      (∀ k, n ≤ k → (bit_invert_loop r0 n).getD k 0 = r0.getD k 0) := by
  intro n
  induction n with
  | zero => intro _; exact ⟨rfl, fun k hk => absurd hk (by omega), fun _ _ => rfl⟩
  | succ n ih =>
    intro hn
    obtain ⟨h1, h2, h3⟩ := ih (by omega)
    simp only [bit_invert_loop]
    refine ⟨by simp [h1], ?_, ?_⟩
    · intro k hk
      by_cases hkn : k = n
      · rw [hkn, getD_set_eq _ _ _ (by omega), h3 n (le_refl _)]
      · rw [getD_set_ne _ _ _ _ hkn]
        exact h2 k (by omega)
    · intro k hk
      rw [getD_set_ne _ _ _ _ (by omega)]
      exact h3 k (by omega)

theorem limbs_ok_of_getD (l : List Nat) (h : ∀ k, k < l.length → l.getD k 0 < BASE) :
    limbs_ok l := by
  intro x hx
  obtain ⟨k, hk, rfl⟩ := List.getElem_of_mem hx
  have := h k hk
  rwa [List.getD_eq_getElem _ _ hk] at this

theorem op_dec_neg (l : List Nat) (hl : limbs_ok l) :
    val (op_dec ⟨true, l⟩) = Int.negSucc (mag l) := by
  obtain ⟨h1, _, _, _⟩ := mag_add_abs ⟨true, l⟩ ⟨true, l⟩ ⟨false, [1]⟩ hl
    normalized_one.1 hl
  have h11 : mag [1] = 1 := by decide
  simp only [h11] at h1
  unfold op_dec
  rw [of_int_one]
  unfold op_sub_assign
  rw [if_pos (by simp)]
  unfold val
  simp only [h1, Bool.not_false, if_true]
  rw [Int.negSucc_eq]
  push_cast
  ring

theorem length_le_of_mag_lt {l : List Nat} (h0 : l.getLast? ≠ some 0) (k : Nat)
    (h : mag l < BASE ^ k) : l.length ≤ k := by
  by_cases hne : l = []
  · rw [hne]; exact Nat.zero_le _
  · have h1 := pow_le_mag_of_normalized h0 hne
    by_contra hlt
    have h2 : BASE ^ k ≤ BASE ^ (l.length - 1) := Nat.pow_le_pow_right BASE_pos (by omega)
    omega

theorem twos_complement_operand (a : big_integer) (ha : normalized a)
    (ha0 : a.number ≠ [] ∨ a.sign = false) (n : Nat) (hn : a.number.length ≤ n) :
    (if a.sign then { op_inc a with sign := true } else a).sign = a.sign ∧
      limbs_ok (if a.sign then { op_inc a with sign := true } else a).number ∧
      val a = (if a.sign
        then Int.negSucc (magN (if a.sign then { op_inc a with sign := true } else a).number 0 n)
        else (magN (if a.sign then { op_inc a with sign := true } else a).number 0 n : Int)) := by
  by_cases hs : a.sign = true
  · simp only [hs, if_true]
    have hne : a.number ≠ [] := by
      rcases ha0 with h | h
      · exact h
      · rw [hs] at h; exact absurd h (by simp)
    have hpos : mag a.number ≠ 0 := fun h => hne ((mag_eq_zero_iff ha.2).1 h)
    obtain ⟨i1, i2⟩ := op_inc_spec a ha
    have hva : val a = -(mag a.number : Int) := by unfold val; rw [hs]; rfl
    have hm : mag (op_inc a).number = mag a.number - 1 := by
      rw [hva] at i1
      unfold val at i1
      split at i1 <;> omega
    have hlen : (op_inc a).number.length ≤ n := by
      have := length_le_of_mag_lt i2.2 a.number.length
        (by rw [hm]; have := mag_lt ha.1; omega)
      omega
    refine ⟨trivial, i2.1, ?_⟩
    rw [magN_of_length_le _ _ hlen, hm, hva, Int.negSucc_eq]
    omega
  · have hs' : a.sign = false := by simpa using hs
    simp only [hs', Bool.false_eq_true, if_false]
    refine ⟨trivial, ha.1, ?_⟩
    rw [magN_of_length_le _ _ hn]
    unfold val; rw [hs']; rfl

theorem bit_operation_val (self a b : big_integer) (oper : Nat → Nat → Nat)
    (x y : big_integer)
    (hx : x = if a.sign then { op_inc a with sign := true } else a)
    (hy : y = if b.sign then { op_inc b with sign := true } else b)
    (n : Nat) (hn : n = max a.number.length b.number.length) (R : List Nat)
    (hR : R = bit_operation_loop x y oper (resize self.number n) n) :
    (∀ k, k < n → R.getD k 0 = oper (get_pos x k) (get_pos y k) % 2 ^ 32) ∧
    (∀ k, k < n → (bit_invert_loop R n).getD k 0 = bit_not (R.getD k 0)) ∧
    val (bit_operation self a b oper) =
      if oper (if x.sign then 1 else 0) (if y.sign then 1 else 0) % 2 ^ 32 ≠ 0
      then Int.negSucc (magN (bit_invert_loop R n) 0 n)
      else (magN R 0 n : Int) := by
  obtain ⟨r1, r2, _⟩ := bit_operation_loop_spec x y oper (resize self.number n) n
    (by rw [length_resize])
  rw [← hR, length_resize] at r1
  rw [← hR] at r2
  obtain ⟨v1, v2, _⟩ := bit_invert_loop_spec R n (by rw [r1])
  have hRok : limbs_ok R := by
    apply limbs_ok_of_getD
    intro k hk
    rw [r2 k (by omega), BASE_eq]
    exact Nat.mod_lt _ (by norm_num)
  have hIok : limbs_ok (bit_invert_loop R n) := by
    apply limbs_ok_of_getD
    intro k hk
    rw [v2 k (by omega), BASE_eq]
    exact bit_not_lt _
  refine ⟨r2, v2, ?_⟩
  unfold bit_operation
  simp only [← hn, ← hx, ← hy, ← hR]
  rw [val_cut_leading_zero]
  by_cases hs : oper (if x.sign then 1 else 0) (if y.sign then 1 else 0) % 2 ^ 32 ≠ 0
  · rw [if_pos hs, if_pos (decide_eq_true hs)]
    have hd := decide_eq_true hs
    simp only [ne_eq] at hd
    simp only [ne_eq, hd]
    rw [op_dec_neg _ hIok, mag_eq_magN, v1, r1]
  · rw [if_neg hs, if_neg (by rw [decide_eq_false hs]; simp)]
    have hd := decide_eq_false hs
    simp only [ne_eq] at hd
    unfold val
    simp only [ne_eq, hd, Bool.false_eq_true, if_false]
    rw [mag_eq_magN, r1]

/-! ## AND, OR and XOR against the integers -/

theorem limb_lt {l : List Nat} (h : limbs_ok l) (k : Nat) : l.getD k 0 < 2 ^ 32 := by
  have := getD_lt_of_limbs_ok h k
  rwa [BASE_eq] at this

theorem and_mod (u v : Nat) (hu : u < 2 ^ 32) : (u &&& v) % 2 ^ 32 = u &&& v :=
  Nat.mod_eq_of_lt (lt_of_le_of_lt Nat.and_le_left hu)

theorem or_mod (u v : Nat) (hu : u < 2 ^ 32) (hv : v < 2 ^ 32) : (u ||| v) % 2 ^ 32 = u ||| v :=
  Nat.mod_eq_of_lt (Nat.or_lt_two_pow hu hv)

theorem xor_mod (u v : Nat) (hu : u < 2 ^ 32) (hv : v < 2 ^ 32) : (u ^^^ v) % 2 ^ 32 = u ^^^ v :=
  Nat.mod_eq_of_lt (Nat.xor_lt_two_pow hu hv)

theorem op_and_spec (a b : big_integer) (ha : normalized a) (hb : normalized b)
    (ha0 : a.number ≠ [] ∨ a.sign = false) (hb0 : b.number ≠ [] ∨ b.sign = false) :
    val (op_and a b) = Int.land (val a) (val b) := by
  obtain ⟨xs, xok, xv⟩ := twos_complement_operand a ha ha0
    (max a.number.length b.number.length) (le_max_left _ _)
  obtain ⟨ys, yok, yv⟩ := twos_complement_operand b hb hb0
    (max a.number.length b.number.length) (le_max_right _ _)
  obtain ⟨r, v, hval⟩ := bit_operation_val a a b (fun a b => a &&& b) _ _ rfl rfl _ rfl _ rfl
  show val (bit_operation a a b (fun a b => a &&& b)) = _
  rw [hval, xv, yv, xs, ys]
  simp only [get_pos_eq, xs, ys] at r
  generalize (if a.sign then { op_inc a with sign := true } else a).number = X at *
  generalize (if b.sign then { op_inc b with sign := true } else b).number = Y at *
  generalize max a.number.length b.number.length = n at *
  generalize bit_operation_loop _ _ _ _ n = R at *
  clear hval xv yv xs ys ha0 hb0
  generalize a.sign = sa at *
  generalize b.sign = sb at *
  cases sa <;> cases sb
  · simp only [Bool.false_eq_true, if_false] at r ⊢
    rw [magN_and X Y R xok yok n (fun k hk => by rw [r k hk, and_mod _ _ (limb_lt xok k)])]
    rfl
  · simp only [Bool.false_eq_true, if_false, if_true] at r ⊢
    rw [magN_ldiff X Y R xok yok n (fun k hk => by
      rw [r k hk, and_mod _ _ (limb_lt xok k), limb_and_not _ _ (limb_lt xok k) (limb_lt yok k)])]
    rfl
  · simp only [Bool.false_eq_true, if_false, if_true] at r ⊢
    rw [magN_ldiff Y X R yok xok n (fun k hk => by
      rw [r k hk, and_mod _ _ (bit_not_lt _), limb_not_and _ _ (limb_lt xok k) (limb_lt yok k)])]
    rfl
  · simp only [if_true] at r ⊢
    rw [if_pos (by decide),
      magN_or X Y _ xok yok n (fun k hk => by
        rw [v k hk, r k hk, and_mod _ _ (bit_not_lt _),
          limb_not_and_not _ _ (limb_lt xok k) (limb_lt yok k)])]
    rfl

theorem op_or_spec (a b : big_integer) (ha : normalized a) (hb : normalized b)
    (ha0 : a.number ≠ [] ∨ a.sign = false) (hb0 : b.number ≠ [] ∨ b.sign = false) :
    val (op_or a b) = Int.lor (val a) (val b) := by
  obtain ⟨xs, xok, xv⟩ := twos_complement_operand a ha ha0
    (max a.number.length b.number.length) (le_max_left _ _)
  obtain ⟨ys, yok, yv⟩ := twos_complement_operand b hb hb0
    (max a.number.length b.number.length) (le_max_right _ _)
  obtain ⟨r, v, hval⟩ := bit_operation_val a a b (fun a b => a ||| b) _ _ rfl rfl _ rfl _ rfl
  show val (bit_operation a a b (fun a b => a ||| b)) = _
  rw [hval, xv, yv, xs, ys]
  simp only [get_pos_eq, xs, ys] at r
  generalize (if a.sign then { op_inc a with sign := true } else a).number = X at *
  generalize (if b.sign then { op_inc b with sign := true } else b).number = Y at *
  generalize max a.number.length b.number.length = n at *
  generalize bit_operation_loop _ _ _ _ n = R at *
  clear hval xv yv xs ys ha0 hb0
  generalize a.sign = sa at *
  generalize b.sign = sb at *
  cases sa <;> cases sb
  · simp only [Bool.false_eq_true, if_false] at r ⊢
    rw [magN_or X Y R xok yok n (fun k hk => by
      rw [r k hk, or_mod _ _ (limb_lt xok k) (limb_lt yok k)])]
    rfl
  · simp only [Bool.false_eq_true, if_false, if_true] at r ⊢
    rw [if_pos (by decide),
      magN_ldiff Y X _ yok xok n (fun k hk => by
        rw [v k hk, r k hk, or_mod _ _ (limb_lt xok k) (bit_not_lt _),
          limb_not_or_not _ _ (limb_lt xok k) (limb_lt yok k)])]
    rfl
  · simp only [Bool.false_eq_true, if_false, if_true] at r ⊢
    rw [if_pos (by decide),
      magN_ldiff X Y _ xok yok n (fun k hk => by
        rw [v k hk, r k hk, or_mod _ _ (bit_not_lt _) (limb_lt yok k),
          limb_not_not_or _ _ (limb_lt xok k) (limb_lt yok k)])]
    rfl
  · simp only [if_true] at r ⊢
    rw [if_pos (by decide),
      magN_and X Y _ xok yok n (fun k hk => by
        rw [v k hk, r k hk, or_mod _ _ (bit_not_lt _) (bit_not_lt _),
          limb_not_or_both _ _ (limb_lt xok k) (limb_lt yok k)])]
    rfl

theorem op_xor_spec (a b : big_integer) (ha : normalized a) (hb : normalized b)
    (ha0 : a.number ≠ [] ∨ a.sign = false) (hb0 : b.number ≠ [] ∨ b.sign = false) :
    val (op_xor a b) = Int.xor (val a) (val b) := by
  obtain ⟨xs, xok, xv⟩ := twos_complement_operand a ha ha0
    (max a.number.length b.number.length) (le_max_left _ _)
  obtain ⟨ys, yok, yv⟩ := twos_complement_operand b hb hb0
    (max a.number.length b.number.length) (le_max_right _ _)
  obtain ⟨r, v, hval⟩ := bit_operation_val a a b (fun a b => a ^^^ b) _ _ rfl rfl _ rfl _ rfl
  show val (bit_operation a a b (fun a b => a ^^^ b)) = _
  rw [hval, xv, yv, xs, ys]
  simp only [get_pos_eq, xs, ys] at r
  generalize (if a.sign then { op_inc a with sign := true } else a).number = X at *
  generalize (if b.sign then { op_inc b with sign := true } else b).number = Y at *
  generalize max a.number.length b.number.length = n at *
  generalize bit_operation_loop _ _ _ _ n = R at *
  clear hval xv yv xs ys ha0 hb0
  generalize a.sign = sa at *
  generalize b.sign = sb at *
  cases sa <;> cases sb
  · simp only [Bool.false_eq_true, if_false] at r ⊢
    rw [magN_xor X Y R xok yok n (fun k hk => by
      rw [r k hk, xor_mod _ _ (limb_lt xok k) (limb_lt yok k)])]
    rfl
  · simp only [Bool.false_eq_true, if_false, if_true] at r ⊢
    rw [if_pos (by decide),
      magN_xor X Y _ xok yok n (fun k hk => by
        rw [v k hk, r k hk, xor_mod _ _ (limb_lt xok k) (bit_not_lt _),
          limb_not_xor_not _ _ (limb_lt xok k) (limb_lt yok k)])]
    rfl
  · simp only [Bool.false_eq_true, if_false, if_true] at r ⊢
    rw [if_pos (by decide),
      magN_xor X Y _ xok yok n (fun k hk => by
        rw [v k hk, r k hk, xor_mod _ _ (bit_not_lt _) (limb_lt yok k),
          limb_not_not_xor _ _ (limb_lt xok k) (limb_lt yok k)])]
    rfl
  · simp only [if_true] at r ⊢
    rw [if_neg (by decide),
      magN_xor X Y R xok yok n (fun k hk => by
        rw [r k hk, xor_mod _ _ (bit_not_lt _) (bit_not_lt _),
          limb_xor_both _ _ (limb_lt xok k) (limb_lt yok k)])]
    rfl

/-! ## The claims on parsing, shifts, bitwise operators and constructors -/

/-- C11: for every string made of an optional `-` and one or more decimal
digits, the string constructor accepts it and `to_string` of the value is the
canonical form of the input: leading zero digits removed, one digit kept when
all are zero, the `-` dropped when every digit is zero; that form is `"0"` or
has the shape `-?[1-9][0-9]*`. -/
theorem canonical_formatting (D : List Char) (neg : Bool) (hne : D ≠ [])
    (hd : ∀ c ∈ D, '0' ≤ c ∧ c ≤ '9') :
    ∃ x, of_string (if neg then '-' :: D else D) = .ok x ∧
      to_string x = .ok (canonical_decimal (if neg then '-' :: D else D)) ∧
      (canonical_decimal (if neg then '-' :: D else D) = ['0'] ∨
        canonical_shape (canonical_decimal (if neg then '-' :: D else D))) :=
  parse_format_canonical D neg hne
    ((all_digits_iff D).2 (fun c hc => (is_digit_iff_le c).2 (hd c hc)))

/-- Witness of C11 on the string `"-007"`. -/
theorem canonical_formatting_witness :
    (['0', '0', '7'] : List Char) ≠ [] ∧ (∀ c ∈ ['0', '0', '7'], '0' ≤ c ∧ c ≤ '9') ∧
    ∃ x, of_string (if true then '-' :: ['0', '0', '7'] else ['0', '0', '7']) = .ok x ∧
      to_string x
        = .ok (canonical_decimal (if true then '-' :: ['0', '0', '7'] else ['0', '0', '7'])) ∧
      (canonical_decimal (if true then '-' :: ['0', '0', '7'] else ['0', '0', '7']) = ['0'] ∨
        canonical_shape
          (canonical_decimal (if true then '-' :: ['0', '0', '7'] else ['0', '0', '7']))) :=
  ⟨by decide, by decide, canonical_formatting _ true (by decide) (by decide)⟩

/-- C12: the string constructor fails with the invalid-format error exactly
on the empty string, on the string `"-"`, and on strings holding a character
that is not a decimal digit after an optional single leading `-`; every other
string is accepted. -/
theorem parser_acceptance (s : List Char) :
    (of_string s = .error .invalid_argument ↔ invalid_format s) ∧
    (¬ invalid_format s → ∃ x, of_string s = .ok x) :=
  of_string_acceptance s

/-- Witness of C12 on the accepted string `"-12"` and the rejected `"12a3"`. -/
theorem parser_acceptance_witness :
    (¬ invalid_format ['-', '1', '2'] ∧ ∃ x, of_string ['-', '1', '2'] = .ok x) ∧
    (invalid_format ['1', '2', 'a', '3'] ∧
      of_string ['1', '2', 'a', '3'] = .error .invalid_argument) :=
  ⟨⟨by unfold invalid_format; decide,
      (parser_acceptance ['-', '1', '2']).2 (by unfold invalid_format; decide)⟩,
    ⟨by unfold invalid_format; decide,
      (parser_acceptance ['1', '2', 'a', '3']).1.2 (by unfold invalid_format; decide)⟩⟩

/-- C13, the right shift of a negative value as floor division, evaluated on
the three cases the claim names: `-4 >> 1` gives `-3` where the floor is `-2`
(exact multiple), `-5 >> 0` gives `-6` where the floor is `-5`, and `-5 >> 64`
gives `0` where the floor is `-1`. -/
theorem shift_right_negative_counterexample :
    op_shr ⟨true, [4]⟩ 1 = .ok ⟨true, [3]⟩ ∧ Int.fdiv (val ⟨true, [4]⟩) (2 ^ 1) = -2 ∧
    op_shr ⟨true, [5]⟩ 0 = .ok ⟨true, [6]⟩ ∧ Int.fdiv (val ⟨true, [5]⟩) (2 ^ 0) = -5 ∧
    op_shr ⟨true, [5]⟩ 64 = .ok ⟨false, []⟩ ∧ Int.fdiv (val ⟨true, [5]⟩) (2 ^ 64) = -1 := by
  refine ⟨by rfl, by decide, by rfl, by decide, by rfl, by decide⟩

/-- C14: for every normalized `a`, of either sign and zero or not, and every
shift amount `n`, `a << n` denotes the integer of `a` times `2^n`, and it
compares equal to `a * p` for every normalized `p` that denotes `2^n`. -/
theorem shift_left_eq_mul (a p : big_integer) (n : Nat) (ha : normalized a)
    (hp : normalized p) (hpv : val p = 2 ^ n) :
    val (op_shl a n) = val a * 2 ^ n ∧ op_eq (op_shl a n) (op_mul a p) = true := by
  obtain ⟨h1, h2⟩ := op_shl_assign_spec a n ha.1
  obtain ⟨m1, m2, _⟩ := mul_bigint_bigint_spec a p ha.1 hp.1
  refine ⟨h1, ?_⟩
  have e : val (op_shl a n) = val (op_mul a p) := by
    show val (op_shl_assign a n) = val (mul_bigint_bigint a p)
    rw [h1, m1, hpv]
  exact (op_eq_iff_val _ _ h2 m2).2 e

/-- Witness of C14 on `-5 << 33` against `-5 * 2^33`. -/
theorem shift_left_eq_mul_witness :
    normalized ⟨true, [5]⟩ ∧ normalized ⟨false, [0, 2]⟩ ∧ val ⟨false, [0, 2]⟩ = 2 ^ 33 ∧
    (val (op_shl ⟨true, [5]⟩ 33) = val ⟨true, [5]⟩ * 2 ^ 33 ∧
      op_eq (op_shl ⟨true, [5]⟩ 33) (op_mul ⟨true, [5]⟩ ⟨false, [0, 2]⟩) = true) :=
  ⟨by decide, by decide, by decide,
    shift_left_eq_mul _ _ 33 (by decide) (by decide) (by decide)⟩

/-- C15, `big_integer(-1) & x == x`, evaluated on the zero `x = 5 - 5`, whose
sign flag is set: `bit_operation` increments the copy of `x` to 1 and forces
its sign flag, so `x` is read as `-2`, the result is `-2`, and `operator==`
finds it different from `x`. -/
theorem and_minus_one_counterexample :
    op_sub (of_int 5) (of_int 5) = ⟨true, []⟩ ∧
    of_string ['-', '0'] = .ok ⟨true, []⟩ ∧
    op_and (of_int (-1)) ⟨true, []⟩ = ⟨true, [2]⟩ ∧
    op_eq (op_and (of_int (-1)) ⟨true, []⟩) ⟨true, []⟩ = false := by
  refine ⟨by decide, by rfl, by decide, by decide⟩

/-- C16: for every normalized `a`, `~(~a) == a`, with `~a` computed as
`-a - 1`. -/
theorem double_not (a : big_integer) (ha : normalized a) :
    op_eq (op_not (op_not a)) a = true := by
  obtain ⟨h1, h2⟩ := op_not_spec a ha
  obtain ⟨h3, h4⟩ := op_not_spec (op_not a) h2
  apply (op_eq_iff_val _ _ h4 ha).2
  rw [h3, h1]
  ring

/-- Witness of C16 on the zero whose sign flag is set. -/
theorem double_not_witness :
    normalized ⟨true, []⟩ ∧ op_eq (op_not (op_not ⟨true, []⟩)) ⟨true, []⟩ = true :=
  ⟨by decide, double_not _ (by decide)⟩

/-- C17: for all normalized `a` and `b`, each non-zero or with a clear sign
flag, `a & b`, `a | b` and `a ^ b` denote the bitwise AND, OR and XOR of the
two's-complement integers denoted by `a` and `b`. -/
theorem bitwise_twos_complement (a b : big_integer) (ha : normalized a) (hb : normalized b)
    (ha0 : a.number ≠ [] ∨ a.sign = false) (hb0 : b.number ≠ [] ∨ b.sign = false) :
    val (op_and a b) = Int.land (val a) (val b) ∧
    val (op_or a b) = Int.lor (val a) (val b) ∧
    val (op_xor a b) = Int.xor (val a) (val b) :=
  ⟨op_and_spec a b ha hb ha0 hb0, op_or_spec a b ha hb ha0 hb0, op_xor_spec a b ha hb ha0 hb0⟩

/-- Witness of C17 on `-(2^32 + 5)` and `2^63 + 3`. -/
theorem bitwise_twos_complement_witness :
    normalized ⟨true, [5, 1]⟩ ∧ normalized ⟨false, [3, 2147483648]⟩ ∧
    (val (op_and ⟨true, [5, 1]⟩ ⟨false, [3, 2147483648]⟩)
        = Int.land (val ⟨true, [5, 1]⟩) (val ⟨false, [3, 2147483648]⟩) ∧
      val (op_or ⟨true, [5, 1]⟩ ⟨false, [3, 2147483648]⟩)
        = Int.lor (val ⟨true, [5, 1]⟩) (val ⟨false, [3, 2147483648]⟩) ∧
      val (op_xor ⟨true, [5, 1]⟩ ⟨false, [3, 2147483648]⟩)
        = Int.xor (val ⟨true, [5, 1]⟩) (val ⟨false, [3, 2147483648]⟩)) :=
  ⟨by decide, by decide,
    bitwise_twos_complement _ _ (by decide) (by decide) (by decide) (by decide)⟩

/-- C18: the constructors from native integers are exact: for every 64-bit
signed `n` (the most negative one included), every 64-bit unsigned `n`, every
32-bit signed `n` and every 32-bit unsigned `n`, the value built denotes `n`,
is normalized, and has its sign flag set exactly when `n < 0`. -/
theorem native_constructors_exact :
    (∀ n : Int, -2 ^ 63 ≤ n → n < 2 ^ 63 →
      val (of_long_long n) = n ∧ normalized (of_long_long n) ∧
        ((of_long_long n).sign = true ↔ n < 0)) ∧
    (∀ n : Nat, n < 2 ^ 64 →
      val (of_unsigned_long_long n) = n ∧ normalized (of_unsigned_long_long n) ∧
        (of_unsigned_long_long n).sign = false) ∧
    (∀ n : Int, -2 ^ 31 ≤ n → n < 2 ^ 31 →
      val (of_int n) = n ∧ normalized (of_int n) ∧ ((of_int n).sign = true ↔ n < 0)) ∧
    (∀ n : Nat, n < 2 ^ 32 →
      val (of_unsigned n) = n ∧ normalized (of_unsigned n) ∧ (of_unsigned n).sign = false) := by
  refine ⟨of_long_long_spec, ?_, of_int_spec, ?_⟩
  · intro n hn
    obtain ⟨h1, h2, h3⟩ := of_unsigned_long_long_spec n hn
    exact ⟨by rw [val_of_sign_false h1, h3], h2, h1⟩
  · intro n hn
    obtain ⟨h1, h2, h3⟩ := of_unsigned_spec n (lt_trans hn (by norm_num))
    exact ⟨by rw [val_of_sign_false h1, h3], h2, h1⟩

/-- Witness of C18 on the most negative 64-bit value and on `2^64 - 1`. -/
theorem native_constructors_exact_witness :
    (val (of_long_long (-9223372036854775808)) = -9223372036854775808 ∧
      normalized (of_long_long (-9223372036854775808)) ∧
      ((of_long_long (-9223372036854775808)).sign = true ↔ (-9223372036854775808 : Int) < 0)) ∧
    (val (of_unsigned_long_long 18446744073709551615) = (18446744073709551615 : Nat) ∧
      normalized (of_unsigned_long_long 18446744073709551615) ∧
      (of_unsigned_long_long 18446744073709551615).sign = false) :=
  ⟨native_constructors_exact.1 _ (by decide) (by decide),
    native_constructors_exact.2.1 _ (by decide)⟩

/-- C19: for every `a` with 32-bit limbs, `a + (-a)` and `a - a` both compare
equal to `big_integer(0)`. -/
theorem additive_cancellation (a : big_integer) (ha : limbs_ok a.number) :
    op_eq (op_add a (op_neg a)) (of_int 0) = true ∧ op_eq (op_sub a a) (of_int 0) = true :=
  ⟨op_eq_zero_of_nil (add_neg_cancel a ha), op_eq_zero_of_nil (sub_self_cancel a ha)⟩

/-- Witness of C19 on `-(7 * 2^32 + 5)`. -/
theorem additive_cancellation_witness :
    limbs_ok [5, 7] ∧
    (op_eq (op_add ⟨true, [5, 7]⟩ (op_neg ⟨true, [5, 7]⟩)) (of_int 0) = true ∧
      op_eq (op_sub ⟨true, [5, 7]⟩ ⟨true, [5, 7]⟩) (of_int 0) = true) :=
  ⟨by decide, additive_cancellation ⟨true, [5, 7]⟩ (by decide)⟩

/-- C20, the sign flag of a zero being unobservable, evaluated on the two
zeros: `0 < 0` is false with the flag clear and true with it set on the left
operand, and `-1 & 0` denotes 0 with the flag clear and -2 with it set. -/
theorem zero_sign_observable_counterexample :
    op_lt ⟨false, []⟩ ⟨false, []⟩ = false ∧ op_lt ⟨true, []⟩ ⟨false, []⟩ = true ∧
    val (op_and (of_int (-1)) ⟨false, []⟩) = 0 ∧ val (op_and (of_int (-1)) ⟨true, []⟩) = -2 := by
  decide

end big_integer

/-! ## Ordering on canonical values, shifts of non-negative values, normalized results -/

namespace big_integer

theorem mag_pos_of_canonical {a : big_integer} (ha : normalized a)
    (hc : ¬ (a.number = [] ∧ a.sign = true)) (hs : a.sign = true) : 0 < mag a.number := by
  have : mag a.number ≠ 0 := fun h => hc ⟨(mag_eq_zero_iff ha.2).1 h, hs⟩
  omega

theorem op_lt_spec (a b : big_integer) (ha : normalized a) (hb : normalized b)
    (hca : ¬ (a.number = [] ∧ a.sign = true)) (hcb : ¬ (b.number = [] ∧ b.sign = true)) :
    op_lt a b = true ↔ val a < val b := by
  have hc := comp_abs_less_spec a b ha hb
  have pa := mag_pos_of_canonical ha hca
  have pb := mag_pos_of_canonical hb hcb
  unfold op_lt val
  rw [hc]
  rcases a with ⟨sa, na⟩
  rcases b with ⟨sb, nb⟩
  simp only at pa pb ⊢
  cases sa <;> cases sb
  · by_cases he : mag na = mag nb
    · simp [he]
    · simp [he]
  · simp
    omega
  · have := pa rfl
    simp
    omega
  · have h1 := pa rfl
    have h2 := pb rfl
    by_cases he : mag na = mag nb
    · simp [he]
    · simp [he]
      omega

theorem ordering_spec (a b : big_integer) (ha : normalized a) (hb : normalized b)
    (hca : ¬ (a.number = [] ∧ a.sign = true)) (hcb : ¬ (b.number = [] ∧ b.sign = true)) :
    (op_lt a b = true ↔ val a < val b) ∧ (op_gt a b = true ↔ val b < val a) ∧
      (op_le a b = true ↔ val a ≤ val b) ∧ (op_ge a b = true ↔ val b ≤ val a) := by
  have h1 := op_lt_spec a b ha hb hca hcb
  have h2 := op_lt_spec b a hb ha hcb hca
  refine ⟨h1, h2, ?_, ?_⟩
  · unfold op_le op_gt
    rw [Bool.not_eq_true', ← Bool.not_eq_true, h2]
    omega
  · unfold op_ge
    rw [Bool.not_eq_true', ← Bool.not_eq_true, h1]
    omega

theorem erase_front_loop_eq : ∀ (n : Nat) (l : List Nat), erase_front_loop n l = l.drop n := by
  intro n
  induction n with
  | zero => intro l; rfl
  | succ n ih =>
    intro l
    cases l with
    | nil => simp [erase_front_loop]
    | cons x xs => simp [erase_front_loop, ih]

theorem limbs_ok_drop {l : List Nat} (h : limbs_ok l) (n : Nat) : limbs_ok (l.drop n) :=
  fun x hx => h x (List.mem_of_mem_drop hx)

theorem limbs_ok_take {l : List Nat} (h : limbs_ok l) (n : Nat) : limbs_ok (l.take n) :=
  fun x hx => h x (List.mem_of_mem_take hx)

theorem mag_drop {l : List Nat} (h : limbs_ok l) (n : Nat) :
    mag (l.drop n) = mag l / BASE ^ n := by
  have hsplit : l = l.take n ++ l.drop n := (List.take_append_drop n l).symm
  have h1 := mag_append (l.take n) (l.drop n)
  rw [← hsplit] at h1
  have h2 := mag_lt (limbs_ok_take h n)
  by_cases hn : n ≤ l.length
  · rw [List.length_take, min_eq_left hn] at h1 h2
    rw [h1, Nat.add_comm, Nat.mul_add_div (Nat.pos_pow_of_pos _ BASE_pos),
      Nat.div_eq_of_lt h2, Nat.add_zero]
  · have hnil : l.drop n = [] := List.drop_eq_nil_of_le (by omega)
    have hlt : mag l < BASE ^ n :=
      lt_of_lt_of_le (mag_lt h) (Nat.pow_le_pow_right BASE_pos (by omega))
    rw [hnil, Nat.div_eq_of_lt hlt]
    rfl

theorem single_limb_of_normalized {x : big_integer} (hx : normalized x) (h0 : mag x.number ≠ 0)
    (hB : mag x.number < BASE) : x.number = [mag x.number] := by
  have hlen : x.number.length ≤ 1 := length_le_of_mag_lt hx.2 1 (by simpa using hB)
  have hne : x.number ≠ [] := fun h => h0 (by rw [h]; rfl)
  cases hl : x.number with
  | nil => exact absurd hl hne
  | cons v vs =>
    rw [hl] at hlen
    have hvs : vs = [] := List.length_eq_zero.1 (by simpa using hlen)
    rw [hvs]
    simp [mag]

theorem op_eq_zero_false {x : big_integer} (h : x.number ≠ []) : op_eq x (of_int 0) = false := by
  have h' : ¬ op_eq x (of_int 0) = true := by
    rw [op_eq_iff, of_int_zero]
    rintro (⟨_, h2⟩ | ⟨h2, _⟩)
    · exact h h2
    · exact h h2
  simpa using h'

theorem op_div_assign_single (x rhs : big_integer) (v : Nat) (hr : rhs.number = [v])
    (hv : 0 < v) (hvB : v < BASE) (hx : limbs_ok x.number) :
    (op_div_assign x rhs).error = none ∧
      mag (op_div_assign x rhs).self.number = mag x.number / v ∧
      normalized (op_div_assign x rhs).self ∧
      ((op_div_assign x rhs).self.sign = true → Bool.xor x.sign rhs.sign = true) := by
  obtain ⟨y, y1, y2, y3, y4⟩ := divide_long_short_spec x v hx hv hvB
  unfold op_div_assign
  rw [op_eq_zero_false (by rw [hr]; simp)]
  simp only [Bool.false_eq_true, if_false, hr, List.length_singleton, if_true,
    List.getD_cons_zero, y1]
  by_cases hz : y.is_zero = true
  · simp only [hz, Bool.not_true, Bool.false_eq_true, if_false]
    exact ⟨trivial, y4, y3, fun h => by rw [y2] at h; exact absurd h (by simp)⟩
  · simp only [hz, Bool.not_false, if_true]
    exact ⟨trivial, y4, y3, fun h => h⟩

theorem two_pow_shift (n : Nat) :
    (1 * 2 ^ (n % 32)) % 2 ^ 64 = 2 ^ (n % 32) ∧ 0 < 2 ^ (n % 32) ∧ 2 ^ (n % 32) < BASE := by
  have hlt : n % 32 < 32 := Nat.mod_lt _ (by omega)
  have hp : (2 : Nat) ^ (n % 32) < 2 ^ 32 := Nat.pow_lt_pow_right (by omega) hlt
  refine ⟨?_, Nat.pos_pow_of_pos _ (by omega), by rw [BASE_eq]; exact hp⟩
  rw [Nat.one_mul]
  exact Nat.mod_eq_of_lt (lt_trans hp (by norm_num))

theorem shift_divisor (n : Nat) :
    (of_unsigned_long_long ((1 * 2 ^ (n % 32)) % 2 ^ 64)).number = [2 ^ (n % 32)] ∧
      (of_unsigned_long_long ((1 * 2 ^ (n % 32)) % 2 ^ 64)).sign = false := by
  obtain ⟨h1, h2, h3⟩ := two_pow_shift n
  rw [h1]
  obtain ⟨p1, p2, p3⟩ := of_unsigned_long_long_spec (2 ^ (n % 32))
    (lt_trans h3 (by norm_num [BASE]))
  have := single_limb_of_normalized p2 (by rw [p3]; omega) (by rw [p3]; exact h3)
  rw [p3] at this
  exact ⟨this, p1⟩

theorem op_shr_assign_nonneg (a : big_integer) (n : Nat) (ha : normalized a)
    (h0 : 0 ≤ val a) :
    ∃ r, op_shr_assign a n = .ok r ∧ val r = val a / 2 ^ n ∧ normalized r := by
  obtain ⟨t1, t2, t3⟩ := two_pow_shift n
  obtain ⟨d1, d2⟩ := shift_divisor n
  have hsign : a.number ≠ [] → a.sign = false := by
    intro hne
    by_contra hs
    have hs' : a.sign = true := by simpa using hs
    have hp : mag a.number ≠ 0 := fun h => hne ((mag_eq_zero_iff ha.2).1 h)
    unfold val at h0
    rw [hs'] at h0
    simp only [if_true] at h0
    omega
  have hva : val a = (mag a.number : Int) := by
    by_cases hne : a.number = []
    · unfold val; rw [hne]; simp [mag]
    · exact val_of_sign_false (hsign hne)
  -- the value after the limbs are erased
  have hx : ∃ x : big_integer,
      (if ({ a with number := erase_front_loop (n / 32) a.number } : big_integer).number.isEmpty
        then of_int 0
        else { a with number := erase_front_loop (n / 32) a.number }) = x ∧
      x.sign = false ∧ limbs_ok x.number ∧ mag x.number = mag a.number / BASE ^ (n / 32) := by
    refine ⟨_, rfl, ?_⟩
    simp only [erase_front_loop_eq]
    by_cases he : (a.number.drop (n / 32)).isEmpty = true
    · rw [if_pos he, of_int_zero]
      have hnil : a.number.drop (n / 32) = [] := by simpa using he
      refine ⟨rfl, by intro x hx; simp at hx, ?_⟩
      rw [← mag_drop ha.1, hnil]
    · rw [if_neg he]
      have hne : a.number ≠ [] := by
        intro h; apply he; rw [h]; simp
      exact ⟨hsign hne, limbs_ok_drop ha.1 _, mag_drop ha.1 _⟩
  obtain ⟨x, hxe, xs, xok, xm⟩ := hx
  obtain ⟨e1, e2, e3, e4⟩ := op_div_assign_single x _ (2 ^ (n % 32)) d1 t2 t3 xok
  unfold op_shr_assign
  simp only [hxe]
  have hres : (op_div_assign x (of_unsigned_long_long ((1 * 2 ^ (n % 32)) % 2 ^ 64))).result
      = .ok (op_div_assign x (of_unsigned_long_long ((1 * 2 ^ (n % 32)) % 2 ^ 64))).self := by
    unfold outcome.result; rw [e1]
  rw [hres]
  have hsf : (op_div_assign x (of_unsigned_long_long ((1 * 2 ^ (n % 32)) % 2 ^ 64))).self.sign
      = false := by
    by_contra h
    have := e4 (by simpa using h)
    rw [xs, d2] at this
    exact absurd this (by simp)
  simp only [hsf, Bool.false_eq_true, if_false]
  refine ⟨_, rfl, ?_, normalized_cut_leading_zero _ e3.1⟩
  rw [val_cut_leading_zero, val_of_sign_false hsf, e2, xm, hva, Nat.div_div_eq_div_mul,
    Nat.mul_comm, two_pow_split]
  norm_cast

theorem mod_two_pow_lt_BASE (x : Nat) : x % 2 ^ 32 < BASE := by
  rw [BASE_eq]; exact Nat.mod_lt _ (by norm_num)

theorem fill_vector_loop_limbs_ok : ∀ (fuel a i : Nat) (number : List Nat),
    limbs_ok number → limbs_ok (fill_vector_loop fuel a i number) := by
  intro fuel
  induction fuel with
  | zero => intro a i number h; exact h
  | succ fuel ih =>
    intro a i number h
    unfold fill_vector_loop
    split
    · exact ih _ _ _ (limbs_ok_set h _ _ (Nat.mod_lt _ BASE_pos))
    · exact h

theorem fill_vector_normalized (self : big_integer) (a : Nat) (h : limbs_ok self.number) :
    normalized (fill_vector self a) :=
  normalized_cut_leading_zero _ (fill_vector_loop_limbs_ok _ _ _ _ h)

theorem constructors_normalized (n : Int) (u : Nat) :
    normalized (of_int n) ∧ normalized (of_unsigned u) ∧ normalized (of_long_long n) ∧
      normalized (of_unsigned_long_long u) := by
  have h2 : limbs_ok [0, 0] := by decide
  have h3 : limbs_ok [0, 0, 0] := by decide
  refine ⟨fill_vector_normalized _ _ h2, fill_vector_normalized _ _ h2, ?_,
    fill_vector_normalized _ _ h3⟩
  unfold of_long_long
  split
  · exact fill_vector_normalized _ _ h3
  · exact fill_vector_normalized _ _ h3

theorem divide_long_short_loop_limbs_ok (a : List Nat) (b : Nat) :
    ∀ (i carry : Nat) (res : List Nat), limbs_ok res →
      limbs_ok (divide_long_short_loop a b i carry res) := by
  intro i
  induction i with
  | zero => intro carry res h; exact h
  | succ i ih =>
    intro carry res h
    unfold divide_long_short_loop
    exact ih _ _ (limbs_ok_set h _ _ (mod_two_pow_lt_BASE _))

theorem limbs_ok_resize_nil (n : Nat) : limbs_ok (resize [] n) := by
  rw [resize_nil]; exact limbs_ok_replicate_zero n

theorem divide_long_short_normalized (a : big_integer) (b : Nat) (r : big_integer)
    (h : divide_long_short a b = .ok r) : normalized r := by
  unfold divide_long_short at h
  split at h
  · exact absurd h (by simp)
  · have e : r = cut_leading_zero ⟨false, divide_long_short_loop a.number b a.number.length 0
        (resize [] a.number.length)⟩ := by
      injection h with h; exact h.symm
    rw [e]
    exact normalized_cut_leading_zero _
      (divide_long_short_loop_limbs_ok _ _ _ _ _ (limbs_ok_resize_nil _))

theorem remainder_long_short_normalized (a : big_integer) (b : Nat) (r : big_integer)
    (h : remainder_long_short a b = .ok r) : normalized r := by
  unfold remainder_long_short at h
  split at h
  · exact absurd h (by simp)
  · have e : r = { of_unsigned_long_long
        (remainder_long_short_loop a.number b a.number.length 0) with sign := a.sign } := by
      injection h with h; exact h.symm
    rw [e]
    exact (constructors_normalized 0 _).2.2.2

theorem long_divide_loop_limbs_ok (d : big_integer) (m : Nat) :
    ∀ (k : Nat) (q : List Nat) (r : big_integer) (q' : List Nat) (r' : big_integer),
      long_divide_loop d m k q r = .ok (q', r') → limbs_ok q → limbs_ok q' := by
  intro k
  induction k with
  | zero =>
    intro q r q' r' h hq
    simp only [long_divide_loop, Except.ok.injEq, Prod.mk.injEq] at h
    rw [← h.1]; exact hq
  | succ k ih =>
    intro q r q' r' h hq
    unfold long_divide_loop at h
    split at h
    · exact absurd h (by simp)
    · split at h
      · exact ih _ _ _ _ h hq
      · exact ih _ _ _ _ h (limbs_ok_set hq _ _ (mod_two_pow_lt_BASE _))

theorem long_divide_normalized (a b : big_integer) (p : big_integer × big_integer)
    (h : long_divide a b = .ok p) : normalized p.1 ∧ normalized p.2 := by
  unfold long_divide at h
  simp only at h
  split at h
  · exact absurd h (by simp)
  · split at h
    · exact absurd h (by simp)
    · rename_i q r hloop
      split at h
      · exact absurd h (by simp)
      · rename_i r2 hr2
        have e : p = (cut_leading_zero ⟨false, q⟩, cut_leading_zero r2) := by
          injection h with h; exact h.symm
        rw [e]
        exact ⟨normalized_cut_leading_zero _
            (long_divide_loop_limbs_ok _ _ _ _ _ _ _ hloop (limbs_ok_resize_nil _)),
          normalized_cut_leading_zero _ (divide_long_short_normalized _ _ _ hr2).1⟩

theorem op_div_assign_normalized (a b : big_integer) (ha : normalized a) :
    normalized (op_div_assign a b).self := by
  unfold op_div_assign
  split
  · exact ha
  · simp only
    split
    · split
      · exact ha
      · rename_i x hx
        have hn := divide_long_short_normalized _ _ _ hx
        split
        · exact hn
        · exact hn
    · split
      · rw [of_int_zero]; exact normalized_zero_init
      · split
        · exact ha
        · rename_i p hp
          exact (long_divide_normalized _ _ _ hp).1

theorem op_rem_assign_normalized (a b : big_integer) (ha : normalized a) :
    normalized (op_rem_assign a b).self := by
  unfold op_rem_assign
  split
  · exact ha
  · simp only
    split
    · split
      · exact ha
      · rename_i x hx
        have hn := remainder_long_short_normalized _ _ _ hx
        split
        · exact hn
        · exact hn
    · split
      · exact ha
      · split
        · exact ha
        · rename_i p hp
          exact normalized_cut_leading_zero _ (long_divide_normalized _ _ _ hp).2.1

theorem op_dec_spec (a : big_integer) (ha : normalized a) :
    val (op_dec a) = val a - 1 ∧ normalized (op_dec a) := by
  obtain ⟨h1, h2⟩ := op_sub_assign_spec a (of_int 1) ha (by rw [of_int_one]; exact normalized_one)
  refine ⟨?_, h2⟩
  show val (op_sub_assign a (of_int 1)) = _
  rw [h1, of_int_one, val_one]

theorem op_dec_neg_limbs_ok (l : List Nat) (hl : limbs_ok l) :
    limbs_ok (op_dec ⟨true, l⟩).number := by
  obtain ⟨_, h2, _, _⟩ := mag_add_abs ⟨true, l⟩ ⟨true, l⟩ ⟨false, [1]⟩ hl
    normalized_one.1 hl
  unfold op_dec
  rw [of_int_one]
  unfold op_sub_assign
  rw [if_pos (by simp)]
  exact h2

theorem bit_operation_normalized (self a b : big_integer) (oper : Nat → Nat → Nat) :
    normalized (bit_operation self a b oper) := by
  unfold bit_operation
  simp only
  apply normalized_cut_leading_zero
  generalize hn : max a.number.length b.number.length = n
  generalize (if a.sign then { op_inc a with sign := true } else a) = x
  generalize (if b.sign then { op_inc b with sign := true } else b) = y
  obtain ⟨r1, r2, _⟩ := bit_operation_loop_spec x y oper (resize self.number n) n
    (by rw [length_resize])
  rw [length_resize] at r1
  generalize bit_operation_loop x y oper (resize self.number n) n = R at r1 r2
  obtain ⟨v1, v2, _⟩ := bit_invert_loop_spec R n (by rw [r1])
  have hRok : limbs_ok R := by
    apply limbs_ok_of_getD
    intro k hk
    rw [r2 k (by omega)]
    exact mod_two_pow_lt_BASE _
  have hIok : limbs_ok (bit_invert_loop R n) := by
    apply limbs_ok_of_getD
    intro k hk
    rw [v2 k (by omega), BASE_eq]
    exact bit_not_lt _
  generalize decide (oper (if x.sign then 1 else 0) (if y.sign then 1 else 0) % 2 ^ 32 ≠ 0) = sg
  cases sg
  · exact hRok
  · exact op_dec_neg_limbs_ok _ hIok

theorem op_shr_assign_normalized (a : big_integer) (n : Nat) (ha : normalized a) :
    ∃ r, op_shr_assign a n = .ok r ∧ normalized r := by
  obtain ⟨_, t2, t3⟩ := two_pow_shift n
  obtain ⟨d1, _⟩ := shift_divisor n
  have hx : ∃ x : big_integer,
      (if ({ a with number := erase_front_loop (n / 32) a.number } : big_integer).number.isEmpty
        then of_int 0
        else { a with number := erase_front_loop (n / 32) a.number }) = x ∧
      limbs_ok x.number := by
    refine ⟨_, rfl, ?_⟩
    split
    · rw [of_int_zero]; exact normalized_zero_init.1
    · simp only [erase_front_loop_eq]
      exact limbs_ok_drop ha.1 _
  obtain ⟨x, hxe, xok⟩ := hx
  obtain ⟨e1, _, e3, _⟩ := op_div_assign_single x _ (2 ^ (n % 32)) d1 t2 t3 xok
  unfold op_shr_assign
  simp only [hxe]
  have hres : (op_div_assign x (of_unsigned_long_long ((1 * 2 ^ (n % 32)) % 2 ^ 64))).result
      = .ok (op_div_assign x (of_unsigned_long_long ((1 * 2 ^ (n % 32)) % 2 ^ 64))).self := by
    unfold outcome.result; rw [e1]
  rw [hres]
  refine ⟨_, rfl, normalized_cut_leading_zero _ ?_⟩
  split
  · exact (op_dec_spec _ e3).2.1
  · exact e3.1

theorem of_string_normalized (s : List Char) (x : big_integer) (h : of_string s = .ok x) :
    normalized x := by
  by_cases hv : s = [] ∨ s = ['-'] ∨
      all_digits (if s.head? = some '-' then s.drop 1 else s) = false
  · rw [of_string_invalid s hv] at h
    exact absurd h (by simp)
  · have h1 : s ≠ [] := fun h0 => hv (Or.inl h0)
    have h2 : s ≠ ['-'] := fun h0 => hv (Or.inr (Or.inl h0))
    have h3 : all_digits (if s.head? = some '-' then s.drop 1 else s) = true := by
      by_contra h0
      exact hv (Or.inr (Or.inr (by simpa using h0)))
    obtain ⟨y, y1, _, y3, _⟩ := of_string_valid s h1 h2 h3
    rw [y1] at h
    injection h with h
    rw [← h]; exact y3

/-! ## Long division: windows, the trial digit, the correction loop, the main loop -/

theorem magN_eq_mag_of_lt (l : List Nat) (j : Nat) (h : mag l < BASE ^ j) :
    magN l 0 j = mag l := by
  have h1 := magN_of_length_le l (j + l.length) (by omega)
  rw [magN_add] at h1
  have hz : magN l (0 + j) l.length = 0 := by
    by_contra hne
    have : BASE ^ j * 1 ≤ BASE ^ j * magN l (0 + j) l.length :=
      Nat.mul_le_mul_left _ (by omega)
    omega
  rw [hz] at h1
  omega

theorem getD_eq_digit {l : List Nat} (hl : limbs_ok l) (j : Nat) :
    l.getD j 0 = mag l / BASE ^ j % BASE := by
  have h1 := magN_of_length_le l (j + (1 + l.length)) (by omega)
  rw [magN_add, magN_add l l.length 1 (0 + j), Nat.zero_add] at h1
  have h2 := magN_lt hl j 0
  have h3 : magN l j 1 = l.getD j 0 := by simp [magN]
  rw [h3] at h1
  have h4 := getD_lt_of_limbs_ok hl j
  rw [← h1, Nat.add_comm, Nat.mul_add_div (Nat.pos_pow_of_pos _ BASE_pos), Nat.div_eq_of_lt h2,
    Nat.add_zero, pow_one, Nat.add_comm, Nat.mul_add_mod, Nat.mod_eq_of_lt h4]

theorem smaller_loop_spec (r dq : List Nat) (k : Nat) (hr : limbs_ok r) (hd : limbs_ok dq) :
    ∀ i, smaller_loop r dq k i = decide (magN r k (i + 1) < magN dq 0 (i + 1)) := by
  intro i
  induction i with
  | zero => simp [smaller_loop, magN]
  | succ i ih =>
    have h1 := magN_lt hr (i + 1) k
    have h2 := magN_lt hd (i + 1) 0
    rw [magN_succ_right r (i + 1), magN_succ_right dq (i + 1), Nat.zero_add]
    have e : k + (i + 1) = i + 1 + k := by omega
    rw [e]
    unfold smaller_loop
    by_cases h : r.getD (i + 1 + k) 0 = dq.getD (i + 1) 0
    · rw [if_neg (by simpa using h), ih, h]
      congr 1
      apply propext
      constructor <;> intro hh <;> omega
    · rw [if_pos h]
      rcases Nat.lt_or_gt_of_ne h with hlt | hgt
      · have : BASE ^ (i + 1) * (r.getD (i + 1 + k) 0 + 1) ≤ BASE ^ (i + 1) * dq.getD (i + 1) 0 :=
          Nat.mul_le_mul_left _ hlt
        rw [decide_eq_true hlt, decide_eq_true (by nlinarith)]
      · have : BASE ^ (i + 1) * (dq.getD (i + 1) 0 + 1) ≤ BASE ^ (i + 1) * r.getD (i + 1 + k) 0 :=
          Nat.mul_le_mul_left _ hgt
        rw [decide_eq_false (by omega), decide_eq_false (by nlinarith)]

theorem window_sub_loop_spec (dq : List Nat) (k : Nat) (r0 : List Nat) (hd : limbs_ok dq)
    (hr : limbs_ok r0) :
    ∀ i, k + i ≤ r0.length →
      (window_sub_loop dq k r0 i).2.length = r0.length ∧
      limbs_ok (window_sub_loop dq k r0 i).2 ∧
      (∀ j, j < k ∨ k + i ≤ j → (window_sub_loop dq k r0 i).2.getD j 0 = r0.getD j 0) ∧
      ((window_sub_loop dq k r0 i).1 = 0 ∨ (window_sub_loop dq k r0 i).1 = 1) ∧
      magN (window_sub_loop dq k r0 i).2 k i + magN dq 0 i
        = magN r0 k i + BASE ^ i * (window_sub_loop dq k r0 i).1 := by
  intro i
  induction i with
  | zero =>
    intro _
    exact ⟨rfl, hr, fun _ _ => rfl, Or.inl rfl, by simp [window_sub_loop, magN]⟩
  | succ i ih =>
    intro hi
    obtain ⟨hlen, hok, hfr, hb, hv⟩ := ih (by omega)
    have h1 := getD_lt_of_limbs_ok hr (k + i)
    have h2 := getD_lt_of_limbs_ok hd i
    have h3 : (window_sub_loop dq k r0 i).2.getD (i + k) 0 = r0.getD (k + i) 0 := by
      rw [Nat.add_comm i k]; exact hfr _ (Or.inr (le_refl _))
    simp only [window_sub_loop]
    rw [h3]
    generalize window_sub_loop dq k r0 i = s at hlen hok hfr hb hv
    have hB : BASE = 4294967296 := rfl
    generalize hx : r0.getD (k + i) 0 = x at *
    generalize hy : dq.getD i 0 = y at *
    have hdiff : (x + 2 ^ 64 - y + 2 ^ 64 - s.1 + BASE) % 2 ^ 64 = x + BASE - y - s.1 := by
      rw [hB] at h1 h2 ⊢
      rcases hb with hb | hb <;> rw [hb] <;> omega
    rw [hdiff]
    generalize hdf : x + BASE - y - s.1 = diff at *
    have hdlt : diff < 2 * BASE := by rw [hB] at h1 h2 ⊢; omega
    have hq : diff / BASE = 0 ∨ diff / BASE = 1 := by
      rw [hB] at hdlt ⊢; omega
    have hbor : (1 + 2 ^ 64 - diff / BASE) % 2 ^ 64 = 1 - diff / BASE := by
      rcases hq with hq | hq <;> rw [hq] <;> norm_num
    have hst : diff % BASE % 2 ^ 32 = diff % BASE := by
      rw [hB]; omega
    rw [hbor, hst]
    refine ⟨by simp [hlen], limbs_ok_set hok _ _ (Nat.mod_lt _ BASE_pos), ?_, ?_, ?_⟩
    · intro j hj
      show (s.2.set (i + k) (diff % BASE)).getD j 0 = _
      rw [getD_set_ne _ _ _ _ (by omega)]
      exact hfr j (by omega)
    · show 1 - diff / BASE = 0 ∨ 1 - diff / BASE = 1
      omega
    · show magN (s.2.set (i + k) (diff % BASE)) k (i + 1) + magN dq 0 (i + 1)
        = magN r0 k (i + 1) + BASE ^ (i + 1) * (1 - diff / BASE)
      rw [magN_succ_right, magN_succ_right dq, magN_succ_right r0,
        magN_set_outside _ _ _ _ _ (Or.inr (by omega)), Nat.add_comm i k,
        getD_set_eq _ _ _ (by omega), Nat.zero_add, hx, hy]
      have hdm := Nat.div_add_mod diff BASE
      have e0 : diff + y + s.1 = x + BASE := by
        rw [hB] at h1 h2 hdf ⊢
        rcases hb with hb | hb <;> rw [hb] at hdf ⊢ <;> omega
      rw [pow_succ]
      generalize BASE ^ i = P at *
      have e1 : P * diff = P * (BASE * (diff / BASE)) + P * (diff % BASE) := by
        rw [← Nat.mul_add, hdm]
      have e2 : P * diff + P * y + P * s.1 = P * x + P * BASE := by
        rw [← Nat.mul_add, ← Nat.mul_add, ← Nat.mul_add, e0]
      rcases hq with hq | hq
      · rw [hq] at e1 ⊢
        simp only [Nat.mul_zero, Nat.zero_add, Nat.sub_zero, Nat.mul_one] at e1 ⊢
        omega
      · rw [hq] at e1 ⊢
        simp only [Nat.sub_self, Nat.mul_zero, Nat.add_zero, Nat.mul_one] at e1 ⊢
        omega

theorem dq_sub_step (dq d : big_integer) (hd : normalized d) (hq : limbs_ok dq.number)
    (hs : dq.sign = d.sign) (hle : mag d.number ≤ mag dq.number)
    (hc : normalized dq ∨ d.number.length < dq.number.length) :
    normalized (op_sub_assign dq d) ∧
      mag (op_sub_assign dq d).number = mag dq.number - mag d.number ∧
      (mag d.number < mag dq.number → (op_sub_assign dq d).sign = d.sign) := by
  rcases hc with hn | hlen
  · obtain ⟨hv, hN⟩ := op_sub_assign_spec dq d hn hd
    refine ⟨hN, ?_, ?_⟩
    · generalize op_sub_assign dq d = res at *
      obtain ⟨rs, rn⟩ := res
      obtain ⟨ds, dn⟩ := d
      obtain ⟨qs, qn⟩ := dq
      simp only [val] at *
      subst hs
      cases rs <;> cases qs <;> simp at hv ⊢ <;> omega
    · generalize op_sub_assign dq d = res at *
      obtain ⟨rs, rn⟩ := res
      obtain ⟨ds, dn⟩ := d
      obtain ⟨qs, qn⟩ := dq
      simp only [val] at *
      subst hs
      cases rs <;> cases qs <;> simp at hv ⊢ <;> omega
  · have hcmp : comp_abs_less d dq = true := by
      unfold comp_abs_less
      rw [if_pos (by omega)]
      exact decide_eq_true hlen
    have hgt : Bool.xor (op_gt dq d) dq.sign = true := by
      unfold op_gt op_lt
      rw [if_neg (by simp [hs]), hcmp, hs]
      cases d.sign <;> rfl
    obtain ⟨h1, h2, h3, _⟩ := mag_sub_abs dq dq d hq hd.1 hq hle
    unfold op_sub_assign
    rw [if_neg (by simp [hs]), if_pos hgt]
    refine ⟨normalized_cut_leading_zero _ h2, ?_, fun _ => rfl⟩
    rw [number_cut_leading_zero]
    show mag (cut_leading_zero_loop (sub_abs dq dq d).number.length (sub_abs dq dq d).number) = _
    rw [mag_cut, h1]

theorem top_limb_pos (d : big_integer) (m : Nat) (hd : normalized d)
    (hdl : d.number.length = m + 1) :
    mag d.number = magN d.number 0 m + BASE ^ m * d.number.getD m 0 ∧
      0 < d.number.getD m 0 := by
  have h1 := magN_of_length_le d.number (m + 1) (by omega)
  rw [magN_succ_right, Nat.zero_add] at h1
  have h2 := pow_le_mag_of_normalized hd.2 (by intro h; rw [h] at hdl; simp at hdl)
  rw [hdl, Nat.add_sub_cancel] at h2
  have h3 := magN_lt hd.1 m 0
  refine ⟨h1.symm, ?_⟩
  by_contra h0
  have h0 : d.number.getD m 0 = 0 := by omega
  rw [h0, Nat.mul_zero] at h1
  omega

theorem trial_spec (r d : big_integer) (k m : Nat) (hm : 2 ≤ m) (hr : limbs_ok r.number)
    (hd : normalized d) (hdl : d.number.length = m) (hrl : r.number ≠ [])
    (hW : magN r.number k (m + 1) < mag d.number * BASE) :
    ∃ qt, trial r d k m = .ok qt ∧ qt ≤ BASE - 1 ∧
      magN r.number k (m + 1) / mag d.number ≤ qt := by
  obtain ⟨m, rfl⟩ : ∃ m', m = m' + 2 := ⟨m - 2, by omega⟩
  obtain ⟨hD, hd1⟩ := top_limb_pos d (m + 1) hd hdl
  have hX := getD_lt_of_limbs_ok hr (k + (m + 2))
  have hY := getD_lt_of_limbs_ok hr (k + (m + 2) - 1)
  have hlo := magN_lt hr (m + 1) k
  have hWs : magN r.number k (m + 2 + 1) = magN r.number k (m + 1) + BASE ^ (m + 1) *
      (r.number.getD (k + (m + 2)) 0 * BASE + r.number.getD (k + (m + 2) - 1) 0) := by
    rw [show m + 2 + 1 = (m + 1) + 2 from rfl, magN_add]
    have e1 : k + (m + 2) - 1 = k + (m + 1) := by omega
    have e2 : k + (m + 2) = k + (m + 1) + 1 := by omega
    rw [e1, e2]
    simp only [magN, Nat.mul_zero, Nat.add_zero]
    congr 1
    rw [Nat.mul_comm BASE, Nat.add_comm (r.number.getD _ 0)]
  have hB : BASE = 4294967296 := rfl
  have hDpos : 0 < mag d.number := by
    have := Nat.pos_pow_of_pos (m + 1) BASE_pos
    have : BASE ^ (m + 1) * 1 ≤ BASE ^ (m + 1) * d.number.getD (m + 1) 0 :=
      Nat.mul_le_mul_left _ hd1
    omega
  unfold trial
  rw [op_eq_zero_false hrl]
  simp only [Bool.false_eq_true, if_false, show m + 2 - 1 = m + 1 from rfl]
  rw [if_neg (by omega)]
  generalize hx : r.number.getD (k + (m + 2)) 0 = X at *
  generalize hy : r.number.getD (k + (m + 2) - 1) 0 = Y at *
  generalize hd1' : d.number.getD (m + 1) 0 = d1 at *
  have hr2 : (X * BASE + Y) % 2 ^ 64 = X * BASE + Y := by
    apply Nat.mod_eq_of_lt
    have : X * BASE ≤ (BASE - 1) * BASE := Nat.mul_le_mul_right _ (by omega)
    rw [hB] at this hY ⊢
    omega
  rw [hr2]
  generalize hr2' : X * BASE + Y = r2 at *
  refine ⟨_, rfl, Nat.min_le_right _ _, ?_⟩
  rcases Nat.le_total (r2 / d1) (BASE - 1) with hle | hge
  · rw [Nat.min_eq_left hle]
    have h1 : r2 < d1 * (r2 / d1 + 1) := Nat.lt_mul_div_succ r2 hd1
    generalize r2 / d1 = qt at *
    have h2 : BASE ^ (m + 1) * (r2 + 1) ≤ BASE ^ (m + 1) * (d1 * (qt + 1)) :=
      Nat.mul_le_mul_left _ h1
    have h3 : BASE ^ (m + 1) * d1 * (qt + 1) ≤ mag d.number * (qt + 1) :=
      Nat.mul_le_mul_right _ (by omega)
    rw [Nat.mul_assoc] at h3
    rw [Nat.mul_add, Nat.mul_one] at h2
    have h4 : magN r.number k (m + 2 + 1) < (qt + 1) * mag d.number := by
      rw [Nat.mul_comm]; omega
    exact Nat.lt_succ_iff.1 ((Nat.div_lt_iff_lt_mul hDpos).2 h4)
  · rw [Nat.min_eq_right hge]
    have : magN r.number k (m + 2 + 1) / mag d.number < BASE :=
      (Nat.div_lt_iff_lt_mul hDpos).2 (by rw [Nat.mul_comm]; exact hW)
    omega

theorem correct_loop_spec (r d : big_integer) (k m : Nat) (hr : limbs_ok r.number)
    (hd : normalized d) (hdl : d.number.length = m) (hD : 0 < mag d.number) :
    ∀ (qt : Nat) (dq : big_integer), qt ≤ BASE - 1 → limbs_ok dq.number →
      mag dq.number = mag d.number * qt →
      (1 ≤ qt → dq.sign = d.sign ∧ (normalized dq ∨ d.number.length < dq.number.length)) →
      magN r.number k (m + 1) / mag d.number ≤ qt →
      (correct_loop r d k m qt dq).1 = magN r.number k (m + 1) / mag d.number ∧
        limbs_ok (correct_loop r d k m qt dq).2.number ∧
        mag (correct_loop r d k m qt dq).2.number =
          mag d.number * (magN r.number k (m + 1) / mag d.number) := by
  intro qt
  induction qt with
  | zero =>
    intro dq _ hq hm _ hle
    have h0 : magN r.number k (m + 1) / mag d.number = 0 := Nat.le_zero.1 hle
    rw [h0]
    exact ⟨rfl, hq, by simpa using hm⟩
  | succ qt ih =>
    intro dq hqt hq hm hS hle
    have hDm : mag d.number < BASE ^ m := by rw [← hdl]; exact mag_lt hd.1
    have hlt : mag dq.number < BASE ^ (m + 1) := by
      rw [hm, pow_succ]
      have h1 : mag d.number * (qt + 1) ≤ mag d.number * BASE := Nat.mul_le_mul_left _ (by omega)
      have h2 : mag d.number * BASE < BASE ^ m * BASE := Nat.mul_lt_mul_of_pos_right hDm BASE_pos
      omega
    have hsm : smaller r dq k m = decide (magN r.number k (m + 1) < mag dq.number) := by
      unfold smaller
      rw [smaller_loop_spec _ _ _ hr hq, magN_eq_mag_of_lt _ _ hlt]
    unfold correct_loop
    rw [hsm]
    by_cases hlt2 : magN r.number k (m + 1) < mag dq.number
    · rw [decide_eq_true hlt2, if_pos rfl]
      obtain ⟨hs, hc⟩ := hS (by omega)
      have hle2 : mag d.number ≤ mag dq.number := by
        rw [hm]; exact Nat.le_mul_of_pos_right _ (by omega)
      obtain ⟨g1, g2, g3⟩ := dq_sub_step dq d hd hq hs hle2 hc
      have hm2 : mag (op_sub_assign dq d).number = mag d.number * qt := by
        rw [g2, hm, Nat.mul_succ, Nat.add_sub_cancel]
      apply ih (op_sub_assign dq d) (by omega) g1.1 hm2
      · intro h1
        refine ⟨g3 ?_, Or.inl g1⟩
        rw [hm]
        have : mag d.number * 2 ≤ mag d.number * (qt + 1) := Nat.mul_le_mul_left _ (by omega)
        omega
      · rw [hm, Nat.mul_comm] at hlt2
        exact Nat.lt_succ_iff.1 ((Nat.div_lt_iff_lt_mul hD).2 hlt2)
    · rw [decide_eq_false hlt2, if_neg (by simp)]
      have h1 : qt + 1 ≤ magN r.number k (m + 1) / mag d.number := by
        rw [Nat.le_div_iff_mul_le hD, Nat.mul_comm, ← hm]
        omega
      have h2 : magN r.number k (m + 1) / mag d.number = qt + 1 := by omega
      rw [h2]
      exact ⟨rfl, hq, hm⟩

theorem long_divide_loop_spec (d : big_integer) (m : Nat) (hm : 2 ≤ m) (hd : normalized d)
    (hdl : d.number.length = m) :
    ∀ (k : Nat) (q : List Nat) (r : big_integer),
      limbs_ok q → k ≤ q.length → (∀ j, j < k → q.getD j 0 = 0) →
      limbs_ok r.number → k + m ≤ r.number.length → mag r.number < mag d.number * BASE ^ k →
      ∃ q' r', long_divide_loop d m k q r = .ok (q', r') ∧
        limbs_ok q' ∧ q'.length = q.length ∧ (∀ j, k ≤ j → q'.getD j 0 = q.getD j 0) ∧
        limbs_ok r'.number ∧
        magN q' 0 k * mag d.number + mag r'.number = mag r.number ∧
        mag r'.number < mag d.number := by
  have hDm : mag d.number < BASE ^ m := by rw [← hdl]; exact mag_lt hd.1
  have hD : 0 < mag d.number := by
    have := pow_le_mag_of_normalized hd.2 (by intro h; rw [h] at hdl; simp at hdl; omega)
    have := Nat.pos_pow_of_pos (d.number.length - 1) BASE_pos
    omega
  intro k
  induction k with
  | zero =>
    intro q r hq _ _ hr _ hmag
    exact ⟨q, r, rfl, hq, rfl, fun _ _ => rfl, hr, by simp [magN], by simpa using hmag⟩
  | succ k ih =>
    intro q r hq hk hz hr hlen hmag
    have hPpos : 0 < BASE ^ k := Nat.pos_pow_of_pos k BASE_pos
    -- the window and the part below it
    have hsplit : mag r.number = magN r.number 0 k + BASE ^ k * magN r.number k (m + 1) := by
      have h1 : mag r.number < BASE ^ (k + (m + 1)) := by
        have h2 : mag d.number * BASE ^ (k + 1) < BASE ^ m * BASE ^ (k + 1) :=
          Nat.mul_lt_mul_of_pos_right hDm (Nat.pos_pow_of_pos _ BASE_pos)
        rw [← pow_add] at h2
        rw [show k + (m + 1) = m + (k + 1) by omega]
        omega
      rw [← magN_eq_mag_of_lt _ _ h1, magN_add, Nat.zero_add]
    have hlo := magN_lt hr k 0
    generalize hWdef : magN r.number k (m + 1) = W at *
    generalize hlodef : magN r.number 0 k = lo at *
    have hW : W < mag d.number * BASE := by
      have h1 : BASE ^ k * W < BASE ^ k * (mag d.number * BASE) := by
        have e : BASE ^ k * (mag d.number * BASE) = mag d.number * BASE ^ (k + 1) := by
          rw [pow_succ, Nat.mul_left_comm]
        rw [e]; omega
      exact Nat.lt_of_mul_lt_mul_left h1
    have hqs : W / mag d.number < BASE :=
      (Nat.div_lt_iff_lt_mul hD).2 (by rw [Nat.mul_comm]; exact hW)
    have hdm := Nat.div_add_mod W (mag d.number)
    have hmod := Nat.mod_lt W hD
    obtain ⟨qt, ht, hqtB, hle⟩ := trial_spec r d k m hm hr hd hdl
      (by intro h; rw [h] at hlen; simp at hlen) (by rw [hWdef]; exact hW)
    rw [hWdef] at hle
    by_cases hq0 : qt = 0
    · have hkey : long_divide_loop d m (k + 1) q r = long_divide_loop d m k q r := by
        rw [long_divide_loop, ht]
        simp only [hq0, if_true]
      have hqz : W / mag d.number = 0 := by rw [hq0] at hle; exact Nat.le_zero.1 hle
      have hWD : W < mag d.number := by
        rw [hqz, Nat.mul_zero, Nat.zero_add] at hdm
        omega
      have hmag2 : mag r.number < mag d.number * BASE ^ k := by
        have h1 : BASE ^ k * (W + 1) ≤ BASE ^ k * mag d.number := Nat.mul_le_mul_left _ hWD
        rw [Nat.mul_add, Nat.mul_one] at h1
        rw [Nat.mul_comm (mag d.number)]
        omega
      obtain ⟨q', r', e, g1, g2, g3, g4, g5, g6⟩ :=
        ih q r hq (by omega) (fun j hj => hz j (by omega)) hr (by omega) hmag2
      refine ⟨q', r', by rw [hkey, e], g1, g2, fun j hj => g3 j (by omega), g4, ?_, g6⟩
      rw [magN_succ_right, Nat.zero_add, g3 k (le_refl _), hz k (by omega), Nat.mul_zero,
        Nat.add_zero]
      exact g5
    · -- the product d * qt with a zero limb pushed
      obtain ⟨_, u2, u3⟩ := of_unsigned_long_long_spec qt
        (by have : BASE = 4294967296 := rfl; omega)
      obtain ⟨_, p2, _, p4, p5⟩ := mul_bigint_bigint_spec d (of_unsigned_long_long qt) hd.1 u2.1
      have hkey : long_divide_loop d m (k + 1) q r =
          long_divide_loop d m k
            (q.set k ((correct_loop r d k m qt
              { op_mul_assign d (of_unsigned_long_long qt) with
                number := (op_mul_assign d (of_unsigned_long_long qt)).number ++ [0] }).1 % 2 ^ 32))
            { r with number := (window_sub_loop (correct_loop r d k m qt
              { op_mul_assign d (of_unsigned_long_long qt) with
                number := (op_mul_assign d (of_unsigned_long_long qt)).number ++ [0] }).2.number
              k r.number (m + 1)).2 } := by
        rw [long_divide_loop, ht]
        simp only [hq0, if_false]
      rw [hkey]
      have hdq0 : op_mul_assign d (of_unsigned_long_long qt) =
          mul_bigint_bigint d (of_unsigned_long_long qt) := rfl
      rw [hdq0]
      rw [u3] at p4
      generalize mul_bigint_bigint d (of_unsigned_long_long qt) = dq0 at *
      have hle0 : mag d.number ≤ mag dq0.number := by
        rw [p4]; exact Nat.le_mul_of_pos_right _ (by omega)
      have hlen0 : d.number.length ≤ dq0.number.length := by
        by_contra hc
        have := mag_lt_of_length_lt p2.1 hd.2 (by omega)
        omega
      have hc := correct_loop_spec r d k m hr hd hdl hD qt
        { dq0 with number := dq0.number ++ [0] } hqtB
        (limbs_ok_append.2 ⟨p2.1, by intro x hx; simp at hx; rw [hx]; exact BASE_pos⟩)
        (by
          show mag (dq0.number ++ [0]) = _
          rw [mag_append, p4]; simp [mag])
        (fun _ => ⟨by show dq0.sign = d.sign; rw [p5]; simp [*],
          Or.inr (by show d.number.length < (dq0.number ++ [0]).length; simp; omega)⟩)
        (by rw [hWdef]; exact hle)
      rw [hWdef] at hc
      obtain ⟨c1, c2, c3⟩ := hc
      generalize correct_loop r d k m qt { dq0 with number := dq0.number ++ [0] } = c at *
      have hc1 : c.1 % 2 ^ 32 = W / mag d.number := by
        rw [c1]; exact Nat.mod_eq_of_lt hqs
      rw [hc1]
      have hle3 := Nat.mul_div_le W (mag d.number)
      have hBm : mag d.number * BASE < BASE ^ (m + 1) := by
        rw [pow_succ]; exact Nat.mul_lt_mul_of_pos_right hDm BASE_pos
      obtain ⟨w1, w2, w3, w4, w5⟩ :=
        window_sub_loop_spec c.2.number k r.number c2 hr (m + 1) (by omega)
      rw [magN_eq_mag_of_lt c.2.number (m + 1) (by rw [c3]; omega), c3, hWdef] at w5
      have hwlt := magN_lt w2 (m + 1) k
      have hwin := magN_window r.number (window_sub_loop c.2.number k r.number (m + 1)).2 k
        (m + 1) r.number.length (by omega) w3
      rw [hWdef, magN_of_length_le r.number _ (le_refl _),
        magN_of_length_le _ r.number.length (by rw [w1])] at hwin
      generalize window_sub_loop c.2.number k r.number (m + 1) = w at *
      generalize hWw : magN w.2 k (m + 1) = Ww at *
      have hb0 : w.1 = 0 := by
        rcases w4 with h | h
        · exact h
        · rw [h, Nat.mul_one] at w5; omega
      rw [hb0, Nat.mul_zero, Nat.add_zero] at w5
      have hWw2 : Ww = W % mag d.number := by omega
      -- the new remainder
      have e1 : BASE ^ k * W = BASE ^ k * (mag d.number * (W / mag d.number)) + BASE ^ k * Ww := by
        rw [← Nat.mul_add]; congr 1; omega
      have hmag2 : mag w.2 < mag d.number * BASE ^ k := by
        have h1 : BASE ^ k * (Ww + 1) ≤ BASE ^ k * mag d.number :=
          Nat.mul_le_mul_left _ (by omega)
        rw [Nat.mul_add, Nat.mul_one] at h1
        rw [Nat.mul_comm (mag d.number)]
        omega
      obtain ⟨q', r', e, g1, g2, g3, g4, g5, g6⟩ :=
        ih (q.set k (W / mag d.number)) { r with number := w.2 }
          (limbs_ok_set hq _ _ hqs) (by simp; omega)
          (fun j hj => by rw [getD_set_ne _ _ _ _ (by omega)]; exact hz j (by omega))
          w2 (by show k + m ≤ w.2.length; omega) hmag2
      refine ⟨q', r', e, g1, by rw [g2]; simp, ?_, g4, ?_, g6⟩
      · intro j hj
        rw [g3 j (by omega), getD_set_ne _ _ _ _ (by omega)]
      · rw [magN_succ_right, Nat.zero_add, g3 k (le_refl _), getD_set_eq _ _ _ (by omega),
          Nat.add_mul]
        have e2 : BASE ^ k * (W / mag d.number) * mag d.number =
            BASE ^ k * (mag d.number * (W / mag d.number)) := by
          rw [Nat.mul_assoc, Nat.mul_comm (W / mag d.number)]
        rw [e2]
        have g5' : magN q' 0 k * mag d.number + mag r'.number = mag w.2 := g5
        omega

theorem scale_spec (b : big_integer) (hb : normalized b) (hne : b.number ≠ [])
    (htop : b.number.getLastD 0 ≠ 4294967295) :
    (b.number.getLastD 0 + 1) % 2 ^ 32 ≠ 0 ∧
      1 ≤ BASE / ((b.number.getLastD 0 + 1) % 2 ^ 32) ∧
      BASE / ((b.number.getLastD 0 + 1) % 2 ^ 32) < 2 ^ 32 ∧
      mag b.number * (BASE / ((b.number.getLastD 0 + 1) % 2 ^ 32)) < BASE ^ b.number.length := by
  have hB : BASE = 4294967296 := rfl
  rcases eq_nil_or_snoc b.number with h | ⟨init, x, h⟩
  · exact absurd h hne
  · rw [h] at htop ⊢
    have hx : x < BASE := hb.1 x (by rw [h]; simp)
    simp only [List.getLastD_concat] at htop ⊢
    have e : (x + 1) % 2 ^ 32 = x + 1 := Nat.mod_eq_of_lt (by omega)
    rw [e]
    have hf1 : 1 ≤ BASE / (x + 1) := Nat.div_pos (by omega) (by omega)
    have hf2 : BASE / (x + 1) * (x + 1) ≤ BASE := Nat.div_mul_le_self _ _
    refine ⟨by omega, hf1, ?_, ?_⟩
    · have : BASE / (x + 1) ≤ BASE := Nat.div_le_self _ _
      have h2 : BASE / (x + 1) * 1 ≤ BASE / (x + 1) * (x + 1) := Nat.mul_le_mul_left _ (by omega)
      by_contra hc
      have h3 : BASE / (x + 1) = BASE := by omega
      rw [h3] at hf2
      have h0 := hb.2
      rw [h] at h0
      simp at h0
      have : BASE * 2 ≤ BASE * (x + 1) := Nat.mul_le_mul_left _ (by omega)
      omega
    · rw [mag_append, List.length_append, List.length_singleton, pow_succ]
      have hi : mag init < BASE ^ init.length :=
        mag_lt (fun y hy => hb.1 y (by rw [h]; simp [hy]))
      have hm1 : mag [x] = x := by simp [mag]
      rw [hm1]
      generalize BASE / (x + 1) = f at *
      generalize BASE ^ init.length = P at *
      generalize mag init = lo at *
      have h1 : (lo + P * x) * f ≤ (P * (x + 1) - 1) * f :=
        Nat.mul_le_mul_right _ (by rw [Nat.mul_add]; omega)
      have h2 : P * (x + 1) * f = P * (f * (x + 1)) := by
        rw [Nat.mul_assoc, Nat.mul_comm (x + 1)]
      have h3 : P * (f * (x + 1)) ≤ P * BASE := Nat.mul_le_mul_left _ hf2
      have h4 : (P * (x + 1) - 1) * f = P * (x + 1) * f - f := by
        rw [Nat.sub_mul, Nat.one_mul]
      have h5 : f ≤ P * (x + 1) * f := by
        have : 1 * f ≤ P * (x + 1) * f := Nat.mul_le_mul_right _ (by
          have : 1 ≤ P * (x + 1) := Nat.mul_pos (by omega) (by omega)
          exact this)
        omega
      omega

theorem scaled_divisor_spec (b : big_integer) (f : Nat) (hb : normalized b) (hf1 : 1 ≤ f)
    (hf2 : f < 2 ^ 32) (hlt : mag b.number * f < BASE ^ b.number.length) :
    normalized (op_mul_assign b (of_unsigned_long_long f)) ∧
      mag (op_mul_assign b (of_unsigned_long_long f)).number = mag b.number * f ∧
      (op_mul_assign b (of_unsigned_long_long f)).number.length = b.number.length ∧
      (op_mul_assign b (of_unsigned_long_long f)).sign = b.sign := by
  obtain ⟨u1, u2, u3⟩ := of_unsigned_long_long_spec f (by omega)
  obtain ⟨_, p2, _, p4, p5⟩ := mul_bigint_bigint_spec b (of_unsigned_long_long f) hb.1 u2.1
  rw [u3] at p4
  rw [u1] at p5
  refine ⟨p2, p4, ?_, by simpa using p5⟩
  apply Nat.le_antisymm
  · exact length_le_of_mag_lt p2.2 _ (by rw [p4]; exact hlt)
  · by_contra hc
    have h1 := mag_lt_of_length_lt p2.1 hb.2 (Nat.lt_of_not_le hc)
    rw [p4] at h1
    have : mag b.number * 1 ≤ mag b.number * f := Nat.mul_le_mul_left _ hf1
    omega

theorem scaled_dividend_spec (a : big_integer) (f : Nat) (ha : normalized a) (hf1 : 1 ≤ f)
    (hf2 : f < 2 ^ 32) :
    limbs_ok (op_mul_assign a (of_unsigned_long_long f)).number ∧
      mag (op_mul_assign a (of_unsigned_long_long f)).number = mag a.number * f ∧
      a.number.length ≤ (op_mul_assign a (of_unsigned_long_long f)).number.length := by
  obtain ⟨u1, u2, u3⟩ := of_unsigned_long_long_spec f (by omega)
  obtain ⟨_, p2, _, p4, p5⟩ := mul_bigint_bigint_spec a (of_unsigned_long_long f) ha.1 u2.1
  rw [u3] at p4
  refine ⟨p2.1, p4, ?_⟩
  by_contra hc
  have h1 := mag_lt_of_length_lt p2.1 ha.2 (Nat.lt_of_not_le hc)
  rw [p4] at h1
  have : mag a.number * 1 ≤ mag a.number * f := Nat.mul_le_mul_left _ hf1
  omega

theorem long_divide_spec (a b : big_integer) (ha : normalized a) (hb : normalized b)
    (hm : 2 ≤ b.number.length) (hn : b.number.length ≤ a.number.length)
    (htop : b.number.getLastD 0 ≠ 4294967295) :
    ∃ q r, long_divide a b = .ok (q, r) ∧ normalized q ∧ normalized r ∧
      q.sign = false ∧ r.sign = false ∧
      mag a.number = mag q.number * mag b.number + mag r.number ∧
      mag r.number < mag b.number := by
  have hne : b.number ≠ [] := by intro h; rw [h] at hm; simp at hm
  obtain ⟨s1, s2, s3, s4⟩ := scale_spec b hb hne htop
  unfold long_divide
  simp only []
  rw [if_neg s1]
  generalize BASE / ((b.number.getLastD 0 + 1) % 2 ^ 32) = f at *
  obtain ⟨d1, d2, d3, d4⟩ := scaled_divisor_spec b f hb s2 s3 s4
  obtain ⟨r1, r2, r3⟩ := scaled_dividend_spec a f ha s2 s3
  generalize op_mul_assign b (of_unsigned_long_long f) = d at *
  generalize op_mul_assign a (of_unsigned_long_long f) = r0 at *
  have hBm := pow_le_mag_of_normalized hb.2 hne
  have hAn := mag_lt ha.1
  have hmagr : mag (r0.number ++ [0]) = mag a.number * f := by
    rw [mag_append, r2]; simp [mag]
  have hpre : mag (r0.number ++ [0]) <
      mag d.number * BASE ^ (a.number.length - b.number.length + 1) := by
    rw [hmagr, d2]
    have e : BASE ^ (b.number.length - 1) * BASE ^ (a.number.length - b.number.length + 1) =
        BASE ^ a.number.length := by
      rw [← pow_add]; congr 1; omega
    have h1 : mag a.number * f < BASE ^ a.number.length * f :=
      Nat.mul_lt_mul_of_pos_right hAn (by omega)
    have h2 : BASE ^ (b.number.length - 1) * f *
        BASE ^ (a.number.length - b.number.length + 1) ≤
        mag b.number * f * BASE ^ (a.number.length - b.number.length + 1) :=
      Nat.mul_le_mul_right _ (Nat.mul_le_mul_right _ hBm)
    have h3 : BASE ^ (b.number.length - 1) * f *
        BASE ^ (a.number.length - b.number.length + 1) = BASE ^ a.number.length * f := by
      rw [Nat.mul_right_comm, e]
    omega
  obtain ⟨q', r', e, g1, g2, g3, g4, g5, g6⟩ :=
    long_divide_loop_spec d b.number.length hm d1 d3
      (a.number.length - b.number.length + 1)
      (resize [] (a.number.length - b.number.length + 2))
      { r0 with number := r0.number ++ [0] }
      (limbs_ok_resize (by intro x hx; simp at hx) _)
      (by rw [length_resize]; omega)
      (fun j _ => by rw [resize_nil]; exact getD_replicate_zero _ _)
      (limbs_ok_append.2 ⟨r1, by intro x hx; simp at hx; rw [hx]; exact BASE_pos⟩)
      (by show _ ≤ (r0.number ++ [0]).length; simp; omega)
      hpre
  rw [e]
  simp only []
  rw [Nat.mod_eq_of_lt s3]
  obtain ⟨rr, t1, t2, t3, t4⟩ := divide_long_short_spec r' f g4 (by omega)
    (by have : BASE = 4294967296 := rfl; omega)
  rw [t1]
  simp only []
  have hQ : mag (cut_leading_zero ⟨false, q'⟩).number =
      magN q' 0 (a.number.length - b.number.length + 1) := by
    rw [number_cut_leading_zero]
    show mag (cut_leading_zero_loop q'.length q') = _
    rw [mag_cut, ← magN_of_length_le q' (a.number.length - b.number.length + 1 + 1)
      (by rw [g2, length_resize]), magN_succ_right, Nat.zero_add, g3 _ (le_refl _), resize_nil,
      getD_replicate_zero, Nat.mul_zero, Nat.add_zero]
  have hR : mag (cut_leading_zero rr).number = mag r'.number / f := by
    rw [number_cut_leading_zero, mag_cut, t4]
  have g5' : magN q' 0 (a.number.length - b.number.length + 1) * mag d.number + mag r'.number =
      mag a.number * f := by rw [← hmagr]; exact g5
  rw [d2] at g5' g6
  refine ⟨_, _, rfl, normalized_cut_leading_zero _ g1, normalized_cut_leading_zero _ t3.1,
    rfl, t2, ?_, ?_⟩
  · rw [hQ, hR]
    generalize magN q' 0 (a.number.length - b.number.length + 1) = Q at *
    generalize mag r'.number = R at *
    have h1 : Q * mag b.number * f ≤ mag a.number * f := by
      rw [Nat.mul_assoc]; omega
    have h2 : Q * mag b.number ≤ mag a.number := Nat.le_of_mul_le_mul_right h1 (by omega)
    have h3 : R = (mag a.number - Q * mag b.number) * f := by
      rw [Nat.sub_mul, Nat.mul_assoc]; omega
    rw [h3, Nat.mul_div_cancel _ (by omega)]
    omega
  · rw [hR]
    exact Nat.div_lt_of_lt_mul (by rw [Nat.mul_comm]; exact g6)

theorem getLastD_eq_getD (l : List Nat) : l.getLastD 0 = l.getD (l.length - 1) 0 := by
  rcases eq_nil_or_snoc l with h | ⟨init, x, h⟩
  · rw [h]; rfl
  · rw [h]
    simp [List.getD_eq_getElem?_getD]

theorem scale_times_top (v : Nat) (h1 : 1 ≤ v) (h2 : v + 1 < BASE) :
    2 ^ 31 ≤ v * (BASE / (v + 1)) := by
  have hB : BASE = 4294967296 := rfl
  have hle : BASE / (v + 1) * (v + 1) ≤ BASE := Nat.div_mul_le_self _ _
  have hlt : BASE < (v + 1) * (BASE / (v + 1) + 1) := Nat.lt_mul_div_succ BASE (by omega)
  have hf1 : 1 ≤ BASE / (v + 1) := Nat.div_pos (by omega) (by omega)
  generalize BASE / (v + 1) = f at *
  rw [hB] at hle hlt h2
  by_cases hf4 : f < 4
  · have hf : f = 1 ∨ f = 2 ∨ f = 3 := by omega
    rcases hf with rfl | rfl | rfl <;> omega
  · by_cases hv : v = 1
    · subst hv; omega
    · obtain ⟨t, rfl⟩ : ∃ t, v = t + 2 := ⟨v - 2, by omega⟩
      obtain ⟨g, rfl⟩ : ∃ g, f = g + 4 := ⟨f - 4, by omega⟩
      have e1 : (g + 4) * (t + 2 + 1) = g * t + 3 * g + 4 * t + 12 := by ring
      have e2 : (t + 2 + 1) * (g + 4 + 1) = g * t + 3 * g + 5 * t + 15 := by ring
      have e3 : (t + 2) * (g + 4) = g * t + 2 * g + 4 * t + 8 := by ring
      rw [e1] at hle
      rw [e2] at hlt
      rw [e3]
      generalize g * t = p at *
      omega

theorem scale_normalizes_divisor (b : big_integer) (hb : normalized b) (hne : b.number ≠ [])
    (htop : b.number.getLastD 0 ≠ 4294967295) :
    ∃ f, long_divide_scale b = .ok f ∧ 1 ≤ f ∧
      (op_mul_assign b (of_unsigned_long_long f)).number.length = b.number.length ∧
      2 ^ 31 ≤ (op_mul_assign b (of_unsigned_long_long f)).number.getLastD 0 := by
  obtain ⟨s1, s2, s3, s4⟩ := scale_spec b hb hne htop
  have hB : BASE = 4294967296 := rfl
  obtain ⟨m, hm⟩ : ∃ m, b.number.length = m + 1 :=
    ⟨b.number.length - 1, by
      have : b.number.length ≠ 0 := fun h => hne (List.length_eq_zero.1 h)
      omega⟩
  obtain ⟨hbm, hv⟩ := top_limb_pos b m hb hm
  have hvB := getD_lt_of_limbs_ok hb.1 m
  have hve : b.number.getLastD 0 = b.number.getD m 0 := by
    rw [getLastD_eq_getD, hm, Nat.add_sub_cancel]
  rw [hve] at s1 s2 s3 s4 htop
  have hmod : (b.number.getD m 0 + 1) % 2 ^ 32 = b.number.getD m 0 + 1 :=
    Nat.mod_eq_of_lt (by omega)
  have hvf := scale_times_top (b.number.getD m 0) hv (by omega)
  rw [hmod] at s1 s2 s3 s4
  refine ⟨BASE / (b.number.getD m 0 + 1), ?_, s2, ?_⟩
  · unfold long_divide_scale
    simp only []
    rw [hve, hmod, if_neg (by omega)]
  · obtain ⟨d1, d2, d3, _⟩ := scaled_divisor_spec b _ hb s2 s3 s4
    refine ⟨d3, ?_⟩
    generalize op_mul_assign b (of_unsigned_long_long (BASE / (b.number.getD m 0 + 1))) = d at *
    obtain ⟨hdm, _⟩ := top_limb_pos d m d1 (by rw [d3, hm])
    have hlo := magN_lt d1.1 m 0
    rw [getLastD_eq_getD, d3, hm, Nat.add_sub_cancel]
    generalize BASE / (b.number.getD m 0 + 1) = f at *
    generalize b.number.getD m 0 = v at *
    generalize d.number.getD m 0 = t at *
    have h1 : BASE ^ m * v * f ≤ mag b.number * f := Nat.mul_le_mul_right _ (by omega)
    have h2 : BASE ^ m * 2 ^ 31 ≤ BASE ^ m * (v * f) := Nat.mul_le_mul_left _ hvf
    rw [← Nat.mul_assoc] at h2
    have h3 : BASE ^ m * 2 ^ 31 < BASE ^ m * (t + 1) := by
      rw [Nat.mul_add, Nat.mul_one]; omega
    have := Nat.lt_of_mul_lt_mul_left h3
    omega

theorem comp_abs_less_loop_self (x : List Nat) (s : Bool) :
    ∀ i, comp_abs_less_loop x x s i = s := by
  intro i
  induction i with
  | zero => rfl
  | succ i ih =>
    unfold comp_abs_less_loop
    rw [if_neg (by simp)]
    exact ih

theorem sub_self_negative_zero (a : big_integer) (ha : limbs_ok a.number) :
    op_sub a a = ⟨true, []⟩ := by
  have hnum := sub_self_cancel a ha
  have hsign : (op_sub a a).sign = true := by
    show (op_sub_assign a a).sign = true
    have hgt : op_gt a a = false := by
      unfold op_gt op_lt comp_abs_less
      rw [if_neg (by simp), if_neg (by simp), comp_abs_less_loop_self]
      cases a.sign <;> rfl
    unfold op_sub_assign
    rw [if_neg (by simp), hgt]
    cases hs : a.sign
    · rw [if_neg (by simp)]
      rfl
    · rw [if_pos (by simp)]
      rfl
  generalize op_sub a a = r at *
  obtain ⟨rs, rn⟩ := r
  simp only at hnum hsign
  rw [hnum, hsign]

theorem long_divide_scale_wraps (a b : big_integer) (h : b.number.getLastD 0 = 4294967295) :
    long_divide_scale b = .error .machine_division_by_zero ∧
      long_divide a b = .error .machine_division_by_zero := by
  unfold long_divide_scale long_divide
  simp only [h]
  exact ⟨rfl, rfl⟩

theorem quotient_digits (q a b r : Nat) (hb : r < b) (h : a = q * b + r) : q = a / b := by
  have hb0 : 0 < b := by omega
  rw [h, Nat.add_comm, Nat.add_mul_div_right _ _ hb0, Nat.div_eq_of_lt hb, Nat.zero_add]

/-! ## The claims on the representation invariant, comparison and long division -/

/-- C21: the default constructor, the native constructors and the string
constructor give normalized values, and on normalized operands the result of
each of `+=`, `-=`, `*=`, `/=`, `%=`, `&=`, `|=`, `^=`, `<<=`, `>>=`, unary
`-`, `~`, `++` and `--` is normalized (for `/=` and `%=` the receiver after the
call, whether or not it threw). -/
theorem representation_invariant (a b : big_integer) (ha : normalized a) (hb : normalized b)
    (n : Nat) (i : Int) (u : Nat) (s : List Char) :
    (normalized ⟨false, []⟩ ∧ normalized (of_int i) ∧ normalized (of_unsigned u) ∧
      normalized (of_long_long i) ∧ normalized (of_unsigned_long_long u) ∧
      (∀ x, of_string s = .ok x → normalized x)) ∧
    (normalized (op_add_assign a b) ∧ normalized (op_sub_assign a b) ∧
      normalized (op_mul_assign a b) ∧ normalized (op_div_assign a b).self ∧
      normalized (op_rem_assign a b).self) ∧
    (normalized (op_and_assign a b) ∧ normalized (op_or_assign a b) ∧
      normalized (op_xor_assign a b)) ∧
    (normalized (op_shl_assign a n) ∧ ∃ r, op_shr_assign a n = .ok r ∧ normalized r) ∧
    (normalized (op_neg a) ∧ normalized (op_not a) ∧ normalized (op_inc a) ∧
      normalized (op_dec a)) :=
  ⟨⟨normalized_zero_init, (constructors_normalized i u).1, (constructors_normalized i u).2.1,
      (constructors_normalized i u).2.2.1, (constructors_normalized i u).2.2.2,
      fun x hx => of_string_normalized s x hx⟩,
    ⟨(op_add_assign_spec a b ha hb).2, (op_sub_assign_spec a b ha hb).2,
      (mul_bigint_bigint_spec a b ha.1 hb.1).2.1, op_div_assign_normalized a b ha,
      op_rem_assign_normalized a b ha⟩,
    ⟨bit_operation_normalized a a b _, bit_operation_normalized a a b _,
      bit_operation_normalized a a b _⟩,
    ⟨(op_shl_assign_spec a n ha.1).2, op_shr_assign_normalized a n ha⟩,
    ⟨normalized_op_neg ha, (op_not_spec a ha).2, (op_inc_spec a ha).2, (op_dec_spec a ha).2⟩⟩

/-- Witness of C21 on `a = -(7 * 2^32 + 5)` and `b = 2^32 + 3`: the receivers
after `a /= b`, `a %= b` and `a &= b`. -/
theorem representation_invariant_witness :
    normalized ⟨true, [5, 7]⟩ ∧ normalized ⟨false, [3, 1]⟩ ∧
    normalized (op_div_assign ⟨true, [5, 7]⟩ ⟨false, [3, 1]⟩).self ∧
    normalized (op_rem_assign ⟨true, [5, 7]⟩ ⟨false, [3, 1]⟩).self ∧
    normalized (op_and_assign ⟨true, [5, 7]⟩ ⟨false, [3, 1]⟩) :=
  ⟨by decide, by decide,
    (representation_invariant ⟨true, [5, 7]⟩ ⟨false, [3, 1]⟩ (by decide) (by decide)
      40 (-7) 9 ['1', '2']).2.1.2.2.2.1,
    (representation_invariant ⟨true, [5, 7]⟩ ⟨false, [3, 1]⟩ (by decide) (by decide)
      40 (-7) 9 ['1', '2']).2.1.2.2.2.2,
    (representation_invariant ⟨true, [5, 7]⟩ ⟨false, [3, 1]⟩ (by decide) (by decide)
      40 (-7) 9 ['1', '2']).2.2.1.1⟩

/-- C22, a zero result always carrying the sign flag false, evaluated on
`5 - 5`, `-5 * 0`, `-4 % 2` and `-(2^32 + 4) / 2^33`: each returns the empty
limb vector with the sign flag set, while the single-limb path of `operator/=`
guards the sign assignment with `!is_zero()` and `-1 / 2` comes back with the
flag clear. -/
theorem canonical_zero_sign_counterexample :
    op_sub (of_int 5) (of_int 5) = ⟨true, []⟩ ∧
    op_mul (of_int (-5)) (of_int 0) = ⟨true, []⟩ ∧
    op_rem (of_int (-4)) (of_int 2) = .ok ⟨true, []⟩ ∧
    op_div ⟨true, [4, 1]⟩ ⟨false, [0, 2]⟩ = .ok ⟨true, []⟩ ∧
    op_div (of_int (-1)) (of_int 2) = .ok ⟨false, []⟩ := by
  refine ⟨by decide, by decide, by rfl, by rfl, by rfl⟩

/-- C23 as stated fails: on `a = -5` and `b = 5`, both normalized and of equal
magnitude, `a.comp_abs_less(b)` is true. -/
theorem comp_abs_less_tie_counterexample :
    normalized ⟨true, [5]⟩ ∧ normalized ⟨false, [5]⟩ ∧
    ¬ (comp_abs_less ⟨true, [5]⟩ ⟨false, [5]⟩ = true ↔
        mag (⟨true, [5]⟩ : big_integer).number < mag (⟨false, [5]⟩ : big_integer).number) := by
  decide

/-- C23 amended: for all normalized `a` and `b`, `a.comp_abs_less(b)` is true
exactly when `|a| < |b|`, or `|a| = |b|` and the sign flag of `a` is set. -/
theorem comp_abs_less_magnitude_then_sign (a b : big_integer) (ha : normalized a)
    (hb : normalized b) :
    comp_abs_less a b = true ↔
      mag a.number < mag b.number ∨ (mag a.number = mag b.number ∧ a.sign = true) := by
  rw [comp_abs_less_spec a b ha hb]
  by_cases h : mag a.number = mag b.number
  · rw [if_pos h]
    constructor
    · intro hs; exact Or.inr ⟨h, hs⟩
    · rintro (h1 | ⟨_, h2⟩)
      · omega
      · exact h2
  · rw [if_neg h]
    constructor
    · intro hs; exact Or.inl (of_decide_eq_true hs)
    · rintro (h1 | ⟨h2, _⟩)
      · exact decide_eq_true h1
      · exact absurd h2 h

/-- Witness of the amended C23 on `a = -(2^32 + 5)` and `b = 2^32 + 5`. -/
theorem comp_abs_less_magnitude_then_sign_witness :
    normalized ⟨true, [5, 1]⟩ ∧ normalized ⟨false, [5, 1]⟩ ∧
    (comp_abs_less ⟨true, [5, 1]⟩ ⟨false, [5, 1]⟩ = true ↔
      mag (⟨true, [5, 1]⟩ : big_integer).number < mag (⟨false, [5, 1]⟩ : big_integer).number ∨
        (mag (⟨true, [5, 1]⟩ : big_integer).number = mag (⟨false, [5, 1]⟩ : big_integer).number ∧
          (⟨true, [5, 1]⟩ : big_integer).sign = true)) :=
  ⟨by decide, by decide,
    comp_abs_less_magnitude_then_sign ⟨true, [5, 1]⟩ ⟨false, [5, 1]⟩ (by decide) (by decide)⟩

/-- C24, the scale of `long_divide` being at least 1 for every top limb,
evaluated on the normalized divisor `b = 2^64 - 1` (limbs `2^32 - 1`,
`2^32 - 1`): the 32-bit sum `b.number.back() + 1` is 0 and the scale is a
machine division by zero, while the next smaller top limb `2^32 - 2` gives the
scale 1. -/
theorem division_scale_counterexample :
    normalized ⟨false, [4294967295, 4294967295]⟩ ∧
    long_divide_scale ⟨false, [4294967295, 4294967295]⟩ = .error .machine_division_by_zero ∧
    long_divide_scale ⟨false, [4294967295, 4294967294]⟩ = .ok 1 := by
  refine ⟨by decide, by rfl, by rfl⟩

/-- C25: for all normalized `a` and `b` with `len(b) >= 2`, `len(a) >= len(b)`
and the top limb of `b` different from `2^32 - 1`, `long_divide(a, b)` returns
a pair `(q, r)` of normalized values with `|a| = q * |b| + r` and `r < |b|`,
and limb `j` of `q` is digit `j` of `|a| / |b|` in base `2^32`. -/
theorem long_division_correct (a b : big_integer) (ha : normalized a) (hb : normalized b)
    (hm : 2 ≤ b.number.length) (hn : b.number.length ≤ a.number.length)
    (htop : b.number.getLastD 0 ≠ 4294967295) :
    ∃ q r, long_divide a b = .ok (q, r) ∧ normalized q ∧ normalized r ∧
      mag a.number = mag q.number * mag b.number + mag r.number ∧
      mag r.number < mag b.number ∧
      ∀ j, q.number.getD j 0 = mag a.number / mag b.number / BASE ^ j % BASE := by
  obtain ⟨q, r, h1, h2, h3, _, _, h6, h7⟩ := long_divide_spec a b ha hb hm hn htop
  refine ⟨q, r, h1, h2, h3, h6, h7, fun j => ?_⟩
  rw [← quotient_digits _ _ _ _ h7 h6]
  exact getD_eq_digit h2.1 j

/-- Witness of C25 on `a = 2^64 + 7` and `b = 5 * 2^32 + 3`. -/
theorem long_division_correct_witness :
    normalized ⟨false, [7, 0, 1]⟩ ∧ normalized ⟨false, [3, 5]⟩ ∧
    ∃ q r, long_divide ⟨false, [7, 0, 1]⟩ ⟨false, [3, 5]⟩ = .ok (q, r) ∧
      normalized q ∧ normalized r ∧
      mag (⟨false, [7, 0, 1]⟩ : big_integer).number =
        mag q.number * mag (⟨false, [3, 5]⟩ : big_integer).number + mag r.number ∧
      mag r.number < mag (⟨false, [3, 5]⟩ : big_integer).number ∧
      ∀ j, q.number.getD j 0 =
        mag (⟨false, [7, 0, 1]⟩ : big_integer).number /
          mag (⟨false, [3, 5]⟩ : big_integer).number / BASE ^ j % BASE :=
  ⟨by decide, by decide,
    long_division_correct ⟨false, [7, 0, 1]⟩ ⟨false, [3, 5]⟩ (by decide) (by decide)
      (by decide) (by decide) (by decide)⟩

/-- C26: for all normalized `a` and `b`, neither of them a zero with the sign
flag set, `a < b`, `a > b`, `a <= b` and `a >= b` are the comparisons of the
integers the two denote. -/
theorem ordering_agrees_with_integers (a b : big_integer) (ha : normalized a)
    (hb : normalized b) (hca : ¬ (a.number = [] ∧ a.sign = true))
    (hcb : ¬ (b.number = [] ∧ b.sign = true)) :
    (op_lt a b = true ↔ val a < val b) ∧ (op_gt a b = true ↔ val b < val a) ∧
      (op_le a b = true ↔ val a ≤ val b) ∧ (op_ge a b = true ↔ val b ≤ val a) :=
  ordering_spec a b ha hb hca hcb

/-- Witness of C26 on `a = -(2^32 + 5)` and `b = -7`. -/
theorem ordering_agrees_with_integers_witness :
    normalized ⟨true, [5, 1]⟩ ∧ normalized ⟨true, [7]⟩ ∧
    ((op_lt ⟨true, [5, 1]⟩ ⟨true, [7]⟩ = true ↔ val ⟨true, [5, 1]⟩ < val ⟨true, [7]⟩) ∧
      (op_gt ⟨true, [5, 1]⟩ ⟨true, [7]⟩ = true ↔ val ⟨true, [7]⟩ < val ⟨true, [5, 1]⟩) ∧
      (op_le ⟨true, [5, 1]⟩ ⟨true, [7]⟩ = true ↔ val ⟨true, [5, 1]⟩ ≤ val ⟨true, [7]⟩) ∧
      (op_ge ⟨true, [5, 1]⟩ ⟨true, [7]⟩ = true ↔ val ⟨true, [7]⟩ ≤ val ⟨true, [5, 1]⟩)) :=
  ⟨by decide, by decide,
    ordering_agrees_with_integers ⟨true, [5, 1]⟩ ⟨true, [7]⟩ (by decide) (by decide)
      (by decide) (by decide)⟩

/-- C27: for every normalized `a` that denotes a non-negative integer and every
shift amount `n`, `a >> n` returns a normalized value that denotes
`floor(a / 2^n)`; when `n / 32` is at least the number of limbs that value is
zero. -/
theorem shift_right_nonneg_floor (a : big_integer) (n : Nat) (ha : normalized a)
    (h0 : 0 ≤ val a) :
    ∃ r, op_shr a n = .ok r ∧ val r = val a / 2 ^ n ∧ normalized r ∧
      (a.number.length ≤ n / 32 → val r = 0) := by
  obtain ⟨r, h1, h2, h3⟩ := op_shr_assign_nonneg a n ha h0
  refine ⟨r, h1, h2, h3, fun hlen => ?_⟩
  rw [h2]
  have hv : val a = (mag a.number : Int) := by
    unfold val at h0 ⊢
    split
    · rename_i hs
      rw [if_pos hs] at h0
      omega
    · rfl
  have hlt : mag a.number < 2 ^ n := by
    have h4 := mag_lt ha.1
    have h5 : BASE ^ a.number.length ≤ 2 ^ n := by
      rw [BASE_eq, ← pow_mul]
      exact Nat.pow_le_pow_right (by omega) (by omega)
    omega
  rw [hv]
  exact Int.ediv_eq_zero_of_lt (by omega) (by exact_mod_cast hlt)

/-- Witness of C27 on `a = 7 * 2^32 + 5` and `n = 70`, a shift past both limbs. -/
theorem shift_right_nonneg_floor_witness :
    normalized ⟨false, [5, 7]⟩ ∧ 0 ≤ val ⟨false, [5, 7]⟩ ∧
    ∃ r, op_shr ⟨false, [5, 7]⟩ 70 = .ok r ∧ val r = val ⟨false, [5, 7]⟩ / 2 ^ 70 ∧
      normalized r ∧
      ((⟨false, [5, 7]⟩ : big_integer).number.length ≤ 70 / 32 → val r = 0) :=
  ⟨by decide, by decide, shift_right_nonneg_floor ⟨false, [5, 7]⟩ 70 (by decide) (by decide)⟩

/-- C28, every limb read of long division being in bounds, evaluated on the
normalized operands `a = 2^63` and `b = 2^63 + 1`: the trial
digit is 1, the correction loop runs once, `dq -= d` leaves `dq` without limbs,
and the window subtraction then reads `dq[0]`, `dq[1]` and `dq[2]`. -/
theorem long_divide_reads_out_of_bounds :
    normalized ⟨false, [0, 2147483648]⟩ ∧ normalized ⟨false, [1, 2147483648]⟩ ∧
    trial ⟨false, [0, 2147483648, 0]⟩ ⟨false, [1, 2147483648]⟩ 0 2 = .ok 1 ∧
    correct_loop ⟨false, [0, 2147483648, 0]⟩ ⟨false, [1, 2147483648]⟩ 0 2 1
      ⟨false, [1, 2147483648, 0]⟩ = (0, ⟨false, []⟩) ∧
    window_sub_loop_in_bounds [] 0 [0, 2147483648, 0] 3 = false ∧
    long_divide_in_bounds ⟨false, [0, 2147483648]⟩ ⟨false, [1, 2147483648]⟩ = false := by
  refine ⟨by decide, by decide, by rfl, by decide, by decide, by decide⟩

end big_integer
